import Mathlib

/-!
Verification of the improcc image-processing library core.

This file shallowly embeds the numeric image-processing engine of
`src/improc.c` in Lean 4: the coordinate-domain image model, pixel
setters with dynamic-range clamping, the pixelwise binary operations,
LUT application, flips, the chamfer and Meijster-Roerdink-Hesselink
distance transforms, the sliding-window morphology, and the 2D FFT.

Modelling conventions:
- C `int` values and coordinates are modelled as `ℤ` (the algorithms are
  only meaningful far below the 2^31 overflow boundary; where an overflow
  could matter it is noted at the definition).
- Pixel matrices `int **pixels` (accessed as `pixels[y][x]`) are modelled
  as total functions `ℕ → ℕ → ℤ` over 0-based storage coordinates;
  entries outside the allocated width x height block correspond to memory
  that the C code never touches and are irrelevant junk.
- A `fatalError` (process abort) is modelled by returning `none` from an
  `Option`-valued function.
- The `warning` log emitted by the clamping setters is modelled by the
  decidable predicate `warnsRange` (true exactly when the C code would
  print a warning).
- Floating-point `double complex` arithmetic of the FFT is idealised as
  exact arithmetic over `ℂ`.
-/

/-- Rectangular coordinate domain with inclusive bounds, as in `improc.h`. -/
structure ImageDomain where
  minX : ℤ
  maxX : ℤ
  minY : ℤ
  maxY : ℤ
deriving DecidableEq, Repr

/-- Width of a domain: `1 + maxX - minX` (bounds included), from `getWidth`. -/
def getWidth (d : ImageDomain) : ℤ := 1 + d.maxX - d.minX

/-- Height of a domain: `1 + maxY - minY` (bounds included), from `getHeight`. -/
def getHeight (d : ImageDomain) : ℤ := 1 + d.maxY - d.minY

/-- Integer image: a domain, a dynamic range and a pixel store, from `IntImage`.
`pixels y x` is storage cell `pixels[y][x]` of the C struct (0-based). -/
structure IntImage where
  domain : ImageDomain
  minRange : ℤ
  maxRange : ℤ
  pixels : ℕ → ℕ → ℤ

/-- RGB image: three channel stores over one domain, from `RgbImage`. -/
structure RgbImage where
  domain : ImageDomain
  minRange : ℤ
  maxRange : ℤ
  red : ℕ → ℕ → ℤ
  green : ℕ → ℕ → ℤ
  blue : ℕ → ℕ → ℤ

/-- Complex image, from `ComplexImage` (pixel values are exact complex numbers,
idealising the C `double complex`). -/
structure ComplexImage where
  domain : ImageDomain
  pixels : ℕ → ℕ → ℂ

/-- Width of an image as a natural number (C stores it in an `int`;
for any validly constructed image it is positive). -/
def wN (im : IntImage) : ℕ := (getWidth im.domain).toNat

/-- Height of an image as a natural number. -/
def hN (im : IntImage) : ℕ := (getHeight im.domain).toNat

/-- Dynamic-range clamp performed by `setIntPixel` / `setIntPixelI`:
first values below `minRange` are raised to `minRange`, then values above
`maxRange` are lowered to `maxRange - 1` (the asymmetric exclusive-upper
clamp of the C code), in that order. -/
def clampRange (minR maxR v : ℤ) : ℤ :=
  if (if v < minR then minR else v) > maxR then maxR - 1
  else (if v < minR then minR else v)

/-- Predicate: does `setIntPixel`-style code log a warning for value `v`?
It warns when the first clamp fires or when the (possibly raised) value
still exceeds `maxRange`. -/
def warnsRange (minR maxR v : ℤ) : Prop :=
  v < minR ∨ (if v < minR then minR else v) > maxR

instance (minR maxR v : ℤ) : Decidable (warnsRange minR maxR v) := by
  unfold warnsRange; infer_instance

/-- Index-relative pixel read `getIntPixelI` (checked mode aborts when out of
bounds; all uses below are in bounds, so the read is modelled totally). -/
def getIntPixelI (im : IntImage) (x y : ℕ) : ℤ := im.pixels y x

/-- Index-relative pixel write `setIntPixelI`: clamps to the dynamic range
(logging a warning, see `warnsRange`) and stores at storage cell `(x, y)`. -/
def setIntPixelI (im : IntImage) (x y : ℕ) (v : ℤ) : IntImage :=
  { im with pixels := fun y2 x2 =>
      if y2 = y ∧ x2 = x then clampRange im.minRange im.maxRange v
      else im.pixels y2 x2 }

/-- Domain-relative pixel write `setIntPixel`: identical clamp, the
coordinate is translated by the domain minima before storing. In checked
mode the C code aborts when `(x, y)` is outside the domain; the claims
below only use in-domain coordinates. -/
def setIntPixel (im : IntImage) (x y : ℤ) (v : ℤ) : IntImage :=
  setIntPixelI im (x - im.domain.minX).toNat (y - im.domain.minY).toNat v

/-- Domain-relative pixel read `getIntPixel`. -/
def getIntPixel (im : IntImage) (x y : ℤ) : ℤ :=
  im.pixels (y - im.domain.minY).toNat (x - im.domain.minX).toNat

/-- In-domain test, from `isInDomain`. -/
def isInDomain (d : ImageDomain) (x y : ℤ) : Prop :=
  d.minX ≤ x ∧ x ≤ d.maxX ∧ d.minY ≤ y ∧ y ≤ d.maxY

instance (d : ImageDomain) (x y : ℤ) : Decidable (isInDomain d x y) := by
  unfold isInDomain; infer_instance

/-- What a `setIntPixelI` write stores at its own cell. -/
theorem setIntPixelI_pixels (im : IntImage) (x y : ℕ) (v : ℤ) :
    (setIntPixelI im x y v).pixels y x = clampRange im.minRange im.maxRange v := by
  simp [setIntPixelI]

/-- What a `setIntPixel` write stores, read back through `getIntPixel`. -/
theorem getIntPixel_setIntPixel (im : IntImage) (x y v : ℤ) :
    getIntPixel (setIntPixel im x y v) x y = clampRange im.minRange im.maxRange v := by
  simp [getIntPixel, setIntPixel, setIntPixelI]

/-- Fresh allocation `allocateIntImageGrid`: the C buffer contents are
uninitialised `malloc` memory; every algorithm below writes a cell before
reading it, so the junk initial store is modelled as all zeroes. -/
def allocateIntImageGrid (minX maxX minY maxY minV maxV : ℤ) : IntImage :=
  { domain := ⟨minX, maxX, minY, maxY⟩, minRange := minV, maxRange := maxV,
    pixels := fun _ _ => 0 }

/-- Allocation copying domain and range of an existing image,
from `allocateFromIntImage`. -/
def allocateFromIntImage (im : IntImage) : IntImage :=
  allocateIntImageGrid im.domain.minX im.domain.maxX im.domain.minY im.domain.maxY
    im.minRange im.maxRange

/-- Binary pixelwise application, from `applyFunctionIntImage`: the result is
allocated from image A (so it carries A's domain and dynamic range) and each
in-bounds cell is written once via `setIntPixelI`, hence clamped to A's
range. The C double loop writes every cell of the width x height block
exactly once; the store is expressed directly as that one write per cell. -/
def applyFunctionIntImage (imA imB : IntImage) (f : ℤ → ℤ → ℤ) : IntImage :=
  { domain := imA.domain, minRange := imA.minRange, maxRange := imA.maxRange,
    pixels := fun y x =>
      if x < wN imA ∧ y < hN imA then
        clampRange imA.minRange imA.maxRange (f (imA.pixels y x) (imB.pixels y x))
      else 0 }

/-- Binary operator `maxOp` of the C source. -/
def maxOp (a b : ℤ) : ℤ := if a > b then a else b

/-- Binary operator `minOp` of the C source. -/
def minOp (a b : ℤ) : ℤ := if a > b then b else a

/-- Binary operator `addOp` of the C source (C `int` overflow would wrap;
modelled exactly on `ℤ`). -/
def addOp (a b : ℤ) : ℤ := a + b

/-- Binary operator `subtractOp` of the C source. -/
def subtractOp (a b : ℤ) : ℤ := a - b

/-- Binary operator `multiplyOp` of the C source. -/
def multiplyOp (a b : ℤ) : ℤ := a * b

/-- Domain comparison guard `compareDomains` composed with
`applyFunctionIntImage`: `none` models the fatal error raised when any of
the four bounds differ. -/
def combineIntImage (imA imB : IntImage) (f : ℤ → ℤ → ℤ) : Option IntImage :=
  if imA.domain = imB.domain then some (applyFunctionIntImage imA imB f) else none

/-- Pixelwise maximum `maxIntImage`. -/
def maxIntImage (imA imB : IntImage) : Option IntImage := combineIntImage imA imB maxOp

/-- Pixelwise minimum `minIntImage`. -/
def minIntImage (imA imB : IntImage) : Option IntImage := combineIntImage imA imB minOp

/-- Pixelwise sum `addIntImage`. -/
def addIntImage (imA imB : IntImage) : Option IntImage := combineIntImage imA imB addOp

/-- Pixelwise difference `subtractIntImage`. -/
def subtractIntImage (imA imB : IntImage) : Option IntImage := combineIntImage imA imB subtractOp

/-- Pixelwise product `multiplyIntImage`. -/
def multiplyIntImage (imA imB : IntImage) : Option IntImage := combineIntImage imA imB multiplyOp

/-- Lookup-table application `applyLutIntImage`. The two guards model the
two fatal errors (`minRange < 0`, `maxRange > LUTSize`). Each in-bounds cell
becomes `LUT[pixel]`, written through `setIntPixelI` into an image allocated
from the input (hence clamped to the input's dynamic range). The C array
read `LUT[v]` is modelled with `List.getD`; reads beyond the table length
(which the bounds claims are about) yield the junk default `0`. -/
def applyLutIntImage (im : IntImage) (lut : List ℤ) : Option IntImage :=
  if im.minRange < 0 then none
  else if im.maxRange > (lut.length : ℤ) then none
  else some
    { domain := im.domain, minRange := im.minRange, maxRange := im.maxRange,
      pixels := fun y x =>
        if x < wN im ∧ y < hN im then
          clampRange im.minRange im.maxRange (lut.getD (im.pixels y x).toNat 0)
        else 0 }

/-- Domain translation `translateIntImage`: only the bounds move, the
storage is untouched. -/
def translateIntImage (im : IntImage) (dx dy : ℤ) : IntImage :=
  { im with domain := ⟨im.domain.minX + dx, im.domain.maxX + dx,
                       im.domain.minY + dy, im.domain.maxY + dy⟩ }

/-- Domain mirror `flipDomainHorizontal`: negates and swaps the X bounds. -/
def flipDomainHorizontal (d : ImageDomain) : ImageDomain :=
  { d with minX := -d.maxX, maxX := -d.minX }

/-- Domain mirror `flipDomainVertical`: negates and swaps the Y bounds. -/
def flipDomainVertical (d : ImageDomain) : ImageDomain :=
  { d with minY := -d.maxY, maxY := -d.minY }

/-- Exchange of storage rows `r1` and `r2` in a pixel store. -/
def swapRows (f : ℕ → ℕ → ℤ) (r1 r2 : ℕ) : ℕ → ℕ → ℤ :=
  fun y x => if y = r1 then f r2 x else if y = r2 then f r1 x else f y x

/-- Storage part of `flipIntImageVertical`: the C loop
`for (y = 0; y <= height/2; y++)` swaps rows `y` and `height-1-y` for every
`y` up to and including `height/2` (note the inclusive bound, faithfully
reproduced here). -/
def flipRowsLoop (f : ℕ → ℕ → ℤ) (height : ℕ) : ℕ → ℕ → ℤ :=
  (List.range (height / 2 + 1)).foldl (fun g y => swapRows g y (height - 1 - y)) f

/-- Vertical flip `flipIntImageVertical`: runs the row-swap loop on the
storage, then mirrors the Y bounds via `flipDomainVertical`. -/
def flipIntImageVertical (im : IntImage) : IntImage :=
  { domain := flipDomainVertical im.domain, minRange := im.minRange,
    maxRange := im.maxRange, pixels := flipRowsLoop im.pixels (hN im) }

/-- Vertical flip `flipRgbImageVertical` of the C source: it runs the same
row-swap loop on each channel but then calls `flipDomainHorizontal` (this
mirrors the X bounds; `flipDomainVertical` is not called). -/
def flipRgbImageVertical (im : RgbImage) : RgbImage :=
  let h := (getHeight im.domain).toNat
  { domain := flipDomainHorizontal im.domain, minRange := im.minRange,
    maxRange := im.maxRange,
    red := flipRowsLoop im.red h,
    green := flipRowsLoop im.green h,
    blue := flipRowsLoop im.blue h }

/-! Claim C5: pixelwise binary operations. -/

/-- Claim C5 (amended): each of the five pixelwise operations is fatal
(returns `none`) exactly when the domains differ in some bound; on equal
domains it returns an image over that domain carrying the first operand's
dynamic range, in which every pixel is the operator applied to the matching
input pixels and then clamped into the first operand's dynamic range
(the write goes through `setIntPixelI`). -/
theorem combine_c5 (imA imB : IntImage) :
    (imA.domain ≠ imB.domain →
      maxIntImage imA imB = none ∧ minIntImage imA imB = none ∧
      addIntImage imA imB = none ∧ subtractIntImage imA imB = none ∧
      multiplyIntImage imA imB = none) ∧
    (imA.domain = imB.domain →
      ∀ F : IntImage → IntImage → Option IntImage, ∀ f : ℤ → ℤ → ℤ,
        ((F = maxIntImage ∧ f = maxOp) ∨ (F = minIntImage ∧ f = minOp) ∨
         (F = addIntImage ∧ f = addOp) ∨ (F = subtractIntImage ∧ f = subtractOp) ∨
         (F = multiplyIntImage ∧ f = multiplyOp)) →
        ∃ r, F imA imB = some r ∧
          r.domain = imA.domain ∧ r.minRange = imA.minRange ∧ r.maxRange = imA.maxRange ∧
          ∀ x y : ℕ, x < wN imA → y < hN imA →
            r.pixels y x =
              clampRange imA.minRange imA.maxRange (f (imA.pixels y x) (imB.pixels y x))) := by
  constructor
  · intro hne
    refine ⟨?_, ?_, ?_, ?_, ?_⟩ <;>
      simp [maxIntImage, minIntImage, addIntImage, subtractIntImage, multiplyIntImage,
        combineIntImage, hne]
  · intro heq F f hFf
    have hgen : ∀ g : ℤ → ℤ → ℤ,
        ∃ r, combineIntImage imA imB g = some r ∧
          r.domain = imA.domain ∧ r.minRange = imA.minRange ∧ r.maxRange = imA.maxRange ∧
          ∀ x y : ℕ, x < wN imA → y < hN imA →
            r.pixels y x =
              clampRange imA.minRange imA.maxRange (g (imA.pixels y x) (imB.pixels y x)) := by
      intro g
      refine ⟨applyFunctionIntImage imA imB g, by simp [combineIntImage, heq], rfl, rfl, rfl, ?_⟩
      intro x y hx hy
      simp [applyFunctionIntImage, hx, hy]
    rcases hFf with ⟨hF, hf⟩ | ⟨hF, hf⟩ | ⟨hF, hf⟩ | ⟨hF, hf⟩ | ⟨hF, hf⟩ <;>
      subst hF <;> subst hf <;>
      first
        | exact hgen maxOp
        | exact hgen minOp
        | exact hgen addOp
        | exact hgen subtractOp
        | exact hgen multiplyOp

/-- Concrete 1x1 image with range 0..10 and pixel value 8, first operand. -/
def c5A : IntImage := ⟨⟨0, 0, 0, 0⟩, 0, 10, fun _ _ => 8⟩

/-- Concrete 1x1 image with range 0..10 and pixel value 8, second operand. -/
def c5B : IntImage := ⟨⟨0, 0, 0, 0⟩, 0, 10, fun _ _ => 8⟩

/-- Claim C5, counterexample to the claim as stated: adding two in-range
pixels 8 + 8 = 16 on an image of dynamic range 0..10 stores 9 (the clamp
`maxRange - 1`), not the operator value 16. -/
theorem combine_c5_counterexample :
    Option.map (fun r => r.pixels 0 0) (addIntImage c5A c5B) = some 9 ∧
    (9 : ℤ) ≠ addOp (c5A.pixels 0 0) (c5B.pixels 0 0) := by decide

/-- Claim C5, witness: the amended theorem applied to the two concrete
images above, for the pixelwise maximum. -/
theorem combine_c5_witness :
    ∃ r, maxIntImage c5A c5B = some r ∧ r.minRange = c5A.minRange ∧
      r.pixels 0 0 = clampRange c5A.minRange c5A.maxRange (maxOp 8 8) := by
  obtain ⟨r, hr, _, hmin, _, hpix⟩ :=
    (combine_c5 c5A c5B).2 (by decide) maxIntImage maxOp (Or.inl ⟨rfl, rfl⟩)
  exact ⟨r, hr, hmin, hpix 0 0 (by decide) (by decide)⟩

/-! Claim C6: dynamic-range clamping on pixel writes. -/

/-- Claim C6 (amended with the proviso `minRange ≤ maxRange`): for an
in-domain coordinate, `setIntPixel` and `setIntPixelI` store `minRange`
for a value below `minRange` (logging a warning), store `maxRange - 1` for
a value above `maxRange` (logging a warning), and store the value
unchanged, without warning, when it lies inside the dynamic range.
The write never aborts (the functions are total). -/
theorem setIntPixel_c6 (im : IntImage) (hr : im.minRange ≤ im.maxRange)
    (x y v : ℤ) (hin : isInDomain im.domain x y) (xi yi : ℕ)
    (hxi : xi < wN im) (hyi : yi < hN im) :
    (v < im.minRange →
      getIntPixel (setIntPixel im x y v) x y = im.minRange ∧
      (setIntPixelI im xi yi v).pixels yi xi = im.minRange ∧
      warnsRange im.minRange im.maxRange v) ∧
    (v > im.maxRange →
      getIntPixel (setIntPixel im x y v) x y = im.maxRange - 1 ∧
      (setIntPixelI im xi yi v).pixels yi xi = im.maxRange - 1 ∧
      warnsRange im.minRange im.maxRange v) ∧
    (im.minRange ≤ v → v ≤ im.maxRange →
      getIntPixel (setIntPixel im x y v) x y = v ∧
      (setIntPixelI im xi yi v).pixels yi xi = v ∧
      ¬ warnsRange im.minRange im.maxRange v) := by
  rw [getIntPixel_setIntPixel, setIntPixelI_pixels]
  unfold clampRange warnsRange
  refine ⟨?_, ?_, ?_⟩
  · intro hv
    refine ⟨?_, ?_, ?_⟩ <;> split_ifs <;> omega
  · intro hv
    refine ⟨?_, ?_, ?_⟩ <;> split_ifs <;> omega
  · intro hv1 hv2
    refine ⟨?_, ?_, ?_⟩ <;> split_ifs <;> omega

/-- Concrete 1x1 image with the degenerate dynamic range `minRange = 1 >
0 = maxRange` (the C allocator performs no validation of the range). -/
def c6Img : IntImage := ⟨⟨0, 0, 0, 0⟩, 1, 0, fun _ _ => 0⟩

/-- Claim C6, counterexample to the claim as stated: on an image whose
declared range has `minRange > maxRange`, writing the value 0 (below
`minRange = 1`) stores `-1` (the second clamp fires on the raised value),
not `minRange`. -/
theorem setIntPixel_c6_counterexample :
    (0 : ℤ) < c6Img.minRange ∧
    (setIntPixelI c6Img 0 0 0).pixels 0 0 = -1 ∧ (-1 : ℤ) ≠ c6Img.minRange := by decide

/-- Concrete 1x1 image with the ordinary range 0..10. -/
def c6Wit : IntImage := ⟨⟨0, 0, 0, 0⟩, 0, 10, fun _ _ => 0⟩

/-- Claim C6, witness: the amended theorem applied at a concrete image,
for a value below the range (stored as `minRange`, with a warning). -/
theorem setIntPixel_c6_witness :
    getIntPixel (setIntPixel c6Wit 0 0 (-3)) 0 0 = c6Wit.minRange ∧
    (setIntPixelI c6Wit 0 0 (-3)).pixels 0 0 = c6Wit.minRange ∧
    warnsRange c6Wit.minRange c6Wit.maxRange (-3) :=
  (setIntPixel_c6 c6Wit (by decide) 0 0 (-3) (by decide) 0 0
    (by decide) (by decide)).1 (by decide)

/-! Claim C7: LUT application bounds and values. -/

/-- Claim C7 (amended): when all pixels lie in the declared range and the
two fatal guards pass (`0 ≤ minRange`, `maxRange ≤ LUTSize`), every lookup
index lies in `0 ≤ i ≤ LUTSize` (the index `i = LUTSize`, one past the
end, is possible when a pixel equals `maxRange = LUTSize`); whenever the
index is strictly below `LUTSize` the output pixel is `LUT[pixel]` clamped
into the image's dynamic range. -/
theorem applyLut_c7 (im : IntImage) (lut : List ℤ)
    (hpix : ∀ x y : ℕ, x < wN im → y < hN im →
      im.minRange ≤ im.pixels y x ∧ im.pixels y x ≤ im.maxRange)
    (h0 : 0 ≤ im.minRange) (hL : im.maxRange ≤ (lut.length : ℤ)) :
    ∃ r, applyLutIntImage im lut = some r ∧
      ∀ x y : ℕ, x < wN im → y < hN im →
        0 ≤ im.pixels y x ∧ im.pixels y x ≤ (lut.length : ℤ) ∧
        (im.pixels y x < (lut.length : ℤ) →
          r.pixels y x =
            clampRange im.minRange im.maxRange (lut.getD (im.pixels y x).toNat 0)) := by
  unfold applyLutIntImage
  rw [if_neg (by omega), if_neg (by omega)]
  refine ⟨_, rfl, ?_⟩
  intro x y hx hy
  obtain ⟨h1, h2⟩ := hpix x y hx hy
  exact ⟨by omega, by omega, fun _ => by simp [hx, hy]⟩

/-- Concrete 1x1 image with range 0..1 whose pixel equals `maxRange = 1`. -/
def c7Im : IntImage := ⟨⟨0, 0, 0, 0⟩, 0, 1, fun _ _ => 1⟩

/-- Concrete 1x1 image with range 0..2 and pixel 0. -/
def c7Im2 : IntImage := ⟨⟨0, 0, 0, 0⟩, 0, 2, fun _ _ => 0⟩

/-- Claim C7, counterexample to the claim as stated, in two parts.
First: with a LUT of one entry and a pixel equal to `maxRange = LUTSize
= 1`, the guards pass (no abort) yet the lookup index 1 is not within the
bounds of a 1-entry array. Second: with range 0..2 and `LUT[0] = 5`, the
output pixel is 1 (5 clamped to `maxRange - 1`), not `LUT[pixel] = 5`. -/
theorem applyLut_c7_counterexample :
    ((applyLutIntImage c7Im [42]).isSome = true ∧
      ¬ ((c7Im.pixels 0 0).toNat < ([42] : List ℤ).length)) ∧
    (Option.map (fun r => r.pixels 0 0) (applyLutIntImage c7Im2 [5, 0, 0]) = some 1 ∧
      (1 : ℤ) ≠ ([5, 0, 0] : List ℤ).getD (c7Im2.pixels 0 0).toNat 0) := by decide

/-- Concrete 1x1 image with range 0..3 and pixel 1 for the C7 witness. -/
def c7Wit : IntImage := ⟨⟨0, 0, 0, 0⟩, 0, 3, fun _ _ => 1⟩

/-- Claim C7, witness: the amended theorem applied at a concrete image and
the table 10, 11, 12. -/
theorem applyLut_c7_witness :
    ∃ r, applyLutIntImage c7Wit [10, 11, 12] = some r ∧
      0 ≤ c7Wit.pixels 0 0 ∧ c7Wit.pixels 0 0 ≤ 3 ∧
      (c7Wit.pixels 0 0 < 3 →
        r.pixels 0 0 = clampRange c7Wit.minRange c7Wit.maxRange
          (([10, 11, 12] : List ℤ).getD (c7Wit.pixels 0 0).toNat 0)) := by
  obtain ⟨r, hr, h⟩ := applyLut_c7 c7Wit [10, 11, 12]
    (fun x y _ _ => by refine ⟨?_, ?_⟩ <;> norm_num [c7Wit]) (by decide) (by decide)
  obtain ⟨ha, hb, hc⟩ := h 0 0 (by decide) (by decide)
  exact ⟨r, hr, ha, hb, hc⟩

/-! Claim C8: vertical flips. -/

/-- Concrete 1x2 integer image: row 0 holds 5, row 1 holds 7. -/
def c8Int : IntImage := ⟨⟨0, 0, 0, 1⟩, 0, 255, fun y _ => if y = 0 then 5 else 7⟩

/-- Concrete RGB image over the domain 1..2 x 3..4 (all channels zero). -/
def c8Rgb : RgbImage :=
  ⟨⟨1, 2, 3, 4⟩, 0, 255, fun _ _ => 0, fun _ _ => 0, fun _ _ => 0⟩

/-- Claim C8, evaluation at the failing inputs (the claim is a code bug).
For the 1x2 integer image the storage is unchanged by the vertical flip
(row 0 still holds 5, though the input's reversed row order would put 7
there): the inclusive loop bound `y <= height/2` swaps the two rows twice.
The Y-bound mirroring of the integer flip itself is correct
(domain becomes 0..0 x -1..0). For the RGB image, `flipRgbImageVertical`
calls `flipDomainHorizontal`, so the domain becomes -2..-1 x 3..4 instead
of the claimed 1..2 x -4..-3. -/
theorem flip_c8_code_bug :
    (flipIntImageVertical c8Int).pixels 0 0 = 5 ∧ c8Int.pixels 1 0 = 7 ∧ (5 : ℤ) ≠ 7 ∧
    (flipIntImageVertical c8Int).domain = ⟨0, 0, -1, 0⟩ ∧
    (flipRgbImageVertical c8Rgb).domain = ⟨-2, -1, 3, 4⟩ ∧
    (⟨-2, -1, 3, 4⟩ : ImageDomain) ≠ ⟨1, 2, -4, -3⟩ := by decide

/-! Raster-scan machinery: the C distance-transform passes walk the pixel
grid in a fixed order, writing each cell exactly once from already-written
cells. `writeFold` captures one such pass; the lemmas recover the per-cell
recurrence satisfied by the final state. -/

/-- Sequential pass over `order`, writing `f st p` at each position `p`. -/
def writeFold {α β : Type} [DecidableEq α] (order : List α)
    (f : (α → β) → α → β) (init : α → β) : α → β :=
  order.foldl (fun st p => Function.update st p (f st p)) init

theorem writeFold_append {α β : Type} [DecidableEq α] (l1 l2 : List α)
    (f : (α → β) → α → β) (init : α → β) :
    writeFold (l1 ++ l2) f init = writeFold l2 f (writeFold l1 f init) := by
  simp [writeFold, List.foldl_append]

theorem writeFold_notMem {α β : Type} [DecidableEq α] {l : List α} {p : α}
    (hp : p ∉ l) (f : (α → β) → α → β) (init : α → β) :
    writeFold l f init p = init p := by
  induction l generalizing init with
  | nil => rfl
  | cons a l ih =>
      have hpa : p ≠ a := fun h => hp (h ▸ List.mem_cons_self a l)
      have hpl : p ∉ l := fun h => hp (List.mem_cons_of_mem a h)
      show writeFold l f (Function.update init a (f init a)) p = init p
      rw [ih hpl]
      exact Function.update_noteq hpa _ _

/-- Per-cell recurrence of a `writeFold` pass: if the order is pairwise
related by `R` and duplicate-free, then at each written position the final
value is `f` of a state that carries the initial value at `p` itself and
the final values at every position not strictly after `p`. -/
theorem writeFold_rec {α β : Type} [DecidableEq α] (order : List α)
    (f : (α → β) → α → β) (init : α → β) (R : α → α → Prop)
    (hpw : order.Pairwise R) (hnd : order.Nodup) (p : α) (hp : p ∈ order) :
    ∃ st : α → β, writeFold order f init p = f st p ∧ st p = init p ∧
      ∀ q, q ≠ p → ¬ R p q → st q = writeFold order f init q := by
  obtain ⟨l1, l2, rfl⟩ := List.append_of_mem hp
  have hnd' := hnd
  rw [List.nodup_append] at hnd'
  obtain ⟨hnd1, hnd2, hdisj⟩ := hnd'
  have hpl2 : p ∉ l2 := fun h => (List.nodup_cons.mp hnd2).1 h
  have hpl1 : p ∉ l1 := fun h => hdisj h (List.mem_cons_self p l2)
  have hRl2 : ∀ q ∈ l2, R p q := by
    have := (List.pairwise_append.mp hpw).2.1
    exact fun q hq => (List.pairwise_cons.mp this).1 q hq
  refine ⟨writeFold l1 f init, ?_, ?_, ?_⟩
  · rw [writeFold_append]
    show writeFold l2 f
      (Function.update (writeFold l1 f init) p (f (writeFold l1 f init) p)) p = _
    rw [writeFold_notMem hpl2, Function.update_same]
  · exact writeFold_notMem hpl1 f init
  · intro q hqp hqR
    have hql2 : q ∉ l2 := fun h => hqR (hRl2 q h)
    rw [writeFold_append]
    show _ = writeFold l2 f
      (Function.update (writeFold l1 f init) p (f (writeFold l1 f init) p)) q
    rw [writeFold_notMem hql2, Function.update_noteq hqp]

/-- Grid-membership of a storage coordinate pair. -/
def inGrid (w h : ℕ) (p : ℤ × ℤ) : Prop :=
  0 ≤ p.1 ∧ p.1 < (w : ℤ) ∧ 0 ≤ p.2 ∧ p.2 < (h : ℤ)

instance (w h : ℕ) (p : ℤ × ℤ) : Decidable (inGrid w h p) := by
  unfold inGrid; infer_instance

/-- Strict raster order: `p` is visited before `q` in a top-down,
left-to-right scan. -/
def rasterLt (p q : ℤ × ℤ) : Prop := p.2 < q.2 ∨ (p.2 = q.2 ∧ p.1 < q.1)

instance (p q : ℤ × ℤ) : Decidable (rasterLt p q) := by
  unfold rasterLt; infer_instance

theorem rasterLt_asymm {p q : ℤ × ℤ} (h : rasterLt p q) : ¬ rasterLt q p := by
  unfold rasterLt at *; omega

theorem rasterLt_ne {p q : ℤ × ℤ} (h : rasterLt p q) : p ≠ q := by
  intro he; subst he; unfold rasterLt at h; omega

/-- The coordinates of the `width x height` grid in raster order (the order
of the C double loops `for y ... for x ...`). -/
def rasterCoords (w h : ℕ) : List (ℤ × ℤ) :=
  (List.range (w * h)).map (fun k => (((k % w : ℕ) : ℤ), ((k / w : ℕ) : ℤ)))

theorem mem_rasterCoords {w h : ℕ} {p : ℤ × ℤ} :
    p ∈ rasterCoords w h ↔ inGrid w h p := by
  unfold rasterCoords
  constructor
  · intro hp
    obtain ⟨k, hk, he⟩ := List.mem_map.mp hp
    have hk' := List.mem_range.mp hk
    have hw : 0 < w := by
      rcases Nat.eq_zero_or_pos w with h0 | h0
      · rw [h0, Nat.zero_mul] at hk'; omega
      · exact h0
    have h1 : k % w < w := Nat.mod_lt _ hw
    have h2 : k / w < h := by
      refine (Nat.div_lt_iff_lt_mul hw).mpr ?_
      rw [Nat.mul_comm w h] at hk'
      exact hk'
    subst he
    unfold inGrid
    dsimp only
    exact ⟨Int.natCast_nonneg _, by exact_mod_cast h1,
      Int.natCast_nonneg _, by exact_mod_cast h2⟩
  · intro hin
    obtain ⟨h1, h2, h3, h4⟩ := hin
    refine List.mem_map.mpr ⟨p.2.toNat * w + p.1.toNat, List.mem_range.mpr ?_, ?_⟩
    · have hx : p.1.toNat < w := by omega
      have hy : p.2.toNat < h := by omega
      calc p.2.toNat * w + p.1.toNat < p.2.toNat * w + w := by omega
        _ = (p.2.toNat + 1) * w := by ring
        _ ≤ h * w := Nat.mul_le_mul_right w (by omega)
        _ = w * h := Nat.mul_comm h w
    · have hx : p.1.toNat < w := by omega
      have hmod : (p.2.toNat * w + p.1.toNat) % w = p.1.toNat := by
        rw [Nat.mul_comm p.2.toNat w, Nat.mul_add_mod]
        exact Nat.mod_eq_of_lt hx
      have hdiv : (p.2.toNat * w + p.1.toNat) / w = p.2.toNat := by
        rw [Nat.mul_comm p.2.toNat w, Nat.mul_add_div (by omega), Nat.div_eq_of_lt hx]
        omega
      rw [hmod, hdiv]
      have hx' : (p.1.toNat : ℤ) = p.1 := by omega
      have hy' : (p.2.toNat : ℤ) = p.2 := by omega
      rw [hx', hy']

theorem rasterCoords_pairwise (w h : ℕ) : (rasterCoords w h).Pairwise rasterLt := by
  unfold rasterCoords
  refine List.Pairwise.map _ ?_ (List.pairwise_lt_range (w * h))
  intro a b hab
  unfold rasterLt
  dsimp only
  rcases Nat.lt_or_ge (a / w) (b / w) with hdiv | hdiv
  · left; exact_mod_cast hdiv
  · have h3 : a / w ≤ b / w := Nat.div_le_div_right (le_of_lt hab)
    have hd : a / w = b / w := le_antisymm h3 hdiv
    right
    constructor
    · exact_mod_cast hd
    · have ha : w * (b / w) + a % w = a := by
        rw [← hd]; exact Nat.div_add_mod a w
      have hb : w * (b / w) + b % w = b := Nat.div_add_mod b w
      have hab2 : a % w < b % w := by linarith
      exact_mod_cast hab2

theorem rasterCoords_nodup (w h : ℕ) : (rasterCoords w h).Nodup :=
  (rasterCoords_pairwise w h).imp (fun h => rasterLt_ne h)

/-! Distance transforms (`maskDistanceTransform`, `dt4RosenfeldPfaltz`,
`dt8RosenfeldPfaltz`, `dtMeijsterRoerdinkHesselink`, `distanceTransform`). -/

/-- Storage read at a signed coordinate pair (in-grid uses only). -/
def pixAt (pix : ℕ → ℕ → ℤ) (p : ℤ × ℤ) : ℤ := pix p.2.toNat p.1.toNat

/-- One step of the neighbour minimum of `maskDistanceTransform`:
`minnb = (minnb < nb ? minnb : nb)` for a neighbour inside the domain,
unchanged otherwise. -/
def nbStep (w h : ℕ) (st : ℤ × ℤ → ℤ) (p : ℤ × ℤ) (acc : ℤ) (m : ℤ × ℤ) : ℤ :=
  if inGrid w h (p.1 + m.1, p.2 + m.2) then
    if acc < st (p.1 + m.1, p.2 + m.2) then acc else st (p.1 + m.1, p.2 + m.2)
  else acc

/-- Minimum over the in-bounds mask neighbours, from the inner loop of
`maskDistanceTransform`: `minnb` starts at `infinity`. -/
def nbMinFold (w h : ℕ) (mask : List (ℤ × ℤ)) (st : ℤ × ℤ → ℤ)
    (p : ℤ × ℤ) (inf : ℤ) : ℤ :=
  mask.foldl (nbStep w h st p) inf

/-- The post-processing `minnb = (minnb < infinity ? 1 + minnb : infinity)`. -/
def capInf (inf v : ℤ) : ℤ := if v < inf then 1 + v else inf

/-- Cell update of the first chamfer pass: background cells get 0,
foreground cells get the capped mask minimum; every store goes through the
range clamp of `setIntPixel` on the result image of range 0..infinity. -/
def pass1Step (w h : ℕ) (mask : List (ℤ × ℤ)) (fg : ℤ) (pix : ℕ → ℕ → ℤ)
    (inf : ℤ) (st : ℤ × ℤ → ℤ) (p : ℤ × ℤ) : ℤ :=
  if pixAt pix p ≠ fg then clampRange 0 inf 0
  else clampRange 0 inf (capInf inf (nbMinFold w h mask st p inf))

/-- First (top-down, left-to-right) pass of `maskDistanceTransform`. -/
def maskDTPass1 (w h : ℕ) (mask : List (ℤ × ℤ)) (fg : ℤ)
    (pix : ℕ → ℕ → ℤ) (inf : ℤ) : ℤ × ℤ → ℤ :=
  writeFold (rasterCoords w h) (pass1Step w h mask fg pix inf) (fun _ => 0)

/-- The mirrored mask of the second pass (`x - maskDx`, `y - maskDy`). -/
def negMask (mask : List (ℤ × ℤ)) : List (ℤ × ℤ) :=
  mask.map (fun m => (-m.1, -m.2))

/-- Cell update of the second chamfer pass: cells with positive value take
the minimum of their value and the capped minimum over the mirrored mask. -/
def pass2Step (w h : ℕ) (mask : List (ℤ × ℤ)) (inf : ℤ)
    (st : ℤ × ℤ → ℤ) (p : ℤ × ℤ) : ℤ :=
  if st p > 0 then
    clampRange 0 inf
      (if capInf inf (nbMinFold w h (negMask mask) st p inf) < st p
       then capInf inf (nbMinFold w h (negMask mask) st p inf)
       else st p)
  else st p

/-- Second (bottom-up, right-to-left) pass of `maskDistanceTransform`. -/
def maskDTPass2 (w h : ℕ) (mask : List (ℤ × ℤ)) (inf : ℤ)
    (dt1 : ℤ × ℤ → ℤ) : ℤ × ℤ → ℤ :=
  writeFold (rasterCoords w h).reverse (pass2Step w h mask inf) dt1

/-- Both passes composed, on raw storage. -/
def maskDTStorage (w h : ℕ) (mask : List (ℤ × ℤ)) (fg : ℤ)
    (pix : ℕ → ℕ → ℤ) : ℤ × ℤ → ℤ :=
  maskDTPass2 w h mask ((w : ℤ) + (h : ℤ) + 1)
    (maskDTPass1 w h mask fg pix ((w : ℤ) + (h : ℤ) + 1))

/-- Chamfer distance transform `maskDistanceTransform`: the result image
shares the input's domain and carries dynamic range `0 .. width+height+1`. -/
def maskDistanceTransform (mask : List (ℤ × ℤ)) (foreground : ℤ)
    (im : IntImage) : IntImage :=
  { domain := im.domain, minRange := 0,
    maxRange := (wN im : ℤ) + (hN im : ℤ) + 1,
    pixels := fun y x =>
      maskDTStorage (wN im) (hN im) mask foreground im.pixels ((x : ℤ), (y : ℤ)) }

/-- 4-neighbour chamfer transform `dt4RosenfeldPfaltz` (mask entries
`(-1,0)` and `(0,-1)`). -/
def dt4RosenfeldPfaltz (foreground : ℤ) (im : IntImage) : IntImage :=
  maskDistanceTransform [(-1, 0), (0, -1)] foreground im

/-- 8-neighbour chamfer transform `dt8RosenfeldPfaltz` (mask entries
`(-1,-1)`, `(0,-1)`, `(1,-1)`, `(-1,0)`). -/
def dt8RosenfeldPfaltz (foreground : ℤ) (im : IntImage) : IntImage :=
  maskDistanceTransform [(-1, -1), (0, -1), (1, -1), (-1, 0)] foreground im

/-- Rounded integer square root: the exact value of the C conversion
`(int)(0.5 + sqrt((double)n))` under exact real arithmetic, i.e. the
nearest integer to the square root (`0.5 + sqrt n` is never an integer for
integer `n` that is not a perfect square of a half-integer, which cannot
occur, so the truncation is the rounding). -/
def natSqrtRound (n : ℕ) : ℕ :=
  if n ≤ Nat.sqrt n * (Nat.sqrt n + 1) then Nat.sqrt n else Nat.sqrt n + 1

/-- State of the forward scan of the horizontal phase of
`dtMeijsterRoerdinkHesselink`: the stack top `q` and the apex / crossover
arrays `s` and `t`. -/
structure ScanState where
  q : ℕ
  s : ℕ → ℤ
  t : ℕ → ℤ

/-- The pop loop `while (q >= 0 && f(t[q], s[q]) > f(t[q], x)) q--`:
returns the first stack level (from `q` downwards) at which the stacked
parabola is not beaten at its own crossover, or `none` when the loop pops
past level 0 (C leaves `q = -1`). -/
def popLoop (v : ℤ → ℤ) (s t : ℕ → ℤ) (x : ℤ) : ℕ → Option ℕ
  | 0 =>
      if (t 0 - s 0) * (t 0 - s 0) + v (s 0) > (t 0 - x) * (t 0 - x) + v x
      then none else some 0
  | (j + 1) =>
      if (t (j+1) - s (j+1)) * (t (j+1) - s (j+1)) + v (s (j+1)) >
         (t (j+1) - x) * (t (j+1) - x) + v x
      then popLoop v s t x j else some (j + 1)

/-- One step of the forward scan at column `x`: pop dominated parabolas,
then either restart the stack at apex `x`, or push `x` with the integer
crossover `w = 1 + (x*x - s*s + v(x) - v(s)) / (2*(x - s))` (C integer
division truncates toward zero, `Int.tdiv`; the dividend is nonnegative
here so this is also the floor) provided `w < width`. -/
def scanStep (width : ℤ) (v : ℤ → ℤ) (st : ScanState) (x : ℤ) : ScanState :=
  match popLoop v st.s st.t x st.q with
  | none => ⟨0, Function.update st.s 0 x, st.t⟩
  | some q2 =>
      let cross := 1 + Int.tdiv (x * x - st.s q2 * st.s q2 + v x - v (st.s q2))
                        (2 * (x - st.s q2))
      if cross < width then
        ⟨q2 + 1, Function.update st.s (q2+1) x, Function.update st.t (q2+1) cross⟩
      else ⟨q2, st.s, st.t⟩

/-- The forward scan over `x = 1 .. width-1`, starting from
`q = s[0] = t[0] = 0` (the array remainders are uninitialised in C and
modelled as zero; they are never read). -/
def forwardScan (wi : ℕ) (v : ℤ → ℤ) : ScanState :=
  (List.range (wi - 1)).foldl
    (fun (st : ScanState) (i : ℕ) => scanStep (wi : ℤ) v st ((i : ℤ) + 1))
    ⟨0, fun _ => 0, fun _ => 0⟩

/-- The backward scan: for `x = width-1` down to `0` emit
`(x - s[q])^2 + v(s[q])` (or its rounded square root), stepping the stack
down when `x = t[q]`; each store goes through the clamp of `setIntPixel`
on the range 0..infinity result image. -/
def backScan (takeSquareRoot : Bool) (inf : ℤ) (v : ℤ → ℤ)
    (st : ScanState) (wi : ℕ) : ℤ → ℤ :=
  ((List.range wi).foldl (fun (acc : ℕ × (ℤ → ℤ)) (xr : ℕ) =>
      let x : ℤ := (wi : ℤ) - 1 - (xr : ℤ)
      let value := (x - st.s acc.1) * (x - st.s acc.1) + v (st.s acc.1)
      let out := Function.update acc.2 x
        (clampRange 0 inf
          (if takeSquareRoot then (natSqrtRound value.toNat : ℤ) else value))
      (if x = st.t acc.1 then acc.1 - 1 else acc.1, out))
    (st.q, fun _ => 0)).2

/-- Squared vertical distances, from the middle phase of
`dtMeijsterRoerdinkHesselink`: square the vertical chamfer value when it
is below `height`, else replace it by `infinity = width^2 + height^2`
(stores pass through the clamp of the range 0..infinity image `vdt`). -/
def vdtStorage (w h : ℕ) (fg : ℤ) (pix : ℕ → ℕ → ℤ) : ℤ × ℤ → ℤ :=
  fun p =>
    clampRange 0 ((w : ℤ) * (w : ℤ) + (h : ℤ) * (h : ℤ))
      (if maskDTStorage w h [(0, -1)] fg pix p < (h : ℤ)
       then maskDTStorage w h [(0, -1)] fg pix p * maskDTStorage w h [(0, -1)] fg pix p
       else (w : ℤ) * (w : ℤ) + (h : ℤ) * (h : ℤ))

/-- The complete Meijster-Roerdink-Hesselink storage computation: vertical
phase (the C call passes `maskLength = 2` with the one-element arrays
`maskDx = [0]`, `maskDy = [-1]`; the second entry read is out of bounds in
C and undefined, so the declared one-element vertical mask is modelled),
squaring phase, then the per-row lower-envelope phase. -/
def mrhStorage (takeSquareRoot : Bool) (w h : ℕ) (fg : ℤ)
    (pix : ℕ → ℕ → ℤ) : ℤ × ℤ → ℤ :=
  fun p =>
    backScan takeSquareRoot ((w : ℤ) * (w : ℤ) + (h : ℤ) * (h : ℤ))
      (fun u => vdtStorage w h fg pix (u, p.2))
      (forwardScan w (fun u => vdtStorage w h fg pix (u, p.2))) w p.1

/-- Euclidean distance transform `dtMeijsterRoerdinkHesselink`: the input
is first translated to the origin and the result translated back (the two
translations only move domain bounds, so the result carries the input's
domain); the result range is 0..width^2+height^2. -/
def dtMeijsterRoerdinkHesselink (takeSquareRoot : Bool) (foreground : ℤ)
    (im : IntImage) : IntImage :=
  let im0 := translateIntImage im (-im.domain.minX) (-im.domain.minY)
  { domain := im.domain, minRange := 0,
    maxRange := (wN im : ℤ) * (wN im : ℤ) + (hN im : ℤ) * (hN im : ℤ),
    pixels := fun y x =>
      mrhStorage takeSquareRoot (wN im) (hN im) foreground im0.pixels
        ((x : ℤ), (y : ℤ)) }

/-- The four distance metrics accepted by `distanceTransform`. -/
inductive DTMetric where
  | MANHATTAN
  | CHESSBOARD
  | EUCLID
  | SQEUCLID
deriving DecidableEq

/-- Metric dispatch `distanceTransform` (an unrecognized `int` selector is
fatal in C; the Lean metric type has exactly the four valid values). -/
def distanceTransform (im : IntImage) (metric : DTMetric) (foreground : ℤ) :
    IntImage :=
  match metric with
  | .MANHATTAN => dt4RosenfeldPfaltz foreground im
  | .CHESSBOARD => dt8RosenfeldPfaltz foreground im
  | .EUCLID => dtMeijsterRoerdinkHesselink true foreground im
  | .SQEUCLID => dtMeijsterRoerdinkHesselink false foreground im

/-! Claim C9: domain preservation and translation invariance. -/

theorem wN_translate (im : IntImage) (dx dy : ℤ) :
    wN (translateIntImage im dx dy) = wN im := by
  unfold wN translateIntImage getWidth
  congr 1
  ring

theorem hN_translate (im : IntImage) (dx dy : ℤ) :
    hN (translateIntImage im dx dy) = hN im := by
  unfold hN translateIntImage getHeight
  congr 1
  ring

/-- Claim C9: for every image, metric and foreground value the distance
transform returns an image whose domain bounds equal the input's, and the
computed pixel store is invariant under translating the input domain (the
internal translation to the origin is a pure coordinate-frame device: the
stored values depend only on the storage and the width and height). The
input image itself is immutable in this embedding, matching the C code,
which receives the `IntImage` struct by value and never writes through the
input's pixel buffer. -/
theorem distanceTransform_c9 (im : IntImage) (metric : DTMetric)
    (foreground dx dy : ℤ) :
    (distanceTransform im metric foreground).domain = im.domain ∧
    (distanceTransform (translateIntImage im dx dy) metric foreground).domain
      = (translateIntImage im dx dy).domain ∧
    ∀ x y : ℕ,
      (distanceTransform (translateIntImage im dx dy) metric foreground).pixels y x
        = (distanceTransform im metric foreground).pixels y x := by
  cases metric <;>
    refine ⟨rfl, rfl, ?_⟩ <;>
    intro x y <;>
    simp only [distanceTransform, dt4RosenfeldPfaltz, dt8RosenfeldPfaltz,
      dtMeijsterRoerdinkHesselink, maskDistanceTransform, wN_translate, hN_translate] <;>
    rfl

/-! Properties of the neighbour-minimum fold. -/

theorem nbFold_le_init (w h : ℕ) (st : ℤ × ℤ → ℤ) (p : ℤ × ℤ)
    (mask : List (ℤ × ℤ)) (a : ℤ) :
    mask.foldl (nbStep w h st p) a ≤ a := by
  induction mask generalizing a with
  | nil => exact le_refl a
  | cons m mask ih =>
      refine le_trans (ih (nbStep w h st p a m)) ?_
      unfold nbStep
      split_ifs <;> omega

theorem nbFold_le_nb (w h : ℕ) (st : ℤ × ℤ → ℤ) (p : ℤ × ℤ)
    (mask : List (ℤ × ℤ)) (a : ℤ) {m : ℤ × ℤ} (hm : m ∈ mask)
    (hg : inGrid w h (p.1 + m.1, p.2 + m.2)) :
    mask.foldl (nbStep w h st p) a ≤ st (p.1 + m.1, p.2 + m.2) := by
  induction mask generalizing a with
  | nil => cases hm
  | cons m0 mask ih =>
      rcases List.mem_cons.mp hm with he | hm2
      · subst he
        refine le_trans (nbFold_le_init w h st p mask _) ?_
        unfold nbStep
        rw [if_pos hg]
        split_ifs <;> omega
      · exact ih _ hm2

theorem le_nbFold (w h : ℕ) (st : ℤ × ℤ → ℤ) (p : ℤ × ℤ)
    (mask : List (ℤ × ℤ)) (a B : ℤ) (ha : B ≤ a)
    (hall : ∀ m ∈ mask, inGrid w h (p.1 + m.1, p.2 + m.2) →
      B ≤ st (p.1 + m.1, p.2 + m.2)) :
    B ≤ mask.foldl (nbStep w h st p) a := by
  induction mask generalizing a with
  | nil => exact ha
  | cons m mask ih =>
      refine ih _ ?_ (fun m2 hm2 hg2 => hall m2 (List.mem_cons_of_mem m hm2) hg2)
      unfold nbStep
      split_ifs with h1 h2
      · exact ha
      · exact hall m (List.mem_cons_self m mask) h1
      · exact ha

theorem nbFold_cases (w h : ℕ) (st : ℤ × ℤ → ℤ) (p : ℤ × ℤ)
    (mask : List (ℤ × ℤ)) (a : ℤ) :
    mask.foldl (nbStep w h st p) a = a ∨
      ∃ m ∈ mask, inGrid w h (p.1 + m.1, p.2 + m.2) ∧
        mask.foldl (nbStep w h st p) a = st (p.1 + m.1, p.2 + m.2) := by
  induction mask generalizing a with
  | nil => exact Or.inl rfl
  | cons m mask ih =>
      rw [List.foldl_cons]
      rcases ih (nbStep w h st p a m) with h | ⟨m2, hm2, hg2, he2⟩
      · rw [h]
        unfold nbStep
        split_ifs with h1 h2
        · exact Or.inl rfl
        · exact Or.inr ⟨m, List.mem_cons_self m mask, h1, rfl⟩
        · exact Or.inl rfl
      · exact Or.inr ⟨m2, List.mem_cons_of_mem m hm2, hg2, he2⟩

theorem nbFold_congr (w h : ℕ) (st st2 : ℤ × ℤ → ℤ) (p : ℤ × ℤ)
    (mask : List (ℤ × ℤ)) (a : ℤ)
    (hag : ∀ m ∈ mask, inGrid w h (p.1 + m.1, p.2 + m.2) →
      st (p.1 + m.1, p.2 + m.2) = st2 (p.1 + m.1, p.2 + m.2)) :
    mask.foldl (nbStep w h st p) a = mask.foldl (nbStep w h st2 p) a := by
  induction mask generalizing a with
  | nil => rfl
  | cons m mask ih =>
      have hstep : nbStep w h st p a m = nbStep w h st2 p a m := by
        unfold nbStep
        by_cases h1 : inGrid w h (p.1 + m.1, p.2 + m.2)
        · rw [if_pos h1, if_pos h1, hag m (List.mem_cons_self m mask) h1]
        · rw [if_neg h1, if_neg h1]
      rw [List.foldl_cons, List.foldl_cons, hstep]
      exact ih _ (fun m2 hm2 hg2 => hag m2 (List.mem_cons_of_mem m hm2) hg2)

/-! Per-cell recurrences of the two chamfer passes. -/

/-- A mask is causal when each offset points to a cell visited strictly
earlier in raster order (all three masks used by the library are). -/
def maskCausal (mask : List (ℤ × ℤ)) : Prop :=
  ∀ m ∈ mask, m.2 < 0 ∨ (m.2 = 0 ∧ m.1 < 0)

theorem maskDTPass1_notMem (w h : ℕ) (mask : List (ℤ × ℤ)) (fg : ℤ)
    (pix : ℕ → ℕ → ℤ) (inf : ℤ) (p : ℤ × ℤ) (hp : ¬ inGrid w h p) :
    maskDTPass1 w h mask fg pix inf p = 0 :=
  writeFold_notMem (fun hmem => hp (mem_rasterCoords.mp hmem)) _ _

theorem maskDTPass1_eq (w h : ℕ) (mask : List (ℤ × ℤ)) (fg : ℤ)
    (pix : ℕ → ℕ → ℤ) (inf : ℤ) (hc : maskCausal mask) (p : ℤ × ℤ)
    (hp : inGrid w h p) :
    maskDTPass1 w h mask fg pix inf p =
      pass1Step w h mask fg pix inf (maskDTPass1 w h mask fg pix inf) p := by
  obtain ⟨st, hval, hstp, hagree⟩ :=
    writeFold_rec (rasterCoords w h) (pass1Step w h mask fg pix inf)
      (fun _ => (0 : ℤ)) rasterLt
      (rasterCoords_pairwise w h) (rasterCoords_nodup w h) p (mem_rasterCoords.mpr hp)
  show writeFold (rasterCoords w h) (pass1Step w h mask fg pix inf) (fun _ => 0) p = _
  rw [hval]
  unfold pass1Step
  by_cases hbg : pixAt pix p ≠ fg
  · rw [if_pos hbg, if_pos hbg]
  · rw [if_neg hbg, if_neg hbg]
    congr 2
    unfold nbMinFold
    refine nbFold_congr w h st _ p mask inf ?_
    intro m hm hg
    have hlt : rasterLt (p.1 + m.1, p.2 + m.2) p := by
      rcases hc m hm with h1 | ⟨h1, h2⟩
      · exact Or.inl (by dsimp only; omega)
      · exact Or.inr ⟨by dsimp only; omega, by dsimp only; omega⟩
    exact hagree _ (rasterLt_ne hlt) (rasterLt_asymm hlt)

theorem maskDTPass2_notMem (w h : ℕ) (mask : List (ℤ × ℤ)) (inf : ℤ)
    (dt1 : ℤ × ℤ → ℤ) (p : ℤ × ℤ) (hp : ¬ inGrid w h p) :
    maskDTPass2 w h mask inf dt1 p = dt1 p :=
  writeFold_notMem
    (fun hmem => hp (mem_rasterCoords.mp (List.mem_reverse.mp hmem))) _ _

theorem maskDTPass2_eq (w h : ℕ) (mask : List (ℤ × ℤ)) (inf : ℤ)
    (dt1 : ℤ × ℤ → ℤ) (hc : maskCausal mask) (p : ℤ × ℤ) (hp : inGrid w h p) :
    maskDTPass2 w h mask inf dt1 p =
      if dt1 p > 0 then
        clampRange 0 inf
          (if capInf inf (nbMinFold w h (negMask mask)
                (maskDTPass2 w h mask inf dt1) p inf) < dt1 p
           then capInf inf (nbMinFold w h (negMask mask)
                (maskDTPass2 w h mask inf dt1) p inf)
           else dt1 p)
      else dt1 p := by
  obtain ⟨st, hval, hstp, hagree⟩ :=
    writeFold_rec (rasterCoords w h).reverse (pass2Step w h mask inf) dt1
      (fun a b => rasterLt b a)
      ((List.pairwise_reverse).mpr (rasterCoords_pairwise w h))
      (List.nodup_reverse.mpr (rasterCoords_nodup w h)) p
      (List.mem_reverse.mpr (mem_rasterCoords.mpr hp))
  show writeFold (rasterCoords w h).reverse (pass2Step w h mask inf) dt1 p = _
  rw [hval]
  unfold pass2Step
  rw [hstp]
  have hnb : nbMinFold w h (negMask mask) st p inf =
      nbMinFold w h (negMask mask) (maskDTPass2 w h mask inf dt1) p inf := by
    unfold nbMinFold
    refine nbFold_congr w h st _ p _ inf ?_
    intro m hm hg
    obtain ⟨m0, hm0, he0⟩ := List.mem_map.mp hm
    have hlt : rasterLt p (p.1 + m.1, p.2 + m.2) := by
      rcases hc m0 hm0 with h1 | ⟨h1, h2⟩
      · subst he0; exact Or.inl (by dsimp only; omega)
      · subst he0; exact Or.inr ⟨by dsimp only; omega, by dsimp only; omega⟩
    exact hagree _ (Ne.symm (rasterLt_ne hlt)) (rasterLt_asymm hlt)
  rw [hnb]

/-! Bounds and clean recurrences for the chamfer passes. -/

theorem clampRange_id (minR maxR v : ℤ) (h1 : minR ≤ v) (h2 : v ≤ maxR) :
    clampRange minR maxR v = v := by
  unfold clampRange
  split_ifs <;> omega

theorem clampRange_bounds (inf v : ℤ) (hinf : 0 < inf) :
    0 ≤ clampRange 0 inf v ∧ clampRange 0 inf v ≤ inf := by
  unfold clampRange
  split_ifs <;> omega

section ChamferLemmas

variable (w h : ℕ) (mask : List (ℤ × ℤ)) (fg : ℤ) (pix : ℕ → ℕ → ℤ) (inf : ℤ)

theorem maskDTPass1_bounds (p : ℤ × ℤ) (hinf : 0 < inf) (hc : maskCausal mask) :
    0 ≤ maskDTPass1 w h mask fg pix inf p ∧ maskDTPass1 w h mask fg pix inf p ≤ inf := by
  by_cases hp : inGrid w h p
  · rw [maskDTPass1_eq w h mask fg pix inf hc p hp]
    unfold pass1Step
    split_ifs <;> exact clampRange_bounds inf _ hinf
  · rw [maskDTPass1_notMem w h mask fg pix inf p hp]
    omega

theorem maskDTPass2_bounds (dt1 : ℤ × ℤ → ℤ) (p : ℤ × ℤ) (hinf : 0 < inf)
    (hc : maskCausal mask) (hd1 : ∀ q, 0 ≤ dt1 q ∧ dt1 q ≤ inf) :
    0 ≤ maskDTPass2 w h mask inf dt1 p ∧ maskDTPass2 w h mask inf dt1 p ≤ inf := by
  by_cases hp : inGrid w h p
  · rw [maskDTPass2_eq w h mask inf dt1 hc p hp]
    split_ifs with h1 h2
    · exact clampRange_bounds inf _ hinf
    · exact clampRange_bounds inf _ hinf
    · exact hd1 p
  · rw [maskDTPass2_notMem w h mask inf dt1 p hp]
    exact hd1 p

theorem capInf_bounds (v : ℤ) (hinf : 0 < inf) (h0 : 0 ≤ v) (h1 : v ≤ inf) :
    0 ≤ capInf inf v ∧ capInf inf v ≤ inf := by
  unfold capInf
  split_ifs <;> omega

/-- Clean first-pass recurrence: the clamp is the identity because the
stored values always lie inside the range 0..infinity. -/
theorem maskDTPass1_rec (hinf : 0 < inf) (hc : maskCausal mask) (p : ℤ × ℤ)
    (hp : inGrid w h p) :
    maskDTPass1 w h mask fg pix inf p =
      if pixAt pix p ≠ fg then 0
      else capInf inf (nbMinFold w h mask (maskDTPass1 w h mask fg pix inf) p inf) := by
  rw [maskDTPass1_eq w h mask fg pix inf hc p hp]
  unfold pass1Step
  split_ifs with hbg
  · exact clampRange_id 0 inf 0 (le_refl 0) (by omega)
  · have hnb0 : 0 ≤ nbMinFold w h mask (maskDTPass1 w h mask fg pix inf) p inf := by
      refine le_nbFold w h _ p mask inf 0 (by omega) ?_
      intro m hm hg
      exact (maskDTPass1_bounds w h mask fg pix inf _ hinf hc).1
    have hnb1 : nbMinFold w h mask (maskDTPass1 w h mask fg pix inf) p inf ≤ inf :=
      nbFold_le_init w h _ p mask inf
    obtain ⟨hb0, hb1⟩ := capInf_bounds inf _ hinf hnb0 hnb1
    exact clampRange_id 0 inf _ hb0 hb1

/-- Clean second-pass recurrence, with the C conditional written as `min`. -/
theorem maskDTPass2_rec (dt1 : ℤ × ℤ → ℤ) (hinf : 0 < inf) (hc : maskCausal mask)
    (hd1 : ∀ q, 0 ≤ dt1 q ∧ dt1 q ≤ inf) (p : ℤ × ℤ) (hp : inGrid w h p) :
    maskDTPass2 w h mask inf dt1 p =
      if dt1 p > 0 then
        min (capInf inf (nbMinFold w h (negMask mask)
          (maskDTPass2 w h mask inf dt1) p inf)) (dt1 p)
      else dt1 p := by
  rw [maskDTPass2_eq w h mask inf dt1 hc p hp]
  by_cases h1 : dt1 p > 0
  · rw [if_pos h1, if_pos h1]
    have hnb0 : 0 ≤ nbMinFold w h (negMask mask) (maskDTPass2 w h mask inf dt1) p inf := by
      refine le_nbFold w h _ p _ inf 0 (by omega) ?_
      intro m hm hg
      exact (maskDTPass2_bounds w h mask inf dt1 _ hinf hc hd1).1
    have hnb1 : nbMinFold w h (negMask mask) (maskDTPass2 w h mask inf dt1) p inf ≤ inf :=
      nbFold_le_init w h _ p _ inf
    obtain ⟨hb0, hb1⟩ := capInf_bounds inf _ hinf hnb0 hnb1
    have hmin0 : 0 ≤ min (capInf inf (nbMinFold w h (negMask mask)
        (maskDTPass2 w h mask inf dt1) p inf)) (dt1 p) := le_min hb0 (hd1 p).1
    have hmin1 : min (capInf inf (nbMinFold w h (negMask mask)
        (maskDTPass2 w h mask inf dt1) p inf)) (dt1 p) ≤ inf :=
      le_trans (min_le_right _ _) (hd1 p).2
    have hif : (if capInf inf (nbMinFold w h (negMask mask)
        (maskDTPass2 w h mask inf dt1) p inf) < dt1 p
        then capInf inf (nbMinFold w h (negMask mask)
          (maskDTPass2 w h mask inf dt1) p inf)
        else dt1 p) = min (capInf inf (nbMinFold w h (negMask mask)
          (maskDTPass2 w h mask inf dt1) p inf)) (dt1 p) := by
      rw [min_def]
      split_ifs <;> omega
    rw [hif, clampRange_id _ _ _ hmin0 hmin1]
  · rw [if_neg h1, if_neg h1]

/-- Background cells are 0 after pass 1. -/
theorem maskDTPass1_bg (hinf : 0 < inf) (hc : maskCausal mask) (p : ℤ × ℤ)
    (hp : inGrid w h p) (hbg : pixAt pix p ≠ fg) :
    maskDTPass1 w h mask fg pix inf p = 0 := by
  rw [maskDTPass1_rec w h mask fg pix inf hinf hc p hp, if_pos hbg]

/-- Pass 2 never raises a value. -/
theorem maskDTPass2_le_dt1 (dt1 : ℤ × ℤ → ℤ) (hinf : 0 < inf) (hc : maskCausal mask)
    (hd1 : ∀ q, 0 ≤ dt1 q ∧ dt1 q ≤ inf) (p : ℤ × ℤ) :
    maskDTPass2 w h mask inf dt1 p ≤ dt1 p := by
  by_cases hp : inGrid w h p
  · rw [maskDTPass2_rec w h mask inf dt1 hinf hc hd1 p hp]
    split_ifs with h1
    · exact min_le_right _ _
    · exact le_refl _
  · rw [maskDTPass2_notMem w h mask inf dt1 p hp]

/-- Background cells stay 0 after pass 2. -/
theorem maskDTPass2_bg (dt1 : ℤ × ℤ → ℤ) (hinf : 0 < inf) (hc : maskCausal mask)
    (hd1 : ∀ q, 0 ≤ dt1 q ∧ dt1 q ≤ inf) (p : ℤ × ℤ) (hp : inGrid w h p)
    (hbg : dt1 p = 0) :
    maskDTPass2 w h mask inf dt1 p = 0 := by
  rw [maskDTPass2_rec w h mask inf dt1 hinf hc hd1 p hp, hbg]
  norm_num

/-- Single-step propagation in pass 1: a cell is at most one more than any
in-grid mask neighbour. -/
theorem maskDTPass1_step (hinf : 0 < inf) (hc : maskCausal mask)
    {m : ℤ × ℤ} (hm : m ∈ mask) (p : ℤ × ℤ) (hp : inGrid w h p)
    (hg : inGrid w h (p.1 + m.1, p.2 + m.2)) :
    maskDTPass1 w h mask fg pix inf p ≤
      1 + maskDTPass1 w h mask fg pix inf (p.1 + m.1, p.2 + m.2) := by
  have hnbb := (maskDTPass1_bounds w h mask fg pix inf (p.1 + m.1, p.2 + m.2) hinf hc)
  rw [maskDTPass1_rec w h mask fg pix inf hinf hc p hp]
  split_ifs with hbg
  · omega
  · have hle : nbMinFold w h mask (maskDTPass1 w h mask fg pix inf) p inf ≤
        maskDTPass1 w h mask fg pix inf (p.1 + m.1, p.2 + m.2) :=
      nbFold_le_nb w h _ p mask inf hm hg
    unfold capInf
    split_ifs <;> omega

/-- Single-step propagation in pass 2, along the mirrored mask. -/
theorem maskDTPass2_step (dt1 : ℤ × ℤ → ℤ) (hinf : 0 < inf) (hc : maskCausal mask)
    (hd1 : ∀ q, 0 ≤ dt1 q ∧ dt1 q ≤ inf)
    {m : ℤ × ℤ} (hm : m ∈ mask) (p : ℤ × ℤ) (hp : inGrid w h p)
    (hg : inGrid w h (p.1 - m.1, p.2 - m.2)) :
    maskDTPass2 w h mask inf dt1 p ≤
      1 + maskDTPass2 w h mask inf dt1 (p.1 - m.1, p.2 - m.2) := by
  have hnbb := maskDTPass2_bounds w h mask inf dt1 (p.1 - m.1, p.2 - m.2) hinf hc hd1
  rw [maskDTPass2_rec w h mask inf dt1 hinf hc hd1 p hp]
  have hmem : ((-m.1, -m.2) : ℤ × ℤ) ∈ negMask mask :=
    List.mem_map.mpr ⟨m, hm, rfl⟩
  have hle : nbMinFold w h (negMask mask) (maskDTPass2 w h mask inf dt1) p inf ≤
      maskDTPass2 w h mask inf dt1 (p.1 - m.1, p.2 - m.2) := by
    have := nbFold_le_nb w h (maskDTPass2 w h mask inf dt1) p (negMask mask) inf
      hmem (by dsimp only; rw [show p.1 + -m.1 = p.1 - m.1 by ring,
        show p.2 + -m.2 = p.2 - m.2 by ring]; exact hg)
    rw [show p.1 + -m.1 = p.1 - m.1 by ring, show p.2 + -m.2 = p.2 - m.2 by ring] at this
    exact this
  split_ifs with h1
  · have := min_le_left (capInf inf (nbMinFold w h (negMask mask)
      (maskDTPass2 w h mask inf dt1) p inf)) (dt1 p)
    unfold capInf at *
    split_ifs at * <;> omega
  · have := (hd1 p).1
    omega

end ChamferLemmas

/-! Straight-line propagation chains along one mask direction. -/

theorem maskDTPass1_chain (w h : ℕ) (mask : List (ℤ × ℤ)) (fg : ℤ)
    (pix : ℕ → ℕ → ℤ) (inf : ℤ) (hinf : 0 < inf) (hc : maskCausal mask)
    (a b : ℤ) (hm : (a, b) ∈ mask) :
    ∀ (k : ℕ) (x y : ℤ), (∀ j : ℕ, j ≤ k → inGrid w h (x + j * a, y + j * b)) →
      maskDTPass1 w h mask fg pix inf (x, y) ≤
        (k : ℤ) + maskDTPass1 w h mask fg pix inf (x + k * a, y + k * b) := by
  intro k
  induction k with
  | zero =>
      intro x y hpath
      simp
  | succ k ih =>
      intro x y hpath
      have h0 : inGrid w h (x, y) := by
        have := hpath 0 (by omega)
        simpa using this
      have h1 : inGrid w h (x + a, y + b) := by
        have := hpath 1 (by omega)
        simpa using this
      have hstep := maskDTPass1_step w h mask fg pix inf hinf hc hm (x, y) h0
        (by dsimp only; exact h1)
      have hrest := ih (x + a) (y + b) (fun j hj => by
        have h2 := hpath (j + 1) (by omega)
        have e1 : x + ((j + 1 : ℕ) : ℤ) * a = x + a + (j : ℤ) * a := by push_cast; ring
        have e2 : y + ((j + 1 : ℕ) : ℤ) * b = y + b + (j : ℤ) * b := by push_cast; ring
        rw [e1, e2] at h2
        exact h2)
      have e1 : x + a + (k : ℤ) * a = x + ((k + 1 : ℕ) : ℤ) * a := by push_cast; ring
      have e2 : y + b + (k : ℤ) * b = y + ((k + 1 : ℕ) : ℤ) * b := by push_cast; ring
      rw [e1, e2] at hrest
      calc maskDTPass1 w h mask fg pix inf (x, y)
          ≤ 1 + maskDTPass1 w h mask fg pix inf (x + a, y + b) := hstep
        _ ≤ 1 + ((k : ℤ) + maskDTPass1 w h mask fg pix inf
              (x + ((k + 1 : ℕ) : ℤ) * a, y + ((k + 1 : ℕ) : ℤ) * b)) := by omega
        _ = ((k + 1 : ℕ) : ℤ) + maskDTPass1 w h mask fg pix inf
              (x + ((k + 1 : ℕ) : ℤ) * a, y + ((k + 1 : ℕ) : ℤ) * b) := by push_cast; ring

theorem maskDTPass2_chain (w h : ℕ) (mask : List (ℤ × ℤ)) (inf : ℤ)
    (dt1 : ℤ × ℤ → ℤ) (hinf : 0 < inf) (hc : maskCausal mask)
    (hd1 : ∀ q, 0 ≤ dt1 q ∧ dt1 q ≤ inf)
    (a b : ℤ) (hm : (a, b) ∈ mask) :
    ∀ (k : ℕ) (x y : ℤ), (∀ j : ℕ, j ≤ k → inGrid w h (x - j * a, y - j * b)) →
      maskDTPass2 w h mask inf dt1 (x, y) ≤
        (k : ℤ) + maskDTPass2 w h mask inf dt1 (x - k * a, y - k * b) := by
  intro k
  induction k with
  | zero =>
      intro x y hpath
      simp
  | succ k ih =>
      intro x y hpath
      have h0 : inGrid w h (x, y) := by
        have := hpath 0 (by omega)
        simpa using this
      have h1 : inGrid w h (x - a, y - b) := by
        have := hpath 1 (by omega)
        simpa using this
      have hstep := maskDTPass2_step w h mask inf dt1 hinf hc hd1 hm (x, y) h0
        (by dsimp only; exact h1)
      have hrest := ih (x - a) (y - b) (fun j hj => by
        have h2 := hpath (j + 1) (by omega)
        have e1 : x - ((j + 1 : ℕ) : ℤ) * a = x - a - (j : ℤ) * a := by push_cast; ring
        have e2 : y - ((j + 1 : ℕ) : ℤ) * b = y - b - (j : ℤ) * b := by push_cast; ring
        rw [e1, e2] at h2
        exact h2)
      have e1 : x - a - (k : ℤ) * a = x - ((k + 1 : ℕ) : ℤ) * a := by push_cast; ring
      have e2 : y - b - (k : ℤ) * b = y - ((k + 1 : ℕ) : ℤ) * b := by push_cast; ring
      rw [e1, e2] at hrest
      calc maskDTPass2 w h mask inf dt1 (x, y)
          ≤ 1 + maskDTPass2 w h mask inf dt1 (x - a, y - b) := hstep
        _ ≤ 1 + ((k : ℤ) + maskDTPass2 w h mask inf dt1
              (x - ((k + 1 : ℕ) : ℤ) * a, y - ((k + 1 : ℕ) : ℤ) * b)) := by omega
        _ = ((k + 1 : ℕ) : ℤ) + maskDTPass2 w h mask inf dt1
              (x - ((k + 1 : ℕ) : ℤ) * a, y - ((k + 1 : ℕ) : ℤ) * b) := by push_cast; ring

/-! Specified distances and the minimum over background pixels. These
definitions express what the claims assert; the distance transforms are
compared against them. -/

/-- City-block (4-neighbour chamfer) distance between two grid cells. -/
def manhattanD (p q : ℤ × ℤ) : ℤ :=
  ((p.1 - q.1).natAbs : ℤ) + ((p.2 - q.2).natAbs : ℤ)

/-- Chessboard (8-neighbour chamfer) distance between two grid cells. -/
def chessD (p q : ℤ × ℤ) : ℤ :=
  maxOp ((p.1 - q.1).natAbs : ℤ) ((p.2 - q.2).natAbs : ℤ)

/-- Vertical (single-column) distance: within one column the absolute row
difference, across columns the sentinel. -/
def vertD (inf : ℤ) (p q : ℤ × ℤ) : ℤ :=
  if p.1 = q.1 then ((p.2 - q.2).natAbs : ℤ) else inf

/-- The background cells of an image (value different from the foreground),
in raster order. -/
def bgCoords (w h : ℕ) (fg : ℤ) (pix : ℕ → ℕ → ℤ) : List (ℤ × ℤ) :=
  (rasterCoords w h).filter (fun q => decide (pixAt pix q ≠ fg))

theorem mem_bgCoords {w h : ℕ} {fg : ℤ} {pix : ℕ → ℕ → ℤ} {q : ℤ × ℤ} :
    q ∈ bgCoords w h fg pix ↔ inGrid w h q ∧ pixAt pix q ≠ fg := by
  unfold bgCoords
  rw [List.mem_filter, mem_rasterCoords]
  simp

/-- Minimum of a distance `d` from `p` to any background cell, starting
from the sentinel `inf` (so an all-foreground image yields `inf`). -/
def specMinD (d : ℤ × ℤ → ℤ × ℤ → ℤ) (w h : ℕ) (fg : ℤ)
    (pix : ℕ → ℕ → ℤ) (inf : ℤ) (p : ℤ × ℤ) : ℤ :=
  (bgCoords w h fg pix).foldl (fun acc q => min acc (d p q)) inf

theorem foldlMin_le_init {α : Type} (g : α → ℤ) (l : List α) (i : ℤ) :
    l.foldl (fun a b => min a (g b)) i ≤ i := by
  induction l generalizing i with
  | nil => exact le_refl i
  | cons a l ih => exact le_trans (ih _) (min_le_left _ _)

theorem foldlMin_le_mem {α : Type} (g : α → ℤ) (l : List α) (i : ℤ)
    {q : α} (hq : q ∈ l) :
    l.foldl (fun a b => min a (g b)) i ≤ g q := by
  induction l generalizing i with
  | nil => cases hq
  | cons a l ih =>
      rcases List.mem_cons.mp hq with he | hq2
      · subst he
        exact le_trans (foldlMin_le_init g l _) (min_le_right _ _)
      · exact ih _ hq2

theorem le_foldlMin {α : Type} (g : α → ℤ) (l : List α) (i B : ℤ)
    (hi : B ≤ i) (hl : ∀ q ∈ l, B ≤ g q) :
    B ≤ l.foldl (fun a b => min a (g b)) i := by
  induction l generalizing i with
  | nil => exact hi
  | cons a l ih =>
      exact ih _ (le_min hi (hl a (List.mem_cons_self a l)))
        (fun q hq => hl q (List.mem_cons_of_mem a hq))

theorem foldlMin_cases {α : Type} (g : α → ℤ) (l : List α) (i : ℤ) :
    l.foldl (fun a b => min a (g b)) i = i ∨
      ∃ q ∈ l, l.foldl (fun a b => min a (g b)) i = g q := by
  induction l generalizing i with
  | nil => exact Or.inl rfl
  | cons a l ih =>
      rw [List.foldl_cons]
      rcases ih (min i (g a)) with h | ⟨q, hq, he⟩
      · rw [h, min_def]
        split_ifs with h1
        · exact Or.inl rfl
        · exact Or.inr ⟨a, List.mem_cons_self a l, rfl⟩
      · exact Or.inr ⟨q, List.mem_cons_of_mem a hq, he⟩

/-- Moving the base point one step changes the background minimum by at
most one, provided the distance satisfies the matching triangle step. -/
theorem specMinD_step (d : ℤ × ℤ → ℤ × ℤ → ℤ) (w h : ℕ) (fg : ℤ)
    (pix : ℕ → ℕ → ℤ) (inf : ℤ) (p p2 : ℤ × ℤ)
    (hstep : ∀ q, d p q ≤ d p2 q + 1) :
    specMinD d w h fg pix inf p ≤ 1 + specMinD d w h fg pix inf p2 := by
  unfold specMinD
  rcases foldlMin_cases (d p2) (bgCoords w h fg pix) inf with he | ⟨q, hq, he⟩
  · rw [he]
    have := foldlMin_le_init (d p) (bgCoords w h fg pix) inf
    omega
  · rw [he]
    have h1 := foldlMin_le_mem (d p) (bgCoords w h fg pix) inf hq
    have h2 := hstep q
    omega

/-- Raster measure decreases along raster-earlier cells (used for strong
induction along pass 1). -/
theorem rasterMeasure_lt (w h : ℕ) {p q : ℤ × ℤ} (hp : inGrid w h p)
    (hq : inGrid w h q) (hlt : rasterLt q p) :
    (q.2 * w + q.1).toNat < (p.2 * w + p.1).toNat := by
  obtain ⟨hp1, hp2, hp3, hp4⟩ := hp
  obtain ⟨hq1, hq2, hq3, hq4⟩ := hq
  rcases hlt with h1 | ⟨h1, h2⟩
  · have e1 : (q.2 + 1) * (w : ℤ) = q.2 * w + w := by ring
    have h3 : (q.2 + 1) * (w : ℤ) ≤ p.2 * w :=
      mul_le_mul_of_nonneg_right (by omega) (by positivity)
    have hZ : q.2 * (w : ℤ) + q.1 < p.2 * w + p.1 := by omega
    have hq0 : 0 ≤ q.2 * (w : ℤ) + q.1 := by positivity
    omega
  · rw [h1]
    have hZ : p.2 * (w : ℤ) + q.1 < p.2 * w + p.1 := by omega
    have hq0 : 0 ≤ p.2 * (w : ℤ) + q.1 := by positivity
    omega

/-- Reverse raster measure decreases along raster-later cells (used for
strong induction along pass 2). -/
theorem rasterMeasure2_lt (w h : ℕ) {p q : ℤ × ℤ} (hp : inGrid w h p)
    (hq : inGrid w h q) (hlt : rasterLt p q) :
    (((h : ℤ) - 1 - q.2) * w + ((w : ℤ) - 1 - q.1)).toNat <
      (((h : ℤ) - 1 - p.2) * w + ((w : ℤ) - 1 - p.1)).toNat := by
  obtain ⟨hp1, hp2, hp3, hp4⟩ := hp
  obtain ⟨hq1, hq2, hq3, hq4⟩ := hq
  rcases hlt with h1 | ⟨h1, h2⟩
  · have h3 : (((h : ℤ) - 1 - q.2) + 1) * (w : ℤ) ≤ ((h : ℤ) - 1 - p.2) * w :=
      mul_le_mul_of_nonneg_right (by omega) (by positivity)
    have e1 : (((h : ℤ) - 1 - q.2) + 1) * (w : ℤ) = ((h : ℤ) - 1 - q.2) * w + w := by ring
    have hZ : ((h : ℤ) - 1 - q.2) * w + ((w : ℤ) - 1 - q.1) <
        ((h : ℤ) - 1 - p.2) * w + ((w : ℤ) - 1 - p.1) := by omega
    have hq0 : 0 ≤ ((h : ℤ) - 1 - q.2) * (w : ℤ) + ((w : ℤ) - 1 - q.1) := by
      have : 0 ≤ ((h : ℤ) - 1 - q.2) * (w : ℤ) :=
        mul_nonneg (by omega) (by positivity)
      omega
    omega
  · rw [h1]
    have hq0 : 0 ≤ ((h : ℤ) - 1 - q.2) * (w : ℤ) :=
      mul_nonneg (by omega) (by positivity)
    have hZ : ((h : ℤ) - 1 - q.2) * w + ((w : ℤ) - 1 - q.1) <
        ((h : ℤ) - 1 - q.2) * w + ((w : ℤ) - 1 - p.1) := by omega
    omega

/-! Lower bounds: each pass never drops below the true background
minimum. -/

theorem maskDTPass1_lb (w h : ℕ) (mask : List (ℤ × ℤ)) (fg : ℤ)
    (pix : ℕ → ℕ → ℤ) (inf : ℤ) (hinf : 0 < inf) (hc : maskCausal mask)
    (d : ℤ × ℤ → ℤ × ℤ → ℤ)
    (hdrefl : ∀ p, d p p = 0)
    (hdstep : ∀ m ∈ mask, ∀ p q, d p q ≤ d (p.1 + m.1, p.2 + m.2) q + 1) :
    ∀ p, inGrid w h p →
      specMinD d w h fg pix inf p ≤ maskDTPass1 w h mask fg pix inf p := by
  suffices H : ∀ n : ℕ, ∀ p, inGrid w h p → (p.2 * w + p.1).toNat = n →
      specMinD d w h fg pix inf p ≤ maskDTPass1 w h mask fg pix inf p by
    exact fun p hp => H _ p hp rfl
  intro n
  induction n using Nat.strong_induction_on with
  | _ n ih =>
      intro p hp hn
      rw [maskDTPass1_rec w h mask fg pix inf hinf hc p hp]
      split_ifs with hbg
      · have h1 : p ∈ bgCoords w h fg pix := mem_bgCoords.mpr ⟨hp, hbg⟩
        have h2 := foldlMin_le_mem (d p) (bgCoords w h fg pix) inf h1
        unfold specMinD
        rw [hdrefl p] at h2
        exact h2
      · rcases nbFold_cases w h (maskDTPass1 w h mask fg pix inf) p mask inf
          with he | ⟨m, hm, hg, he⟩
        · unfold nbMinFold capInf
          rw [he]
          rw [if_neg (by omega)]
          exact foldlMin_le_init (d p) (bgCoords w h fg pix) inf
        · have hlt : rasterLt (p.1 + m.1, p.2 + m.2) p := by
            rcases hc m hm with h1 | ⟨h1, h2⟩
            · exact Or.inl (by dsimp only; omega)
            · exact Or.inr ⟨by dsimp only; omega, by dsimp only; omega⟩
          have hmea := rasterMeasure_lt w h hp hg hlt
          have hih := ih _ (hn ▸ hmea) (p.1 + m.1, p.2 + m.2) hg rfl
          have hstep := specMinD_step d w h fg pix inf p (p.1 + m.1, p.2 + m.2)
            (fun q => hdstep m hm p q)
          have hle := foldlMin_le_init (d p) (bgCoords w h fg pix) inf
          unfold nbMinFold capInf
          rw [he]
          unfold specMinD at *
          split_ifs with h1 <;> omega

theorem maskDTPass2_lb (w h : ℕ) (mask : List (ℤ × ℤ)) (fg : ℤ)
    (pix : ℕ → ℕ → ℤ) (inf : ℤ) (dt1 : ℤ × ℤ → ℤ)
    (d : ℤ × ℤ → ℤ × ℤ → ℤ)
    (hinf : 0 < inf) (hc : maskCausal mask)
    (hd1 : ∀ q, 0 ≤ dt1 q ∧ dt1 q ≤ inf)
    (hd1lb : ∀ p, inGrid w h p → specMinD d w h fg pix inf p ≤ dt1 p)
    (hdstep : ∀ m ∈ mask, ∀ p q, d p q ≤ d (p.1 - m.1, p.2 - m.2) q + 1) :
    ∀ p, inGrid w h p →
      specMinD d w h fg pix inf p ≤ maskDTPass2 w h mask inf dt1 p := by
  suffices H : ∀ n : ℕ, ∀ p, inGrid w h p →
      ((((h : ℤ) - 1 - p.2) * w + ((w : ℤ) - 1 - p.1)).toNat = n) →
      specMinD d w h fg pix inf p ≤ maskDTPass2 w h mask inf dt1 p by
    exact fun p hp => H _ p hp rfl
  intro n
  induction n using Nat.strong_induction_on with
  | _ n ih =>
      intro p hp hn
      rw [maskDTPass2_rec w h mask inf dt1 hinf hc hd1 p hp]
      split_ifs with hpos
      · refine le_min ?_ (hd1lb p hp)
        rcases nbFold_cases w h (maskDTPass2 w h mask inf dt1) p (negMask mask) inf
          with he | ⟨m, hm, hg, he⟩
        · unfold nbMinFold capInf
          rw [he, if_neg (by omega)]
          exact foldlMin_le_init (d p) (bgCoords w h fg pix) inf
        · obtain ⟨m0, hm0, he0⟩ := List.mem_map.mp hm
          have hme : (p.1 + m.1, p.2 + m.2) = (p.1 - m0.1, p.2 - m0.2) := by
            subst he0; dsimp only; rw [Prod.mk.injEq]; constructor <;> ring
          have hlt : rasterLt p (p.1 + m.1, p.2 + m.2) := by
            rcases hc m0 hm0 with h1 | ⟨h1, h2⟩
            · subst he0; exact Or.inl (by dsimp only; omega)
            · subst he0; exact Or.inr ⟨by dsimp only; omega, by dsimp only; omega⟩
          have hmea := rasterMeasure2_lt w h hp hg hlt
          have hih := ih _ (hn ▸ hmea) (p.1 + m.1, p.2 + m.2) hg rfl
          have hstep := specMinD_step d w h fg pix inf p (p.1 + m.1, p.2 + m.2)
            (fun q => by rw [hme]; exact hdstep m0 hm0 p q)
          have hle := foldlMin_le_init (d p) (bgCoords w h fg pix) inf
          unfold nbMinFold capInf
          rw [he]
          unfold specMinD at *
          split_ifs with h1 <;> omega
      · exact hd1lb p hp

/-! Upper bounds: the two passes together reach every background cell by a
staircase of mask steps of the metric length. -/

/-- The 4-neighbour chamfer mask of `dt4RosenfeldPfaltz`. -/
def mask4 : List (ℤ × ℤ) := [(-1, 0), (0, -1)]

/-- The 8-neighbour chamfer mask of `dt8RosenfeldPfaltz`. -/
def mask8 : List (ℤ × ℤ) := [(-1, -1), (0, -1), (1, -1), (-1, 0)]

/-- The single-entry vertical mask of the first phase of
`dtMeijsterRoerdinkHesselink`. -/
def maskV : List (ℤ × ℤ) := [(0, -1)]

theorem mask4_causal : maskCausal mask4 := by
  intro m hm
  fin_cases hm <;> decide

theorem mask8_causal : maskCausal mask8 := by
  intro m hm
  fin_cases hm <;> decide

theorem maskV_causal : maskCausal maskV := by
  intro m hm
  fin_cases hm <;> decide
theorem dt4_ub (w h : ℕ) (fg : ℤ) (pix : ℕ → ℕ → ℤ) (p q : ℤ × ℤ)
    (hp : inGrid w h p) (hq : inGrid w h q) (hbg : pixAt pix q ≠ fg) :
    maskDTPass2 w h mask4 ((w : ℤ) + h + 1)
        (maskDTPass1 w h mask4 fg pix ((w : ℤ) + h + 1)) p ≤ manhattanD p q := by
  obtain ⟨px, py⟩ := p
  obtain ⟨qx, qy⟩ := q
  have hinf : (0 : ℤ) < (w : ℤ) + h + 1 := by positivity
  have hc := mask4_causal
  have hd1 : ∀ r, 0 ≤ maskDTPass1 w h mask4 fg pix ((w : ℤ) + h + 1) r ∧
      maskDTPass1 w h mask4 fg pix ((w : ℤ) + h + 1) r ≤ (w : ℤ) + h + 1 :=
    fun r => maskDTPass1_bounds w h mask4 fg pix _ r hinf hc
  have hq0 : maskDTPass1 w h mask4 fg pix ((w : ℤ) + h + 1) (qx, qy) = 0 :=
    maskDTPass1_bg w h mask4 fg pix _ hinf hc _ hq hbg
  obtain ⟨hp1, hp2, hp3, hp4⟩ := hp
  obtain ⟨hq1, hq2, hq3, hq4⟩ := hq
  dsimp only at hp1 hp2 hp3 hp4 hq1 hq2 hq3 hq4
  have hmemL : ((-1, 0) : ℤ × ℤ) ∈ mask4 := by decide
  have hmemU : ((0, -1) : ℤ × ℤ) ∈ mask4 := by decide
  rcases le_or_lt qx px with hx | hx <;> rcases le_or_lt qy py with hy | hy
  · -- q is up-left: pass 1 alone, left then up
    have hch1 := maskDTPass1_chain w h mask4 fg pix _ hinf hc (-1) 0 hmemL
      (px - qx).toNat px py (fun j hj => by unfold inGrid; dsimp only; omega)
    have he1 : (px + ((px - qx).toNat : ℤ) * (-1), py + ((px - qx).toNat : ℤ) * 0)
        = ((qx, py) : ℤ × ℤ) := by
      rw [Prod.mk.injEq]; constructor <;> omega
    rw [he1] at hch1
    have hch2 := maskDTPass1_chain w h mask4 fg pix _ hinf hc 0 (-1) hmemU
      (py - qy).toNat qx py (fun j hj => by unfold inGrid; dsimp only; omega)
    have he2 : (qx + ((py - qy).toNat : ℤ) * 0, py + ((py - qy).toNat : ℤ) * (-1))
        = ((qx, qy) : ℤ × ℤ) := by
      rw [Prod.mk.injEq]; constructor <;> omega
    rw [he2, hq0] at hch2
    have hle := maskDTPass2_le_dt1 w h mask4 _
      (maskDTPass1 w h mask4 fg pix ((w : ℤ) + h + 1)) hinf hc hd1 (px, py)
    unfold manhattanD
    dsimp only
    omega
  · -- q is below-left: pass 2 down, then pass 1 left along the row of q
    have hch1 := maskDTPass2_chain w h mask4 _
      (maskDTPass1 w h mask4 fg pix ((w : ℤ) + h + 1)) hinf hc hd1 0 (-1) hmemU
      (qy - py).toNat px py (fun j hj => by unfold inGrid; dsimp only; omega)
    have he1 : (px - ((qy - py).toNat : ℤ) * 0, py - ((qy - py).toNat : ℤ) * (-1))
        = ((px, qy) : ℤ × ℤ) := by
      rw [Prod.mk.injEq]; constructor <;> omega
    rw [he1] at hch1
    have hle := maskDTPass2_le_dt1 w h mask4 _
      (maskDTPass1 w h mask4 fg pix ((w : ℤ) + h + 1)) hinf hc hd1 (px, qy)
    have hch2 := maskDTPass1_chain w h mask4 fg pix _ hinf hc (-1) 0 hmemL
      (px - qx).toNat px qy (fun j hj => by unfold inGrid; dsimp only; omega)
    have he2 : (px + ((px - qx).toNat : ℤ) * (-1), qy + ((px - qx).toNat : ℤ) * 0)
        = ((qx, qy) : ℤ × ℤ) := by
      rw [Prod.mk.injEq]; constructor <;> omega
    rw [he2, hq0] at hch2
    unfold manhattanD
    dsimp only
    omega
  · -- q is up-right: pass 2 right, then pass 1 up along the column of q
    have hch1 := maskDTPass2_chain w h mask4 _
      (maskDTPass1 w h mask4 fg pix ((w : ℤ) + h + 1)) hinf hc hd1 (-1) 0 hmemL
      (qx - px).toNat px py (fun j hj => by unfold inGrid; dsimp only; omega)
    have he1 : (px - ((qx - px).toNat : ℤ) * (-1), py - ((qx - px).toNat : ℤ) * 0)
        = ((qx, py) : ℤ × ℤ) := by
      rw [Prod.mk.injEq]; constructor <;> omega
    rw [he1] at hch1
    have hle := maskDTPass2_le_dt1 w h mask4 _
      (maskDTPass1 w h mask4 fg pix ((w : ℤ) + h + 1)) hinf hc hd1 (qx, py)
    have hch2 := maskDTPass1_chain w h mask4 fg pix _ hinf hc 0 (-1) hmemU
      (py - qy).toNat qx py (fun j hj => by unfold inGrid; dsimp only; omega)
    have he2 : (qx + ((py - qy).toNat : ℤ) * 0, py + ((py - qy).toNat : ℤ) * (-1))
        = ((qx, qy) : ℤ × ℤ) := by
      rw [Prod.mk.injEq]; constructor <;> omega
    rw [he2, hq0] at hch2
    unfold manhattanD
    dsimp only
    omega
  · -- q is below-right: pass 2 alone, right then down
    have hch1 := maskDTPass2_chain w h mask4 _
      (maskDTPass1 w h mask4 fg pix ((w : ℤ) + h + 1)) hinf hc hd1 (-1) 0 hmemL
      (qx - px).toNat px py (fun j hj => by unfold inGrid; dsimp only; omega)
    have he1 : (px - ((qx - px).toNat : ℤ) * (-1), py - ((qx - px).toNat : ℤ) * 0)
        = ((qx, py) : ℤ × ℤ) := by
      rw [Prod.mk.injEq]; constructor <;> omega
    rw [he1] at hch1
    have hch2 := maskDTPass2_chain w h mask4 _
      (maskDTPass1 w h mask4 fg pix ((w : ℤ) + h + 1)) hinf hc hd1 0 (-1) hmemU
      (qy - py).toNat qx py (fun j hj => by unfold inGrid; dsimp only; omega)
    have he2 : (qx - ((qy - py).toNat : ℤ) * 0, py - ((qy - py).toNat : ℤ) * (-1))
        = ((qx, qy) : ℤ × ℤ) := by
      rw [Prod.mk.injEq]; constructor <;> omega
    have hbg2 : maskDTPass2 w h mask4 ((w : ℤ) + h + 1)
        (maskDTPass1 w h mask4 fg pix ((w : ℤ) + h + 1)) (qx, qy) = 0 :=
      maskDTPass2_bg w h mask4 _ _ hinf hc hd1 _ ⟨hq1, hq2, hq3, hq4⟩ hq0
    rw [he2, hbg2] at hch2
    unfold manhattanD
    dsimp only
    omega

theorem dt8_ub (w h : ℕ) (fg : ℤ) (pix : ℕ → ℕ → ℤ) (p q : ℤ × ℤ)
    (hp : inGrid w h p) (hq : inGrid w h q) (hbg : pixAt pix q ≠ fg) :
    maskDTPass2 w h mask8 ((w : ℤ) + h + 1)
        (maskDTPass1 w h mask8 fg pix ((w : ℤ) + h + 1)) p ≤ chessD p q := by
  obtain ⟨px, py⟩ := p
  obtain ⟨qx, qy⟩ := q
  have hinf : (0 : ℤ) < (w : ℤ) + h + 1 := by positivity
  have hc := mask8_causal
  have hd1 : ∀ r, 0 ≤ maskDTPass1 w h mask8 fg pix ((w : ℤ) + h + 1) r ∧
      maskDTPass1 w h mask8 fg pix ((w : ℤ) + h + 1) r ≤ (w : ℤ) + h + 1 :=
    fun r => maskDTPass1_bounds w h mask8 fg pix _ r hinf hc
  have hq0 : maskDTPass1 w h mask8 fg pix ((w : ℤ) + h + 1) (qx, qy) = 0 :=
    maskDTPass1_bg w h mask8 fg pix _ hinf hc _ hq hbg
  obtain ⟨hp1, hp2, hp3, hp4⟩ := hp
  obtain ⟨hq1, hq2, hq3, hq4⟩ := hq
  dsimp only at hp1 hp2 hp3 hp4 hq1 hq2 hq3 hq4
  have hbg2 : maskDTPass2 w h mask8 ((w : ℤ) + h + 1)
      (maskDTPass1 w h mask8 fg pix ((w : ℤ) + h + 1)) (qx, qy) = 0 :=
    maskDTPass2_bg w h mask8 _ _ hinf hc hd1 _ ⟨hq1, hq2, hq3, hq4⟩ hq0
  have hmUL : ((-1, -1) : ℤ × ℤ) ∈ mask8 := by decide
  have hmU : ((0, -1) : ℤ × ℤ) ∈ mask8 := by decide
  have hmUR : ((1, -1) : ℤ × ℤ) ∈ mask8 := by decide
  have hmL : ((-1, 0) : ℤ × ℤ) ∈ mask8 := by decide
  have hle2 := fun r => maskDTPass2_le_dt1 w h mask8 _
    (maskDTPass1 w h mask8 fg pix ((w : ℤ) + h + 1)) hinf hc hd1 r
  rcases le_or_lt qy py with hy | hy
  · rcases le_or_lt qx px with hx | hx
    · rcases le_or_lt (px - qx) (py - qy) with hcmp | hcmp
      · -- A1: up-left, diagonal dominated by the vertical gap
        have hch1 := maskDTPass1_chain w h mask8 fg pix _ hinf hc (-1) (-1) hmUL
          (px - qx).toNat px py (fun j hj => by unfold inGrid; dsimp only; omega)
        have he1 : (px + ((px - qx).toNat : ℤ) * (-1), py + ((px - qx).toNat : ℤ) * (-1))
            = ((qx, py - (px - qx)) : ℤ × ℤ) := by
          rw [Prod.mk.injEq]; constructor <;> omega
        rw [he1] at hch1
        have hch2 := maskDTPass1_chain w h mask8 fg pix _ hinf hc 0 (-1) hmU
          ((py - qy) - (px - qx)).toNat qx (py - (px - qx))
          (fun j hj => by unfold inGrid; dsimp only; omega)
        have he2 : (qx + (((py - qy) - (px - qx)).toNat : ℤ) * 0,
            py - (px - qx) + (((py - qy) - (px - qx)).toNat : ℤ) * (-1))
            = ((qx, qy) : ℤ × ℤ) := by
          rw [Prod.mk.injEq]; constructor <;> omega
        rw [he2, hq0] at hch2
        have hle := hle2 (px, py)
        unfold chessD maxOp
        dsimp only
        split_ifs <;> omega
      · -- A2: up-left, diagonal dominated by the horizontal gap
        have hch1 := maskDTPass1_chain w h mask8 fg pix _ hinf hc (-1) (-1) hmUL
          (py - qy).toNat px py (fun j hj => by unfold inGrid; dsimp only; omega)
        have he1 : (px + ((py - qy).toNat : ℤ) * (-1), py + ((py - qy).toNat : ℤ) * (-1))
            = ((px - (py - qy), qy) : ℤ × ℤ) := by
          rw [Prod.mk.injEq]; constructor <;> omega
        rw [he1] at hch1
        have hch2 := maskDTPass1_chain w h mask8 fg pix _ hinf hc (-1) 0 hmL
          ((px - qx) - (py - qy)).toNat (px - (py - qy)) qy
          (fun j hj => by unfold inGrid; dsimp only; omega)
        have he2 : (px - (py - qy) + (((px - qx) - (py - qy)).toNat : ℤ) * (-1),
            qy + (((px - qx) - (py - qy)).toNat : ℤ) * 0)
            = ((qx, qy) : ℤ × ℤ) := by
          rw [Prod.mk.injEq]; constructor <;> omega
        rw [he2, hq0] at hch2
        have hle := hle2 (px, py)
        unfold chessD maxOp
        dsimp only
        split_ifs <;> omega
    · rcases le_or_lt (qx - px) (py - qy) with hcmp | hcmp
      · -- A3: up-right, diagonal dominated by the vertical gap
        have hch1 := maskDTPass1_chain w h mask8 fg pix _ hinf hc 1 (-1) hmUR
          (qx - px).toNat px py (fun j hj => by unfold inGrid; dsimp only; omega)
        have he1 : (px + ((qx - px).toNat : ℤ) * 1, py + ((qx - px).toNat : ℤ) * (-1))
            = ((qx, py - (qx - px)) : ℤ × ℤ) := by
          rw [Prod.mk.injEq]; constructor <;> omega
        rw [he1] at hch1
        have hch2 := maskDTPass1_chain w h mask8 fg pix _ hinf hc 0 (-1) hmU
          ((py - qy) - (qx - px)).toNat qx (py - (qx - px))
          (fun j hj => by unfold inGrid; dsimp only; omega)
        have he2 : (qx + (((py - qy) - (qx - px)).toNat : ℤ) * 0,
            py - (qx - px) + (((py - qy) - (qx - px)).toNat : ℤ) * (-1))
            = ((qx, qy) : ℤ × ℤ) := by
          rw [Prod.mk.injEq]; constructor <;> omega
        rw [he2, hq0] at hch2
        have hle := hle2 (px, py)
        unfold chessD maxOp
        dsimp only
        split_ifs <;> omega
      · -- A4: up-right and far: pass 2 right, then pass 1 up-right diagonal
        have hch1 := maskDTPass2_chain w h mask8 _
          (maskDTPass1 w h mask8 fg pix ((w : ℤ) + h + 1)) hinf hc hd1 (-1) 0 hmL
          ((qx - px) - (py - qy)).toNat px py
          (fun j hj => by unfold inGrid; dsimp only; omega)
        have he1 : (px - (((qx - px) - (py - qy)).toNat : ℤ) * (-1),
            py - (((qx - px) - (py - qy)).toNat : ℤ) * 0)
            = ((px + ((qx - px) - (py - qy)), py) : ℤ × ℤ) := by
          rw [Prod.mk.injEq]; constructor <;> omega
        rw [he1] at hch1
        have hle := hle2 (px + ((qx - px) - (py - qy)), py)
        have hch2 := maskDTPass1_chain w h mask8 fg pix _ hinf hc 1 (-1) hmUR
          (py - qy).toNat (px + ((qx - px) - (py - qy))) py
          (fun j hj => by unfold inGrid; dsimp only; omega)
        have he2 : (px + ((qx - px) - (py - qy)) + ((py - qy).toNat : ℤ) * 1,
            py + ((py - qy).toNat : ℤ) * (-1)) = ((qx, qy) : ℤ × ℤ) := by
          rw [Prod.mk.injEq]; constructor <;> omega
        rw [he2, hq0] at hch2
        unfold chessD maxOp
        dsimp only
        split_ifs <;> omega
  · rcases le_or_lt qx px with hx | hx
    · rcases le_or_lt (px - qx) (qy - py) with hcmp | hcmp
      · -- B1: down-left, diagonal dominated by the vertical gap: pass 2 alone
        have hch1 := maskDTPass2_chain w h mask8 _
          (maskDTPass1 w h mask8 fg pix ((w : ℤ) + h + 1)) hinf hc hd1 1 (-1) hmUR
          (px - qx).toNat px py (fun j hj => by unfold inGrid; dsimp only; omega)
        have he1 : (px - ((px - qx).toNat : ℤ) * 1, py - ((px - qx).toNat : ℤ) * (-1))
            = ((qx, py + (px - qx)) : ℤ × ℤ) := by
          rw [Prod.mk.injEq]; constructor <;> omega
        rw [he1] at hch1
        have hch2 := maskDTPass2_chain w h mask8 _
          (maskDTPass1 w h mask8 fg pix ((w : ℤ) + h + 1)) hinf hc hd1 0 (-1) hmU
          ((qy - py) - (px - qx)).toNat qx (py + (px - qx))
          (fun j hj => by unfold inGrid; dsimp only; omega)
        have he2 : (qx - (((qy - py) - (px - qx)).toNat : ℤ) * 0,
            py + (px - qx) - (((qy - py) - (px - qx)).toNat : ℤ) * (-1))
            = ((qx, qy) : ℤ × ℤ) := by
          rw [Prod.mk.injEq]; constructor <;> omega
        rw [he2, hbg2] at hch2
        unfold chessD maxOp
        dsimp only
        split_ifs <;> omega
      · -- B2: down-left and far: pass 2 down-left diagonal, then pass 1 left
        have hch1 := maskDTPass2_chain w h mask8 _
          (maskDTPass1 w h mask8 fg pix ((w : ℤ) + h + 1)) hinf hc hd1 1 (-1) hmUR
          (qy - py).toNat px py (fun j hj => by unfold inGrid; dsimp only; omega)
        have he1 : (px - ((qy - py).toNat : ℤ) * 1, py - ((qy - py).toNat : ℤ) * (-1))
            = ((px - (qy - py), qy) : ℤ × ℤ) := by
          rw [Prod.mk.injEq]; constructor <;> omega
        rw [he1] at hch1
        have hle := hle2 (px - (qy - py), qy)
        have hch2 := maskDTPass1_chain w h mask8 fg pix _ hinf hc (-1) 0 hmL
          ((px - qx) - (qy - py)).toNat (px - (qy - py)) qy
          (fun j hj => by unfold inGrid; dsimp only; omega)
        have he2 : (px - (qy - py) + (((px - qx) - (qy - py)).toNat : ℤ) * (-1),
            qy + (((px - qx) - (qy - py)).toNat : ℤ) * 0)
            = ((qx, qy) : ℤ × ℤ) := by
          rw [Prod.mk.injEq]; constructor <;> omega
        rw [he2, hq0] at hch2
        unfold chessD maxOp
        dsimp only
        split_ifs <;> omega
    · rcases le_or_lt (qx - px) (qy - py) with hcmp | hcmp
      · -- B3: down-right, diagonal dominated by the vertical gap: pass 2 alone
        have hch1 := maskDTPass2_chain w h mask8 _
          (maskDTPass1 w h mask8 fg pix ((w : ℤ) + h + 1)) hinf hc hd1 (-1) (-1) hmUL
          (qx - px).toNat px py (fun j hj => by unfold inGrid; dsimp only; omega)
        have he1 : (px - ((qx - px).toNat : ℤ) * (-1), py - ((qx - px).toNat : ℤ) * (-1))
            = ((qx, py + (qx - px)) : ℤ × ℤ) := by
          rw [Prod.mk.injEq]; constructor <;> omega
        rw [he1] at hch1
        have hch2 := maskDTPass2_chain w h mask8 _
          (maskDTPass1 w h mask8 fg pix ((w : ℤ) + h + 1)) hinf hc hd1 0 (-1) hmU
          ((qy - py) - (qx - px)).toNat qx (py + (qx - px))
          (fun j hj => by unfold inGrid; dsimp only; omega)
        have he2 : (qx - (((qy - py) - (qx - px)).toNat : ℤ) * 0,
            py + (qx - px) - (((qy - py) - (qx - px)).toNat : ℤ) * (-1))
            = ((qx, qy) : ℤ × ℤ) := by
          rw [Prod.mk.injEq]; constructor <;> omega
        rw [he2, hbg2] at hch2
        unfold chessD maxOp
        dsimp only
        split_ifs <;> omega
      · -- B4: down-right and far: pass 2 right, then pass 2 down-right diagonal
        have hch1 := maskDTPass2_chain w h mask8 _
          (maskDTPass1 w h mask8 fg pix ((w : ℤ) + h + 1)) hinf hc hd1 (-1) 0 hmL
          ((qx - px) - (qy - py)).toNat px py
          (fun j hj => by unfold inGrid; dsimp only; omega)
        have he1 : (px - (((qx - px) - (qy - py)).toNat : ℤ) * (-1),
            py - (((qx - px) - (qy - py)).toNat : ℤ) * 0)
            = ((px + ((qx - px) - (qy - py)), py) : ℤ × ℤ) := by
          rw [Prod.mk.injEq]; constructor <;> omega
        rw [he1] at hch1
        have hch2 := maskDTPass2_chain w h mask8 _
          (maskDTPass1 w h mask8 fg pix ((w : ℤ) + h + 1)) hinf hc hd1 (-1) (-1) hmUL
          (qy - py).toNat (px + ((qx - px) - (qy - py))) py
          (fun j hj => by unfold inGrid; dsimp only; omega)
        have he2 : (px + ((qx - px) - (qy - py)) - ((qy - py).toNat : ℤ) * (-1),
            py - ((qy - py).toNat : ℤ) * (-1)) = ((qx, qy) : ℤ × ℤ) := by
          rw [Prod.mk.injEq]; constructor <;> omega
        rw [he2, hbg2] at hch2
        unfold chessD maxOp
        dsimp only
        split_ifs <;> omega

theorem dtV_ub (w h : ℕ) (fg : ℤ) (pix : ℕ → ℕ → ℤ) (p q : ℤ × ℤ)
    (hp : inGrid w h p) (hq : inGrid w h q) (hbg : pixAt pix q ≠ fg) :
    maskDTPass2 w h maskV ((w : ℤ) + h + 1)
        (maskDTPass1 w h maskV fg pix ((w : ℤ) + h + 1)) p ≤
      vertD ((w : ℤ) + h + 1) p q := by
  obtain ⟨px, py⟩ := p
  obtain ⟨qx, qy⟩ := q
  have hinf : (0 : ℤ) < (w : ℤ) + h + 1 := by positivity
  have hc := maskV_causal
  have hd1 : ∀ r, 0 ≤ maskDTPass1 w h maskV fg pix ((w : ℤ) + h + 1) r ∧
      maskDTPass1 w h maskV fg pix ((w : ℤ) + h + 1) r ≤ (w : ℤ) + h + 1 :=
    fun r => maskDTPass1_bounds w h maskV fg pix _ r hinf hc
  have hq0 : maskDTPass1 w h maskV fg pix ((w : ℤ) + h + 1) (qx, qy) = 0 :=
    maskDTPass1_bg w h maskV fg pix _ hinf hc _ hq hbg
  obtain ⟨hp1, hp2, hp3, hp4⟩ := hp
  obtain ⟨hq1, hq2, hq3, hq4⟩ := hq
  dsimp only at hp1 hp2 hp3 hp4 hq1 hq2 hq3 hq4
  have hmU : ((0, -1) : ℤ × ℤ) ∈ maskV := by decide
  by_cases hcol : px = qx
  · subst hcol
    rcases le_or_lt qy py with hy | hy
    · have hch2 := maskDTPass1_chain w h maskV fg pix _ hinf hc 0 (-1) hmU
        (py - qy).toNat px py (fun j hj => by unfold inGrid; dsimp only; omega)
      have he2 : (px + ((py - qy).toNat : ℤ) * 0, py + ((py - qy).toNat : ℤ) * (-1))
          = ((px, qy) : ℤ × ℤ) := by
        rw [Prod.mk.injEq]; constructor <;> omega
      rw [he2, hq0] at hch2
      have hle := maskDTPass2_le_dt1 w h maskV _
        (maskDTPass1 w h maskV fg pix ((w : ℤ) + h + 1)) hinf hc hd1 (px, py)
      unfold vertD
      rw [if_pos rfl]
      dsimp only
      omega
    · have hch1 := maskDTPass2_chain w h maskV _
        (maskDTPass1 w h maskV fg pix ((w : ℤ) + h + 1)) hinf hc hd1 0 (-1) hmU
        (qy - py).toNat px py (fun j hj => by unfold inGrid; dsimp only; omega)
      have he1 : (px - ((qy - py).toNat : ℤ) * 0, py - ((qy - py).toNat : ℤ) * (-1))
          = ((px, qy) : ℤ × ℤ) := by
        rw [Prod.mk.injEq]; constructor <;> omega
      rw [he1] at hch1
      have hbg2 : maskDTPass2 w h maskV ((w : ℤ) + h + 1)
          (maskDTPass1 w h maskV fg pix ((w : ℤ) + h + 1)) (px, qy) = 0 :=
        maskDTPass2_bg w h maskV _ _ hinf hc hd1 _ ⟨hq1, hq2, hq3, hq4⟩ hq0
      rw [hbg2] at hch1
      unfold vertD
      rw [if_pos rfl]
      dsimp only
      omega
  · have hb := maskDTPass2_bounds w h maskV ((w : ℤ) + h + 1)
      (maskDTPass1 w h maskV fg pix ((w : ℤ) + h + 1)) (px, py) hinf hc hd1
    unfold vertD
    rw [if_neg (by dsimp only; exact hcol)]
    exact hb.2

/-! Triangle steps of the three metrics along their masks. -/

theorem manhattanD_refl (p : ℤ × ℤ) : manhattanD p p = 0 := by
  unfold manhattanD; omega

theorem chessD_refl (p : ℤ × ℤ) : chessD p p = 0 := by
  unfold chessD maxOp; split_ifs <;> omega

theorem vertD_refl (inf : ℤ) (hinf : 0 ≤ inf) (p : ℤ × ℤ) : vertD inf p p = 0 := by
  unfold vertD; rw [if_pos rfl]; omega

theorem manhattanD_step1 : ∀ m ∈ mask4, ∀ p q : ℤ × ℤ,
    manhattanD p q ≤ manhattanD (p.1 + m.1, p.2 + m.2) q + 1 := by
  intro m hm p q
  fin_cases hm <;> (unfold manhattanD; dsimp only; omega)

theorem manhattanD_step2 : ∀ m ∈ mask4, ∀ p q : ℤ × ℤ,
    manhattanD p q ≤ manhattanD (p.1 - m.1, p.2 - m.2) q + 1 := by
  intro m hm p q
  fin_cases hm <;> (unfold manhattanD; dsimp only; omega)

theorem chessD_step1 : ∀ m ∈ mask8, ∀ p q : ℤ × ℤ,
    chessD p q ≤ chessD (p.1 + m.1, p.2 + m.2) q + 1 := by
  intro m hm p q
  fin_cases hm <;> (unfold chessD maxOp; dsimp only; split_ifs <;> omega)

theorem chessD_step2 : ∀ m ∈ mask8, ∀ p q : ℤ × ℤ,
    chessD p q ≤ chessD (p.1 - m.1, p.2 - m.2) q + 1 := by
  intro m hm p q
  fin_cases hm <;> (unfold chessD maxOp; dsimp only; split_ifs <;> omega)

theorem vertD_step1 (inf : ℤ) : ∀ m ∈ maskV, ∀ p q : ℤ × ℤ,
    vertD inf p q ≤ vertD inf (p.1 + m.1, p.2 + m.2) q + 1 := by
  intro m hm p q
  fin_cases hm <;> (unfold vertD; dsimp only; split_ifs <;> omega)

theorem vertD_step2 (inf : ℤ) : ∀ m ∈ maskV, ∀ p q : ℤ × ℤ,
    vertD inf p q ≤ vertD inf (p.1 - m.1, p.2 - m.2) q + 1 := by
  intro m hm p q
  fin_cases hm <;> (unfold vertD; dsimp only; split_ifs <;> omega)

/-! Exactness of `maskDistanceTransform` for a metric matching its mask. -/

theorem maskDT_exact (w h : ℕ) (mask : List (ℤ × ℤ)) (fg : ℤ)
    (pix : ℕ → ℕ → ℤ) (d : ℤ × ℤ → ℤ × ℤ → ℤ)
    (hc : maskCausal mask)
    (hdrefl : ∀ p, d p p = 0)
    (hdstep1 : ∀ m ∈ mask, ∀ p q, d p q ≤ d (p.1 + m.1, p.2 + m.2) q + 1)
    (hdstep2 : ∀ m ∈ mask, ∀ p q, d p q ≤ d (p.1 - m.1, p.2 - m.2) q + 1)
    (hub : ∀ p q, inGrid w h p → inGrid w h q → pixAt pix q ≠ fg →
      maskDTPass2 w h mask ((w : ℤ) + h + 1)
        (maskDTPass1 w h mask fg pix ((w : ℤ) + h + 1)) p ≤ d p q)
    (p : ℤ × ℤ) (hp : inGrid w h p) :
    maskDTStorage w h mask fg pix p =
      specMinD d w h fg pix ((w : ℤ) + h + 1) p := by
  have hinf : (0 : ℤ) < (w : ℤ) + h + 1 := by positivity
  have hd1 : ∀ r, 0 ≤ maskDTPass1 w h mask fg pix ((w : ℤ) + h + 1) r ∧
      maskDTPass1 w h mask fg pix ((w : ℤ) + h + 1) r ≤ (w : ℤ) + h + 1 :=
    fun r => maskDTPass1_bounds w h mask fg pix _ r hinf hc
  show maskDTPass2 w h mask ((w : ℤ) + h + 1)
    (maskDTPass1 w h mask fg pix ((w : ℤ) + h + 1)) p = _
  refine le_antisymm ?_ ?_
  · refine le_foldlMin (d p) (bgCoords w h fg pix) _ _ ?_ ?_
    · exact (maskDTPass2_bounds w h mask _ _ p hinf hc hd1).2
    · intro q hq
      obtain ⟨hqg, hqbg⟩ := mem_bgCoords.mp hq
      exact hub p q hp hqg hqbg
  · exact maskDTPass2_lb w h mask fg pix _ _ d hinf hc hd1
      (maskDTPass1_lb w h mask fg pix _ hinf hc d hdrefl hdstep1) hdstep2 p hp

/-- Exactness of the 4-neighbour chamfer transform against the city-block
distance. -/
theorem dt4_exact (w h : ℕ) (fg : ℤ) (pix : ℕ → ℕ → ℤ) (p : ℤ × ℤ)
    (hp : inGrid w h p) :
    maskDTStorage w h mask4 fg pix p =
      specMinD manhattanD w h fg pix ((w : ℤ) + h + 1) p :=
  maskDT_exact w h mask4 fg pix manhattanD mask4_causal manhattanD_refl
    manhattanD_step1 manhattanD_step2 (dt4_ub w h fg pix) p hp

/-- Exactness of the 8-neighbour chamfer transform against the chessboard
distance. -/
theorem dt8_exact (w h : ℕ) (fg : ℤ) (pix : ℕ → ℕ → ℤ) (p : ℤ × ℤ)
    (hp : inGrid w h p) :
    maskDTStorage w h mask8 fg pix p =
      specMinD chessD w h fg pix ((w : ℤ) + h + 1) p :=
  maskDT_exact w h mask8 fg pix chessD mask8_causal chessD_refl
    chessD_step1 chessD_step2 (dt8_ub w h fg pix) p hp

/-- Exactness of the vertical (single-mask) transform against the
single-column distance. -/
theorem dtV_exact (w h : ℕ) (fg : ℤ) (pix : ℕ → ℕ → ℤ) (p : ℤ × ℤ)
    (hp : inGrid w h p) :
    maskDTStorage w h maskV fg pix p =
      specMinD (vertD ((w : ℤ) + h + 1)) w h fg pix ((w : ℤ) + h + 1) p :=
  maskDT_exact w h maskV fg pix (vertD ((w : ℤ) + h + 1)) maskV_causal
    (vertD_refl _ (by positivity))
    (vertD_step1 _) (vertD_step2 _) (dtV_ub w h fg pix) p hp

theorem manhattanD_nonneg (p q : ℤ × ℤ) : 0 ≤ manhattanD p q := by
  unfold manhattanD; omega

theorem chessD_nonneg (p q : ℤ × ℤ) : 0 ≤ chessD p q := by
  unfold chessD maxOp; split_ifs <;> omega

theorem specMinD_zero_of_bg (d : ℤ × ℤ → ℤ × ℤ → ℤ) (w h : ℕ) (fg : ℤ)
    (pix : ℕ → ℕ → ℤ) (inf : ℤ) (p : ℤ × ℤ) (hinf : 0 ≤ inf)
    (hp : inGrid w h p) (hbg : pixAt pix p ≠ fg) (hrefl : d p p = 0)
    (hpos : ∀ q, 0 ≤ d p q) :
    specMinD d w h fg pix inf p = 0 := by
  refine le_antisymm ?_ ?_
  · have hm := foldlMin_le_mem (d p) (bgCoords w h fg pix) inf
      (mem_bgCoords.mpr ⟨hp, hbg⟩)
    rw [hrefl] at hm
    exact hm
  · exact le_foldlMin (d p) (bgCoords w h fg pix) inf 0 hinf (fun q _ => hpos q)

theorem specMinD_no_bg (d : ℤ × ℤ → ℤ × ℤ → ℤ) (w h : ℕ) (fg : ℤ)
    (pix : ℕ → ℕ → ℤ) (inf : ℤ) (p : ℤ × ℤ)
    (hall : ∀ q, inGrid w h q → pixAt pix q = fg) :
    specMinD d w h fg pix inf p = inf := by
  unfold specMinD bgCoords
  have he : (rasterCoords w h).filter (fun q => decide (pixAt pix q ≠ fg)) = [] := by
    refine List.filter_eq_nil_iff.mpr ?_
    intro a ha
    simp [hall a (mem_rasterCoords.mp ha)]
  rw [he]
  rfl

/-! Claim C2: the chamfer transforms are exact. -/

/-- Claim C2: for every image and foreground value, the MANHATTAN
(4-neighbour) and CHESSBOARD (8-neighbour) metrics of `distanceTransform`
produce at every cell exactly the minimum, over all background cells, of
the city-block respectively chessboard distance, started from the sentinel
`width + height + 1` (so in particular background cells get 0, and when no
background cell exists every cell gets the sentinel, as the last two
conjuncts state separately). -/
theorem distanceTransform_c2 (im : IntImage) (fg : ℤ) (x y : ℕ)
    (hx : x < wN im) (hy : y < hN im) :
    ((distanceTransform im DTMetric.MANHATTAN fg).pixels y x =
      specMinD manhattanD (wN im) (hN im) fg im.pixels
        ((wN im : ℤ) + (hN im : ℤ) + 1) ((x : ℤ), (y : ℤ))) ∧
    ((distanceTransform im DTMetric.CHESSBOARD fg).pixels y x =
      specMinD chessD (wN im) (hN im) fg im.pixels
        ((wN im : ℤ) + (hN im : ℤ) + 1) ((x : ℤ), (y : ℤ))) ∧
    (im.pixels y x ≠ fg →
      (distanceTransform im DTMetric.MANHATTAN fg).pixels y x = 0 ∧
      (distanceTransform im DTMetric.CHESSBOARD fg).pixels y x = 0) ∧
    ((∀ a b : ℕ, a < wN im → b < hN im → im.pixels b a = fg) →
      (distanceTransform im DTMetric.MANHATTAN fg).pixels y x =
        (wN im : ℤ) + (hN im : ℤ) + 1 ∧
      (distanceTransform im DTMetric.CHESSBOARD fg).pixels y x =
        (wN im : ℤ) + (hN im : ℤ) + 1) := by
  have hg : inGrid (wN im) (hN im) ((x : ℤ), (y : ℤ)) := by
    unfold inGrid; dsimp only; omega
  have h4 := dt4_exact (wN im) (hN im) fg im.pixels ((x : ℤ), (y : ℤ)) hg
  have h8 := dt8_exact (wN im) (hN im) fg im.pixels ((x : ℤ), (y : ℤ)) hg
  have e4 : (distanceTransform im DTMetric.MANHATTAN fg).pixels y x =
      maskDTStorage (wN im) (hN im) mask4 fg im.pixels ((x : ℤ), (y : ℤ)) := rfl
  have e8 : (distanceTransform im DTMetric.CHESSBOARD fg).pixels y x =
      maskDTStorage (wN im) (hN im) mask8 fg im.pixels ((x : ℤ), (y : ℤ)) := rfl
  have hpixAt : pixAt im.pixels ((x : ℤ), (y : ℤ)) = im.pixels y x := rfl
  refine ⟨by rw [e4, h4], by rw [e8, h8], ?_, ?_⟩
  · intro hbg
    constructor
    · rw [e4, h4]
      exact specMinD_zero_of_bg manhattanD _ _ fg im.pixels _ _ (by positivity) hg
        (by rw [hpixAt]; exact hbg) (manhattanD_refl _) (manhattanD_nonneg _)
    · rw [e8, h8]
      exact specMinD_zero_of_bg chessD _ _ fg im.pixels _ _ (by positivity) hg
        (by rw [hpixAt]; exact hbg) (chessD_refl _) (chessD_nonneg _)
  · intro hall
    have hall2 : ∀ q, inGrid (wN im) (hN im) q → pixAt im.pixels q = fg := by
      intro q hq
      obtain ⟨h1, h2, h3, h4⟩ := hq
      have := hall q.1.toNat q.2.toNat (by omega) (by omega)
      unfold pixAt
      exact this
    exact ⟨by rw [e4, h4]; exact specMinD_no_bg manhattanD _ _ fg im.pixels _ _ hall2,
           by rw [e8, h8]; exact specMinD_no_bg chessD _ _ fg im.pixels _ _ hall2⟩

/-- Concrete 2x1 image: foreground value 1 at cell (0,0), background 0 at
cell (1,0). -/
def c2Im : IntImage := ⟨⟨0, 1, 0, 0⟩, 0, 10, fun _ x => if x = 0 then 1 else 0⟩

/-- Claim C2, witness: the theorem applied to the concrete 2x1 image. -/
theorem distanceTransform_c2_witness :
    ((distanceTransform c2Im DTMetric.MANHATTAN 1).pixels 0 0 =
      specMinD manhattanD (wN c2Im) (hN c2Im) 1 c2Im.pixels
        ((wN c2Im : ℤ) + (hN c2Im : ℤ) + 1) (0, 0)) ∧
    ((distanceTransform c2Im DTMetric.CHESSBOARD 1).pixels 0 0 =
      specMinD chessD (wN c2Im) (hN c2Im) 1 c2Im.pixels
        ((wN c2Im : ℤ) + (hN c2Im : ℤ) + 1) (0, 0)) ∧
    (c2Im.pixels 0 0 ≠ 1 →
      (distanceTransform c2Im DTMetric.MANHATTAN 1).pixels 0 0 = 0 ∧
      (distanceTransform c2Im DTMetric.CHESSBOARD 1).pixels 0 0 = 0) ∧
    ((∀ a b : ℕ, a < wN c2Im → b < hN c2Im → c2Im.pixels b a = 1) →
      (distanceTransform c2Im DTMetric.MANHATTAN 1).pixels 0 0 =
        (wN c2Im : ℤ) + (hN c2Im : ℤ) + 1 ∧
      (distanceTransform c2Im DTMetric.CHESSBOARD 1).pixels 0 0 =
        (wN c2Im : ℤ) + (hN c2Im : ℤ) + 1) :=
  distanceTransform_c2 c2Im 1 0 0 (by decide) (by decide)

/-! The horizontal lower-envelope phase of the Euclidean transform. -/

/-- The parabola `f_u(z) = (z - u)^2 + v(u)` of the MRH algorithm. -/
def parb (v : ℤ → ℤ) (u z : ℤ) : ℤ := (z - u) * (z - u) + v u

/-- Between two parabolas with apexes `s < x`, being no better at one point
stays that way to the right. -/
theorem parb_dom_right (v : ℤ → ℤ) {s x t z : ℤ} (hsx : s < x)
    (ht : parb v x t ≤ parb v s t) (hz : t ≤ z) : parb v x z ≤ parb v s z := by
  unfold parb at *
  have key := mul_le_mul_of_nonneg_left
    (show 2 * t - s - x ≤ 2 * z - s - x by linarith)
    (show (0 : ℤ) ≤ x - s by linarith)
  have e1 : (z - s) * (z - s) - (z - x) * (z - x) = (x - s) * (2 * z - s - x) := by ring
  have e2 : (t - s) * (t - s) - (t - x) * (t - x) = (x - s) * (2 * t - s - x) := by ring
  linarith

/-- Mirrored: being no better at one point stays that way to the left. -/
theorem parb_dom_left (v : ℤ → ℤ) {s x t z : ℤ} (hsx : s < x)
    (ht : parb v s t ≤ parb v x t) (hz : z ≤ t) : parb v s z ≤ parb v x z := by
  unfold parb at *
  have key := mul_le_mul_of_nonneg_left
    (show 2 * z - s - x ≤ 2 * t - s - x by linarith)
    (show (0 : ℤ) ≤ x - s by linarith)
  have e1 : (z - s) * (z - s) - (z - x) * (z - x) = (x - s) * (2 * z - s - x) := by ring
  have e2 : (t - s) * (t - s) - (t - x) * (t - x) = (x - s) * (2 * t - s - x) := by ring
  linarith

/-- The difference of the two parabolas is linear in `z`. -/
theorem parb_diff (v : ℤ → ℤ) (s x z : ℤ) :
    parb v s z - parb v x z =
      2 * (x - s) * z - (x * x - s * s + v x - v s) := by
  unfold parb
  ring

/-- The integer crossover computed by the C code: at and beyond it the new
parabola (apex `x`) wins, strictly before it the stacked one (apex `s`)
wins. -/
theorem cross_facts (v : ℤ → ℤ) (s x : ℤ) (hsx : s < x)
    (hnum : 0 ≤ x * x - s * s + v x - v s) :
    (∀ z : ℤ, 1 + Int.tdiv (x * x - s * s + v x - v s) (2 * (x - s)) ≤ z →
      parb v x z ≤ parb v s z) ∧
    (∀ z : ℤ, z < 1 + Int.tdiv (x * x - s * s + v x - v s) (2 * (x - s)) →
      parb v s z ≤ parb v x z) := by
  have hden : 0 < 2 * (x - s) := by linarith
  rw [Int.tdiv_eq_ediv hnum (le_of_lt hden)]
  have hdm := Int.ediv_add_emod (x * x - s * s + v x - v s) (2 * (x - s))
  have hm0 := Int.emod_nonneg (x * x - s * s + v x - v s)
    (show (2 * (x - s)) ≠ 0 by linarith)
  have hm1 := Int.emod_lt_of_pos (x * x - s * s + v x - v s) hden
  constructor
  · intro z hzc
    have hd := parb_diff v s x z
    have key := mul_le_mul_of_nonneg_left
      (show (x * x - s * s + v x - v s) / (2 * (x - s)) + 1 ≤ z by linarith)
      (le_of_lt hden)
    have e1 : 2 * (x - s) * ((x * x - s * s + v x - v s) / (2 * (x - s)) + 1) =
        2 * (x - s) * ((x * x - s * s + v x - v s) / (2 * (x - s))) + 2 * (x - s) := by
      ring
    linarith
  · intro z hzc
    have hd := parb_diff v s x z
    have key := mul_le_mul_of_nonneg_left
      (show z ≤ (x * x - s * s + v x - v s) / (2 * (x - s)) by linarith)
      (le_of_lt hden)
    linarith

/-- What the pop loop guarantees when it pops past the bottom. -/
theorem popLoop_none (v : ℤ → ℤ) (s t : ℕ → ℤ) (x : ℤ) :
    ∀ q0, popLoop v s t x q0 = none →
      ∀ j, j ≤ q0 → parb v x (t j) < parb v (s j) (t j) := by
  intro q0
  induction q0 with
  | zero =>
      intro hnone j hj
      interval_cases j
      unfold popLoop at hnone
      split_ifs at hnone with hcond
      exact hcond
  | succ q0 ih =>
      intro hnone j hj
      unfold popLoop at hnone
      split_ifs at hnone with hcond
      rcases Nat.lt_or_ge j (q0 + 1) with hj2 | hj2
      · exact ih hnone j (by omega)
      · have hje : j = q0 + 1 := by omega
        rw [hje]
        exact hcond

/-- What the pop loop guarantees when it stops at level `q2`. -/
theorem popLoop_some (v : ℤ → ℤ) (s t : ℕ → ℤ) (x : ℤ) :
    ∀ q0 q2, popLoop v s t x q0 = some q2 →
      q2 ≤ q0 ∧ parb v (s q2) (t q2) ≤ parb v x (t q2) ∧
      ∀ j, q2 < j → j ≤ q0 → parb v x (t j) < parb v (s j) (t j) := by
  intro q0
  induction q0 with
  | zero =>
      intro q2 hsome
      unfold popLoop at hsome
      split_ifs at hsome with hcond
      cases hsome
      refine ⟨le_refl 0, not_lt.mp hcond, ?_⟩
      intro j hj1 hj2
      omega
  | succ q0 ih =>
      intro q2 hsome
      unfold popLoop at hsome
      split_ifs at hsome with hcond
      · obtain ⟨h1, h2, h3⟩ := ih q2 hsome
        refine ⟨by omega, h2, ?_⟩
        intro j hj1 hj2
        rcases Nat.lt_or_ge j (q0 + 1) with hj3 | hj3
        · exact h3 j hj1 (by omega)
        · have hje : j = q0 + 1 := by omega
          rw [hje]
          exact hcond
      · cases hsome
        refine ⟨le_refl _, not_lt.mp hcond, ?_⟩
        intro j hj1 hj2
        omega

/-- Invariant of the forward scan after processing columns `1 .. X`:
`t` starts at 0 and increases along the stack, stack entries stay inside
the row, apexes are processed columns, and on `[t j, t (j+1))` (the last
segment extending to the end of the row) the parabola of apex `s j` is a
minimum among all parabolas with apexes in `[0, X]`. -/
structure ScanInv (wi : ℕ) (v : ℤ → ℤ) (X : ℤ) (st : ScanState) : Prop where
  t0 : st.t 0 = 0
  tmono : ∀ j : ℕ, j < st.q → st.t j < st.t (j + 1)
  tbound : ∀ j : ℕ, j ≤ st.q → 0 ≤ st.t j ∧ st.t j < (wi : ℤ)
  sbound : ∀ j : ℕ, j ≤ st.q → 0 ≤ st.s j ∧ st.s j ≤ X
  env : ∀ j : ℕ, j ≤ st.q → ∀ z : ℤ, st.t j ≤ z → z < (wi : ℤ) →
    (j < st.q → z < st.t (j + 1)) →
    ∀ u : ℤ, 0 ≤ u → u ≤ X → parb v (st.s j) z ≤ parb v u z

/-- A chain that increases step by step is monotone. -/
theorem chainMono (t : ℕ → ℤ) (q : ℕ) (h : ∀ j, j < q → t j < t (j + 1)) :
    ∀ i j, i ≤ j → j ≤ q → t i ≤ t j := by
  intro i j
  induction j with
  | zero =>
      intro hij hjq
      have hi0 : i = 0 := Nat.le_zero.mp hij
      rw [hi0]
  | succ j ih =>
      intro hij hjq
      rcases Nat.lt_or_ge i (j + 1) with h1 | h1
      · exact le_trans (ih (by omega) (by omega)) (le_of_lt (h j (by omega)))
      · have : i = j + 1 := by omega
        rw [this]

/-- Every point at or after `t 0` lies in some segment of the stack. -/
theorem segLookup (t : ℕ → ℤ) (z : ℤ) (h0 : t 0 ≤ z) :
    ∀ q : ℕ, ∃ j, j ≤ q ∧ t j ≤ z ∧ (j < q → z < t (j + 1)) := by
  intro q
  induction q with
  | zero => exact ⟨0, le_refl 0, h0, fun h => absurd h (Nat.lt_irrefl 0)⟩
  | succ q ih =>
      by_cases hq : t (q + 1) ≤ z
      · exact ⟨q + 1, le_refl _, hq, fun h => absurd h (Nat.lt_irrefl _)⟩
      · obtain ⟨j, hj, hjz, hjq⟩ := ih
        refine ⟨j, Nat.le_succ_of_le hj, hjz, ?_⟩
        intro hlt
        rcases Nat.lt_or_ge j q with h1 | h1
        · exact hjq h1
        · have hje : j = q := by omega
          rw [hje]
          omega

/-- The invariant yields, for any in-row point, a segment whose apex
parabola is minimal among processed apexes. -/
theorem env_min {wi : ℕ} {v : ℤ → ℤ} {X : ℤ} {st : ScanState}
    (hInv : ScanInv wi v X st) (z : ℤ) (hz0 : 0 ≤ z) (hz1 : z < (wi : ℤ)) :
    ∃ j, j ≤ st.q ∧ st.t j ≤ z ∧ (j < st.q → z < st.t (j + 1)) ∧
      ∀ u : ℤ, 0 ≤ u → u ≤ X → parb v (st.s j) z ≤ parb v u z := by
  obtain ⟨j, hj, hjz, hjseg⟩ := segLookup st.t z (by rw [hInv.t0]; exact hz0) st.q
  exact ⟨j, hj, hjz, hjseg, fun u hu0 hu1 => hInv.env j hj z hjz hz1 hjseg u hu0 hu1⟩

/-- One forward-scan step preserves the invariant. -/
theorem scanStep_inv (wi : ℕ) (v : ℤ → ℤ) (X : ℤ) (st : ScanState)
    (hInv : ScanInv wi v X st) (hX : 0 ≤ X) (hx : X + 2 ≤ (wi : ℤ)) :
    ScanInv wi v (X + 1) (scanStep (wi : ℤ) v st (X + 1)) := by
  unfold scanStep
  rcases hpop : popLoop v st.s st.t (X + 1) st.q with _ | q2
  · -- the pop loop emptied the stack: restart at apex X+1
    have hall := popLoop_none v st.s st.t (X + 1) st.q hpop
    refine ⟨hInv.t0, ?_, ?_, ?_, ?_⟩
    · intro j hj
      exact absurd hj (Nat.not_lt_zero j)
    · intro j hj
      have hj0 : j = 0 := Nat.le_zero.mp hj
      rw [hj0]
      exact hInv.tbound 0 (Nat.zero_le _)
    · intro j hj
      have hj0 : j = 0 := Nat.le_zero.mp hj
      rw [hj0]
      simp only [Function.update_same]
      omega
    · intro j hj z hz1 hz2 hseg u hu0 hu1
      have hj0 : j = 0 := Nat.le_zero.mp hj
      subst hj0
      simp only [Function.update_same]
      rcases eq_or_lt_of_le hu1 with he | hl
      · rw [← he]
      · obtain ⟨j0, hj0q, hj0z, hj0seg, hj0min⟩ :=
          env_min hInv z (by rw [← hInv.t0]; exact hz1) hz2
        have hs0x : st.s j0 < X + 1 := by
          have := (hInv.sbound j0 hj0q).2
          omega
        have hdom : parb v (X + 1) z ≤ parb v (st.s j0) z :=
          parb_dom_right v hs0x (le_of_lt (hall j0 hj0q)) hj0z
        exact le_trans hdom (hj0min u hu0 (by omega))
  · -- the loop stopped at level q2
    obtain ⟨hq2le, hstop, hpops⟩ := popLoop_some v st.s st.t (X + 1) st.q q2 hpop
    have hSb := hInv.sbound q2 hq2le
    have hTb := hInv.tbound q2 hq2le
    have hSx : st.s q2 < X + 1 := by omega
    have hden : 0 < 2 * (X + 1 - st.s q2) := by omega
    have hnum : 0 ≤ (X + 1) * (X + 1) - st.s q2 * st.s q2 + v (X + 1) - v (st.s q2) := by
      have hd := parb_diff v (st.s q2) (X + 1) (st.t q2)
      have hmn : 0 ≤ 2 * (X + 1 - st.s q2) * st.t q2 :=
        mul_nonneg (le_of_lt hden) hTb.1
      have hst : parb v (st.s q2) (st.t q2) - parb v (X + 1) (st.t q2) ≤ 0 := by
        omega
      linarith
    obtain ⟨hcrossLe, hcrossGt⟩ := cross_facts v (st.s q2) (X + 1) hSx hnum
    have hcrossT : st.t q2 <
        1 + Int.tdiv ((X + 1) * (X + 1) - st.s q2 * st.s q2 + v (X + 1) - v (st.s q2))
          (2 * (X + 1 - st.s q2)) := by
      rw [Int.tdiv_eq_ediv hnum (le_of_lt hden)]
      have hd := parb_diff v (st.s q2) (X + 1) (st.t q2)
      have hst : parb v (st.s q2) (st.t q2) - parb v (X + 1) (st.t q2) ≤ 0 := by
        omega
      have hTle : 2 * (X + 1 - st.s q2) * st.t q2 ≤
          (X + 1) * (X + 1) - st.s q2 * st.s q2 + v (X + 1) - v (st.s q2) := by
        linarith
      have := (Int.le_ediv_iff_mul_le hden).mpr
        (by linarith [hTle] :
          st.t q2 * (2 * (X + 1 - st.s q2)) ≤
            (X + 1) * (X + 1) - st.s q2 * st.s q2 + v (X + 1) - v (st.s q2))
      omega
    dsimp only
    split_ifs with hcw
    · -- push the new parabola at level q2+1 with the computed crossover
      refine ⟨?_, ?_, ?_, ?_, ?_⟩
      · simp only [ScanState.t]
        rw [Function.update_noteq (by omega : (0 : ℕ) ≠ q2 + 1)]
        exact hInv.t0
      · intro j hj
        simp only [ScanState.q, ScanState.t] at *
        rcases Nat.lt_or_ge j q2 with h1 | h1
        · rw [Function.update_noteq (by omega : j ≠ q2 + 1),
            Function.update_noteq (by omega : j + 1 ≠ q2 + 1)]
          exact hInv.tmono j (by omega)
        · have hje : j = q2 := by omega
          subst hje
          rw [Function.update_noteq (by omega : j ≠ j + 1), Function.update_same]
          exact hcrossT
      · intro j hj
        simp only [ScanState.q, ScanState.t] at *
        rcases Nat.lt_or_ge j (q2 + 1) with h1 | h1
        · rw [Function.update_noteq (by omega : j ≠ q2 + 1)]
          exact hInv.tbound j (by omega)
        · have hje : j = q2 + 1 := by omega
          subst hje
          rw [Function.update_same]
          omega
      · intro j hj
        simp only [ScanState.q, ScanState.s] at *
        rcases Nat.lt_or_ge j (q2 + 1) with h1 | h1
        · rw [Function.update_noteq (by omega : j ≠ q2 + 1)]
          have := hInv.sbound j (by omega)
          omega
        · have hje : j = q2 + 1 := by omega
          subst hje
          rw [Function.update_same]
          omega
      · intro j hj z hz1 hz2 hseg u hu0 hu1
        simp only [ScanState.q, ScanState.s, ScanState.t] at *
        rcases Nat.lt_or_ge j q2 with h1 | h1
        · -- an untouched lower segment
          rw [Function.update_noteq (by omega : j ≠ q2 + 1)] at hz1 ⊢
          have hseg2 : z < st.t (j + 1) := by
            have := hseg (by omega)
            rwa [Function.update_noteq (by omega : j + 1 ≠ q2 + 1)] at this
          rcases eq_or_lt_of_le hu1 with he | hl
          · -- against the new apex: go through the old top apex
            subst he
            have hzq2 : z < st.t q2 :=
              lt_of_lt_of_le hseg2
                (chainMono st.t st.q (fun i hi => hInv.tmono i hi) (j + 1) q2
                  (by omega) hq2le)
            have h3 : parb v (st.s j) z ≤ parb v (st.s q2) z :=
              hInv.env j (by omega) z hz1 hz2 (fun _ => hseg2) (st.s q2)
                hSb.1 hSb.2
            exact le_trans h3 (hcrossGt z (by omega))
          · exact hInv.env j (by omega) z hz1 hz2 (fun _ => hseg2) u hu0 (by omega)
        rcases Nat.lt_or_ge j (q2 + 1) with h2 | h2
        · -- the stopped segment, now capped by the crossover
          have hje : j = q2 := by omega
          subst hje
          rw [Function.update_noteq (by omega : j ≠ j + 1)] at hz1 ⊢
          have hsegc : z <
              1 + Int.tdiv ((X + 1) * (X + 1) - st.s j * st.s j + v (X + 1) - v (st.s j))
                (2 * (X + 1 - st.s j)) := by
            have := hseg (by omega)
            rwa [Function.update_same] at this
          rcases eq_or_lt_of_le hu1 with he | hl
          · subst he
            exact hcrossGt z hsegc
          · obtain ⟨j0, hj0q, hj0z, hj0seg, hj0min⟩ :=
              env_min hInv z (by omega) hz2
            rcases Nat.lt_or_ge j0 j with h3 | h3
            · exfalso
              have : z < st.t (j0 + 1) := hj0seg (by omega)
              have hmn := chainMono st.t st.q (fun i hi => hInv.tmono i hi)
                (j0 + 1) j (by omega) hq2le
              omega
            rcases Nat.lt_or_ge j j0 with h4 | h4
            · -- z lies in a popped segment: chain through its apex
              have hpopj0 := hpops j0 (by omega) hj0q
              have hs0x : st.s j0 < X + 1 := by
                have := (hInv.sbound j0 hj0q).2
                omega
              have hd1 : parb v (X + 1) z ≤ parb v (st.s j0) z :=
                parb_dom_right v hs0x (le_of_lt hpopj0) hj0z
              exact le_trans (le_trans (hcrossGt z hsegc) hd1)
                (hj0min u hu0 (by omega))
            · have hje2 : j0 = j := by omega
              subst hje2
              exact hj0min u hu0 (by omega)
        · -- the freshly pushed top segment
          have hje : j = q2 + 1 := by omega
          subst hje
          rw [Function.update_same] at hz1
          simp only [Function.update_same]
          rcases eq_or_lt_of_le hu1 with he | hl
          · rw [he]
          · obtain ⟨j0, hj0q, hj0z, hj0seg, hj0min⟩ :=
              env_min hInv z (by omega) hz2
            rcases Nat.lt_or_ge j0 q2 with h3 | h3
            · exfalso
              have : z < st.t (j0 + 1) := hj0seg (by omega)
              have hmn := chainMono st.t st.q (fun i hi => hInv.tmono i hi)
                (j0 + 1) q2 (by omega) hq2le
              omega
            rcases Nat.lt_or_ge q2 j0 with h4 | h4
            · have hpopj0 := hpops j0 (by omega) hj0q
              have hs0x : st.s j0 < X + 1 := by
                have := (hInv.sbound j0 hj0q).2
                omega
              have hd1 : parb v (X + 1) z ≤ parb v (st.s j0) z :=
                parb_dom_right v hs0x (le_of_lt hpopj0) hj0z
              exact le_trans hd1 (hj0min u hu0 (by omega))
            · have hje2 : j0 = q2 := by omega
              subst hje2
              exact le_trans (hcrossLe z hz1) (hj0min u hu0 (by omega))
    · -- crossover past the row end: the new parabola never wins in-row
      refine ⟨hInv.t0, ?_, ?_, ?_, ?_⟩
      · intro j hj
        simp only [ScanState.q, ScanState.t] at *
        exact hInv.tmono j (by omega)
      · intro j hj
        simp only [ScanState.q, ScanState.t] at *
        exact hInv.tbound j (by omega)
      · intro j hj
        simp only [ScanState.q, ScanState.s] at *
        have := hInv.sbound j (by omega)
        omega
      · intro j hj z hz1 hz2 hseg u hu0 hu1
        simp only [ScanState.q, ScanState.s, ScanState.t] at *
        have hzc : z <
            1 + Int.tdiv ((X + 1) * (X + 1) - st.s q2 * st.s q2 + v (X + 1) - v (st.s q2))
              (2 * (X + 1 - st.s q2)) := by omega
        rcases Nat.lt_or_ge j q2 with h1 | h1
        · have hseg2 : z < st.t (j + 1) := hseg (by omega)
          rcases eq_or_lt_of_le hu1 with he | hl
          · subst he
            have h3 : parb v (st.s j) z ≤ parb v (st.s q2) z :=
              hInv.env j (by omega) z hz1 hz2 (fun _ => hseg2) (st.s q2)
                hSb.1 hSb.2
            exact le_trans h3 (hcrossGt z hzc)
          · exact hInv.env j (by omega) z hz1 hz2 (fun _ => hseg2) u hu0 (by omega)
        · have hje : j = q2 := by omega
          subst hje
          rcases eq_or_lt_of_le hu1 with he | hl
          · subst he
            exact hcrossGt z hzc
          · obtain ⟨j0, hj0q, hj0z, hj0seg, hj0min⟩ :=
              env_min hInv z (by omega) hz2
            rcases Nat.lt_or_ge j0 j with h3 | h3
            · exfalso
              have : z < st.t (j0 + 1) := hj0seg (by omega)
              have hmn := chainMono st.t st.q (fun i hi => hInv.tmono i hi)
                (j0 + 1) j (by omega) hq2le
              omega
            rcases Nat.lt_or_ge j j0 with h4 | h4
            · have hpopj0 := hpops j0 (by omega) hj0q
              have hs0x : st.s j0 < X + 1 := by
                have := (hInv.sbound j0 hj0q).2
                omega
              have hd1 : parb v (X + 1) z ≤ parb v (st.s j0) z :=
                parb_dom_right v hs0x (le_of_lt hpopj0) hj0z
              exact le_trans (le_trans (hcrossGt z hzc) hd1)
                (hj0min u hu0 (by omega))
            · have hje2 : j0 = j := by omega
              subst hje2
              exact hj0min u hu0 (by omega)

/-- The invariant holds after processing any prefix of columns. -/
theorem scanPrefix_inv (wi : ℕ) (v : ℤ → ℤ) :
    ∀ n : ℕ, n + 1 ≤ wi →
      ScanInv wi v (n : ℤ)
        ((List.range n).foldl
          (fun (st : ScanState) (i : ℕ) => scanStep (wi : ℤ) v st ((i : ℤ) + 1))
          ⟨0, fun _ => 0, fun _ => 0⟩) := by
  intro n
  induction n with
  | zero =>
      intro hn
      simp only [List.range_zero, List.foldl_nil]
      refine ⟨rfl, ?_, ?_, ?_, ?_⟩
      · intro j hj
        exact absurd hj (Nat.not_lt_zero j)
      · intro j hj
        have hj0 : j = 0 := Nat.le_zero.mp hj
        subst hj0
        simp only [ScanState.t]
        omega
      · intro j hj
        exact ⟨le_refl 0, le_refl 0⟩
      · intro j hj z hz1 hz2 hseg u hu0 hu1
        have hu : u = 0 := le_antisymm hu1 hu0
        have hj0 : j = 0 := Nat.le_zero.mp hj
        subst hu
        subst hj0
        exact le_refl _
  | succ n ih =>
      intro hn
      rw [List.range_succ, List.foldl_append, List.foldl_cons, List.foldl_nil]
      have hstep := scanStep_inv wi v (n : ℤ) _ (ih (by omega)) (by omega)
        (by exact_mod_cast hn)
      have hc : ((n : ℤ) + 1) = ((n + 1 : ℕ) : ℤ) := by push_cast; ring
      rw [← hc]
      exact hstep

/-- The invariant for the completed forward scan. -/
theorem forwardScan_inv (wi : ℕ) (v : ℤ → ℤ) (hw : 1 ≤ wi) :
    ScanInv wi v ((wi - 1 : ℕ) : ℤ) (forwardScan wi v) := by
  unfold forwardScan
  exact scanPrefix_inv wi v (wi - 1) (by omega)

/-- One step of the SQEUCLID backward scan (the `takeSquareRoot = false`
case of the loop body of `backScan`), processing `x = wi - 1 - xr`. -/
def backStep (wi : ℕ) (v : ℤ → ℤ) (inf : ℤ) (st : ScanState)
    (acc : ℕ × (ℤ → ℤ)) (xr : ℕ) : ℕ × (ℤ → ℤ) :=
  (if ((wi : ℤ) - 1 - (xr : ℤ)) = st.t acc.1 then acc.1 - 1 else acc.1,
   Function.update acc.2 ((wi : ℤ) - 1 - (xr : ℤ))
     (clampRange 0 inf
       ((((wi : ℤ) - 1 - (xr : ℤ)) - st.s acc.1) *
        (((wi : ℤ) - 1 - (xr : ℤ)) - st.s acc.1) + v (st.s acc.1))))

theorem backScan_eq_backStep (wi : ℕ) (v : ℤ → ℤ) (inf : ℤ) (st : ScanState) :
    backScan false inf v st wi =
      ((List.range wi).foldl (backStep wi v inf st) (st.q, fun _ => 0)).2 := rfl

/-- Invariant of the backward scan: after processing `k` columns (from the
right), the stack level tracks the segment of the next column, and every
processed column already holds the clamped value of its segment's
parabola. -/
theorem backPrefix_inv (wi : ℕ) (v : ℤ → ℤ) (inf : ℤ) (st : ScanState)
    (hInv : ScanInv wi v ((wi - 1 : ℕ) : ℤ) st) (hw : 1 ≤ wi) :
    ∀ k : ℕ, k ≤ wi →
      ((List.range k).foldl (backStep wi v inf st) (st.q, fun _ => 0)).1 ≤ st.q ∧
      (k < wi →
        st.t ((List.range k).foldl (backStep wi v inf st) (st.q, fun _ => 0)).1 ≤
          (wi : ℤ) - 1 - (k : ℤ) ∧
        (((List.range k).foldl (backStep wi v inf st) (st.q, fun _ => 0)).1 < st.q →
          (wi : ℤ) - 1 - (k : ℤ) <
            st.t (((List.range k).foldl (backStep wi v inf st) (st.q, fun _ => 0)).1 + 1))) ∧
      (∀ x0 : ℤ, (wi : ℤ) - 1 - (k : ℤ) < x0 → x0 ≤ (wi : ℤ) - 1 →
        ∃ j, j ≤ st.q ∧ st.t j ≤ x0 ∧ (j < st.q → x0 < st.t (j + 1)) ∧
          ((List.range k).foldl (backStep wi v inf st) (st.q, fun _ => 0)).2 x0 =
            clampRange 0 inf (parb v (st.s j) x0)) := by
  intro k
  induction k with
  | zero =>
      intro hk
      simp only [List.range_zero, List.foldl_nil]
      refine ⟨le_refl _, ?_, ?_⟩
      · intro hkw
        constructor
        · have := (hInv.tbound st.q (le_refl _)).2
          omega
        · intro habs
          exact absurd habs (Nat.lt_irrefl _)
      · intro x0 h1 h2
        omega
  | succ k ih =>
      intro hk
      obtain ⟨hB1, hB2, hB3⟩ := ih (by omega)
      rw [List.range_succ, List.foldl_append, List.foldl_cons, List.foldl_nil]
      set S := (List.range k).foldl (backStep wi v inf st) (st.q, fun _ => 0)
        with hSdef
      obtain ⟨htq, hseg⟩ := hB2 (by omega)
      unfold backStep
      split_ifs with hxt
      · -- the processed column is the left end of its segment: step down
        have hq1 : 1 ≤ S.1 ∨ S.1 = 0 := by
          omega
        refine ⟨by omega, ?_, ?_⟩
        · intro hkw
          have hx1 : (1 : ℤ) ≤ (wi : ℤ) - 1 - (k : ℤ) := by push_cast; omega
          rcases hq1 with hq1 | hq1
          · constructor
            · have hmono := hInv.tmono (S.1 - 1) (by omega)
              rw [Nat.sub_add_cancel hq1] at hmono
              push_cast
              omega
            · intro hlt
              rw [Nat.sub_add_cancel hq1]
              push_cast
              omega
          · exfalso
            rw [hq1, hInv.t0] at hxt
            omega
        · intro x0 h1 h2
          by_cases hx0e : x0 = (wi : ℤ) - 1 - (k : ℤ)
          · subst hx0e
            refine ⟨S.1, hB1, htq, hseg, ?_⟩
            dsimp only
            rw [Function.update_same]
            rfl
          · have hx0gt : (wi : ℤ) - 1 - (k : ℤ) < x0 := by push_cast at h1 ⊢; omega
            obtain ⟨j, hj1, hj2, hj3, hj4⟩ := hB3 x0 hx0gt h2
            refine ⟨j, hj1, hj2, hj3, ?_⟩
            dsimp only
            rw [Function.update_noteq hx0e]
            exact hj4
      · -- the column is strictly inside its segment: stack level unchanged
        refine ⟨by omega, ?_, ?_⟩
        · intro hkw
          constructor
          · push_cast
            omega
          · intro hlt
            have := hseg hlt
            push_cast
            omega
        · intro x0 h1 h2
          by_cases hx0e : x0 = (wi : ℤ) - 1 - (k : ℤ)
          · subst hx0e
            refine ⟨S.1, hB1, htq, hseg, ?_⟩
            dsimp only
            rw [Function.update_same]
            rfl
          · have hx0gt : (wi : ℤ) - 1 - (k : ℤ) < x0 := by push_cast at h1 ⊢; omega
            obtain ⟨j, hj1, hj2, hj3, hj4⟩ := hB3 x0 hx0gt h2
            refine ⟨j, hj1, hj2, hj3, ?_⟩
            dsimp only
            rw [Function.update_noteq hx0e]
            exact hj4

/-- The two scans together compute, at every column of the row, the exact
minimum over all columns of `(x - u)^2 + v(u)` (no clamping occurs when
`v` is within `0..inf`). -/
theorem backScan_min (wi : ℕ) (v : ℤ → ℤ) (inf : ℤ) (hw : 1 ≤ wi)
    (hv : ∀ u : ℤ, 0 ≤ u → u < (wi : ℤ) → 0 ≤ v u ∧ v u ≤ inf)
    (x : ℤ) (hx0 : 0 ≤ x) (hx1 : x < (wi : ℤ)) :
    ∃ u0 : ℤ, 0 ≤ u0 ∧ u0 < (wi : ℤ) ∧
      backScan false inf v (forwardScan wi v) wi x =
        (x - u0) * (x - u0) + v u0 ∧
      ∀ u : ℤ, 0 ≤ u → u < (wi : ℤ) →
        (x - u0) * (x - u0) + v u0 ≤ (x - u) * (x - u) + v u := by
  have hInv := forwardScan_inv wi v hw
  obtain ⟨hB1, hB2, hB3⟩ :=
    backPrefix_inv wi v inf (forwardScan wi v) hInv hw wi (le_refl wi)
  obtain ⟨j, hj1, hj2, hj3, hj4⟩ := hB3 x (by omega) (by omega)
  have hsb := hInv.sbound j hj1
  have hu0lt : (forwardScan wi v).s j < (wi : ℤ) := by
    have := hsb.2
    push_cast at this ⊢
    omega
  have hmin : ∀ u : ℤ, 0 ≤ u → u < (wi : ℤ) →
      parb v ((forwardScan wi v).s j) x ≤ parb v u x := by
    intro u hu0 hu1
    exact hInv.env j hj1 x hj2 hx1 hj3 u hu0 (by push_cast; omega)
  have hm0 : 0 ≤ parb v ((forwardScan wi v).s j) x := by
    unfold parb
    have h1 := (hv ((forwardScan wi v).s j) hsb.1 hu0lt).1
    have h2 := mul_self_nonneg (x - (forwardScan wi v).s j)
    omega
  have hmi : parb v ((forwardScan wi v).s j) x ≤ inf := by
    have h1 := hmin x hx0 hx1
    have h2 : parb v x x = v x := by
      unfold parb
      ring
    have h3 := (hv x hx0 hx1).2
    omega
  refine ⟨(forwardScan wi v).s j, hsb.1, hu0lt, ?_, fun u hu0 hu1 => hmin u hu0 hu1⟩
  rw [backScan_eq_backStep, hj4, clampRange_id 0 inf _ hm0 hmi]
  rfl

/-! Characterising the squared-vertical-distance phase. -/

/-- Squared Euclidean distance between two grid cells. -/
def sqD (p q : ℤ × ℤ) : ℤ :=
  (p.1 - q.1) * (p.1 - q.1) + (p.2 - q.2) * (p.2 - q.2)

theorem sqD_nonneg (p q : ℤ × ℤ) : 0 ≤ sqD p q :=
  add_nonneg (mul_self_nonneg _) (mul_self_nonneg _)

theorem sqD_refl (p : ℤ × ℤ) : sqD p p = 0 := by
  unfold sqD
  ring

theorem inGrid_mk (w h : ℕ) (a b : ℤ) (h1 : 0 ≤ a) (h2 : a < (w : ℤ))
    (h3 : 0 ≤ b) (h4 : b < (h : ℤ)) : inGrid w h (a, b) :=
  ⟨h1, h2, h3, h4⟩

/-- The squared vertical value is at most the squared row distance to any
background cell in the same column. -/
theorem vdt_le (w h : ℕ) (fg : ℤ) (pix : ℕ → ℕ → ℤ) (hw : 1 ≤ w) (hh : 1 ≤ h)
    (p q : ℤ × ℤ) (hp : inGrid w h p) (hq : inGrid w h q)
    (hbg : pixAt pix q ≠ fg) (hcol : q.1 = p.1) :
    vdtStorage w h fg pix p ≤ (p.2 - q.2) * (p.2 - q.2) := by
  have hvert := dtV_exact w h fg pix p hp
  unfold maskV at hvert
  unfold vdtStorage
  rw [hvert]
  have hMle : specMinD (vertD ((w : ℤ) + (h : ℤ) + 1)) w h fg pix
      ((w : ℤ) + (h : ℤ) + 1) p ≤ ((p.2 - q.2).natAbs : ℤ) := by
    have hmem := foldlMin_le_mem (vertD ((w : ℤ) + (h : ℤ) + 1) p)
      (bgCoords w h fg pix) ((w : ℤ) + (h : ℤ) + 1)
      (mem_bgCoords.mpr ⟨hq, hbg⟩)
    have hve : vertD ((w : ℤ) + (h : ℤ) + 1) p q = ((p.2 - q.2).natAbs : ℤ) := by
      unfold vertD
      rw [if_pos hcol.symm]
    unfold specMinD
    rw [← hve]
    exact hmem
  have hMnn : 0 ≤ specMinD (vertD ((w : ℤ) + (h : ℤ) + 1)) w h fg pix
      ((w : ℤ) + (h : ℤ) + 1) p := by
    unfold specMinD
    refine le_foldlMin _ _ _ _ (by positivity) ?_
    intro r hr
    unfold vertD
    split_ifs
    · positivity
    · positivity
  have habs : ((p.2 - q.2).natAbs : ℤ) ≤ (h : ℤ) - 1 := by
    obtain ⟨_, _, hp2, hp3⟩ := hp
    obtain ⟨_, _, hq2, hq3⟩ := hq
    omega
  rw [if_pos (by omega :
    specMinD (vertD ((w : ℤ) + (h : ℤ) + 1)) w h fg pix
      ((w : ℤ) + (h : ℤ) + 1) p < (h : ℤ))]
  have hone : (1 : ℤ) ≤ (h : ℤ) := by exact_mod_cast hh
  have hMh1 : specMinD (vertD ((w : ℤ) + (h : ℤ) + 1)) w h fg pix
      ((w : ℤ) + (h : ℤ) + 1) p ≤ (h : ℤ) - 1 := le_trans hMle habs
  have k1 := mul_le_mul hMh1 hMh1 hMnn (by omega : (0 : ℤ) ≤ (h : ℤ) - 1)
  have k2 : ((h : ℤ) - 1) * ((h : ℤ) - 1) = (h : ℤ) * (h : ℤ) - 2 * (h : ℤ) + 1 := by
    ring
  have k3 : (0 : ℤ) ≤ (w : ℤ) * (w : ℤ) := mul_self_nonneg _
  rw [clampRange_id 0 ((w : ℤ) * (w : ℤ) + (h : ℤ) * (h : ℤ)) _
    (mul_self_nonneg _) (by omega)]
  have h2 : ((p.2 - q.2).natAbs : ℤ) * ((p.2 - q.2).natAbs : ℤ) =
      (p.2 - q.2) * (p.2 - q.2) := Int.natAbs_mul_self' (p.2 - q.2)
  have h3 := mul_le_mul hMle hMle hMnn (by positivity :
    (0 : ℤ) ≤ ((p.2 - q.2).natAbs : ℤ))
  omega

/-- The squared vertical value either is the infinity `w^2 + h^2` or is the
exact squared row distance to some background cell of the same column. -/
theorem vdt_cases (w h : ℕ) (fg : ℤ) (pix : ℕ → ℕ → ℤ) (hw : 1 ≤ w)
    (hh : 1 ≤ h) (p : ℤ × ℤ) (hp : inGrid w h p) :
    vdtStorage w h fg pix p = (w : ℤ) * (w : ℤ) + (h : ℤ) * (h : ℤ) ∨
    ∃ q, inGrid w h q ∧ pixAt pix q ≠ fg ∧ q.1 = p.1 ∧
      vdtStorage w h fg pix p = (p.2 - q.2) * (p.2 - q.2) := by
  have hvert := dtV_exact w h fg pix p hp
  unfold maskV at hvert
  unfold vdtStorage
  rw [hvert]
  have hMnn : 0 ≤ specMinD (vertD ((w : ℤ) + (h : ℤ) + 1)) w h fg pix
      ((w : ℤ) + (h : ℤ) + 1) p := by
    unfold specMinD
    refine le_foldlMin _ _ _ _ (by positivity) ?_
    intro r hr
    unfold vertD
    split_ifs
    · positivity
    · positivity
  by_cases hc : specMinD (vertD ((w : ℤ) + (h : ℤ) + 1)) w h fg pix
      ((w : ℤ) + (h : ℤ) + 1) p < (h : ℤ)
  · rw [if_pos hc]
    have hcase := foldlMin_cases (vertD ((w : ℤ) + (h : ℤ) + 1) p)
      (bgCoords w h fg pix) ((w : ℤ) + (h : ℤ) + 1)
    have hMdef : specMinD (vertD ((w : ℤ) + (h : ℤ) + 1)) w h fg pix
        ((w : ℤ) + (h : ℤ) + 1) p =
        (bgCoords w h fg pix).foldl
          (fun a b => min a (vertD ((w : ℤ) + (h : ℤ) + 1) p b))
          ((w : ℤ) + (h : ℤ) + 1) := rfl
    rw [← hMdef] at hcase
    rcases hcase with hinf | ⟨q, hqmem, hqeq⟩
    · exfalso
      rw [hinf] at hc
      omega
    · obtain ⟨hqg, hqbg⟩ := mem_bgCoords.mp hqmem
      by_cases hcol : p.1 = q.1
      · right
        refine ⟨q, hqg, hqbg, hcol.symm, ?_⟩
        have hve : vertD ((w : ℤ) + (h : ℤ) + 1) p q = ((p.2 - q.2).natAbs : ℤ) := by
          unfold vertD
          rw [if_pos hcol]
        rw [hve] at hqeq
        rw [hqeq] at hc hMnn ⊢
        have hone : (1 : ℤ) ≤ (h : ℤ) := by exact_mod_cast hh
        have k1 := mul_le_mul (by omega : ((p.2 - q.2).natAbs : ℤ) ≤ (h : ℤ) - 1)
          (by omega : ((p.2 - q.2).natAbs : ℤ) ≤ (h : ℤ) - 1) hMnn
          (by omega : (0 : ℤ) ≤ (h : ℤ) - 1)
        have k2 : ((h : ℤ) - 1) * ((h : ℤ) - 1) =
            (h : ℤ) * (h : ℤ) - 2 * (h : ℤ) + 1 := by ring
        have k3 : (0 : ℤ) ≤ (w : ℤ) * (w : ℤ) := mul_self_nonneg _
        rw [clampRange_id 0 ((w : ℤ) * (w : ℤ) + (h : ℤ) * (h : ℤ)) _
          (mul_self_nonneg _) (by omega)]
        exact Int.natAbs_mul_self' (p.2 - q.2)
      · exfalso
        have hve : vertD ((w : ℤ) + (h : ℤ) + 1) p q = (w : ℤ) + (h : ℤ) + 1 := by
          unfold vertD
          rw [if_neg hcol]
        rw [hve] at hqeq
        rw [hqeq] at hc
        have : (0 : ℤ) ≤ (w : ℤ) := by positivity
        omega
  · rw [if_neg hc]
    left
    refine clampRange_id 0 _ _ ?_ (le_refl _)
    positivity

/-! Claim C1: the squared Euclidean transform is exact. -/

/-- Claim C1: for every image and foreground value, the SQEUCLID metric of
`distanceTransform` computes at every cell exactly the minimum, over all
background cells, of `dx^2 + dy^2` (started from the sentinel
`width^2 + height^2`, which is reached only when no background exists);
background cells get 0, every background cell at offset `(dx, dy)` is an
upper bound, and when a background cell exists the minimum is attained. -/
theorem distanceTransform_c1 (im : IntImage) (fg : ℤ) (x y : ℕ)
    (hx : x < wN im) (hy : y < hN im) :
    ((distanceTransform im DTMetric.SQEUCLID fg).pixels y x =
      specMinD sqD (wN im) (hN im) fg im.pixels
        ((wN im : ℤ) * (wN im : ℤ) + (hN im : ℤ) * (hN im : ℤ))
        ((x : ℤ), (y : ℤ))) ∧
    (im.pixels y x ≠ fg →
      (distanceTransform im DTMetric.SQEUCLID fg).pixels y x = 0) ∧
    (∀ a b : ℕ, a < wN im → b < hN im → im.pixels b a ≠ fg →
      (distanceTransform im DTMetric.SQEUCLID fg).pixels y x ≤
        ((x : ℤ) - (a : ℤ)) * ((x : ℤ) - (a : ℤ)) +
        ((y : ℤ) - (b : ℤ)) * ((y : ℤ) - (b : ℤ))) ∧
    ((∃ a b : ℕ, a < wN im ∧ b < hN im ∧ im.pixels b a ≠ fg) →
      ∃ a b : ℕ, a < wN im ∧ b < hN im ∧ im.pixels b a ≠ fg ∧
        (distanceTransform im DTMetric.SQEUCLID fg).pixels y x =
          ((x : ℤ) - (a : ℤ)) * ((x : ℤ) - (a : ℤ)) +
          ((y : ℤ) - (b : ℤ)) * ((y : ℤ) - (b : ℤ))) := by
  have hw : 1 ≤ wN im := by omega
  have hh : 1 ≤ hN im := by omega
  have hg : inGrid (wN im) (hN im) ((x : ℤ), (y : ℤ)) := by
    unfold inGrid
    dsimp only
    omega
  have hinf2 : (0 : ℤ) <
      (wN im : ℤ) * (wN im : ℤ) + (hN im : ℤ) * (hN im : ℤ) := by
    have hw' : (0 : ℤ) < (wN im : ℤ) := by exact_mod_cast hw
    have h1 := mul_pos hw' hw'
    have h2 := mul_self_nonneg (hN im : ℤ)
    omega
  have e : (distanceTransform im DTMetric.SQEUCLID fg).pixels y x =
      backScan false ((wN im : ℤ) * (wN im : ℤ) + (hN im : ℤ) * (hN im : ℤ))
        (fun u => vdtStorage (wN im) (hN im) fg im.pixels (u, (y : ℤ)))
        (forwardScan (wN im)
          (fun u => vdtStorage (wN im) (hN im) fg im.pixels (u, (y : ℤ))))
        (wN im) (x : ℤ) := rfl
  have hv : ∀ u : ℤ, 0 ≤ u → u < (wN im : ℤ) →
      0 ≤ vdtStorage (wN im) (hN im) fg im.pixels (u, (y : ℤ)) ∧
      vdtStorage (wN im) (hN im) fg im.pixels (u, (y : ℤ)) ≤
        (wN im : ℤ) * (wN im : ℤ) + (hN im : ℤ) * (hN im : ℤ) := by
    intro u hu0 hu1
    unfold vdtStorage
    exact clampRange_bounds _ _ hinf2
  obtain ⟨u0, hu00, hu01, heq, hmin⟩ :=
    backScan_min (wN im)
      (fun u => vdtStorage (wN im) (hN im) fg im.pixels (u, (y : ℤ)))
      ((wN im : ℤ) * (wN im : ℤ) + (hN im : ℤ) * (hN im : ℤ)) hw hv
      (x : ℤ) (by omega) (by omega)
  have hMdef : specMinD sqD (wN im) (hN im) fg im.pixels
      ((wN im : ℤ) * (wN im : ℤ) + (hN im : ℤ) * (hN im : ℤ))
      ((x : ℤ), (y : ℤ)) =
      (bgCoords (wN im) (hN im) fg im.pixels).foldl
        (fun a b => min a (sqD ((x : ℤ), (y : ℤ)) b))
        ((wN im : ℤ) * (wN im : ℤ) + (hN im : ℤ) * (hN im : ℤ)) := rfl
  have hmain : (distanceTransform im DTMetric.SQEUCLID fg).pixels y x =
      specMinD sqD (wN im) (hN im) fg im.pixels
        ((wN im : ℤ) * (wN im : ℤ) + (hN im : ℤ) * (hN im : ℤ))
        ((x : ℤ), (y : ℤ)) := by
    rw [e, heq]
    refine le_antisymm ?_ ?_
    · -- every background cell is an upper bound for the computed value
      rw [hMdef]
      refine le_foldlMin _ _ _ _ ?_ ?_
      · have h1 := hmin (x : ℤ) (by omega) (by omega)
        have h2 : ((x : ℤ) - (x : ℤ)) * ((x : ℤ) - (x : ℤ)) +
            vdtStorage (wN im) (hN im) fg im.pixels ((x : ℤ), (y : ℤ)) =
            vdtStorage (wN im) (hN im) fg im.pixels ((x : ℤ), (y : ℤ)) := by
          ring
        have h3 := (hv (x : ℤ) (by omega) (by omega)).2
        omega
      · intro q hqmem
        obtain ⟨hqg, hqbg⟩ := mem_bgCoords.mp hqmem
        have h1 := hmin q.1 hqg.1 hqg.2.1
        have h2 := vdt_le (wN im) (hN im) fg im.pixels hw hh (q.1, (y : ℤ)) q
          (inGrid_mk (wN im) (hN im) q.1 (y : ℤ) hqg.1 hqg.2.1 (by omega)
            (by omega)) hqg hqbg rfl
        unfold sqD
        dsimp only
        dsimp only at h2
        omega
    · -- the computed value is itself realised by some background cell
      rcases vdt_cases (wN im) (hN im) fg im.pixels hw hh (u0, (y : ℤ))
          (inGrid_mk (wN im) (hN im) u0 (y : ℤ) hu00 hu01 (by omega) (by omega))
        with hcase | ⟨q, hqg, hqbg, hqcol, hcase⟩
      · rw [hcase, hMdef]
        have hle := foldlMin_le_init (sqD ((x : ℤ), (y : ℤ)))
          (bgCoords (wN im) (hN im) fg im.pixels)
          ((wN im : ℤ) * (wN im : ℤ) + (hN im : ℤ) * (hN im : ℤ))
        have h2 := mul_self_nonneg ((x : ℤ) - u0)
        omega
      · have hle := foldlMin_le_mem (sqD ((x : ℤ), (y : ℤ)))
          (bgCoords (wN im) (hN im) fg im.pixels)
          ((wN im : ℤ) * (wN im : ℤ) + (hN im : ℤ) * (hN im : ℤ))
          (mem_bgCoords.mpr ⟨hqg, hqbg⟩)
        have hsq : sqD ((x : ℤ), (y : ℤ)) q =
            ((x : ℤ) - q.1) * ((x : ℤ) - q.1) +
            ((y : ℤ) - q.2) * ((y : ℤ) - q.2) := rfl
        rw [hsq] at hle
        have hcase2 : vdtStorage (wN im) (hN im) fg im.pixels (u0, (y : ℤ)) =
            ((y : ℤ) - q.2) * ((y : ℤ) - q.2) := hcase
        have hqcol2 : q.1 = u0 := hqcol
        rw [hMdef, hcase2]
        rw [hqcol2] at hle
        omega
  refine ⟨hmain, ?_, ?_, ?_⟩
  · intro hbg
    rw [hmain]
    exact specMinD_zero_of_bg sqD _ _ fg im.pixels _ _ (le_of_lt hinf2) hg
      hbg (sqD_refl _) (sqD_nonneg _)
  · intro a b ha hb hbg
    have hmem : (((a : ℕ) : ℤ), ((b : ℕ) : ℤ)) ∈
        bgCoords (wN im) (hN im) fg im.pixels :=
      mem_bgCoords.mpr ⟨inGrid_mk (wN im) (hN im) (a : ℤ) (b : ℤ) (by omega)
        (by omega) (by omega) (by omega), hbg⟩
    have hle := foldlMin_le_mem (sqD ((x : ℤ), (y : ℤ)))
      (bgCoords (wN im) (hN im) fg im.pixels)
      ((wN im : ℤ) * (wN im : ℤ) + (hN im : ℤ) * (hN im : ℤ)) hmem
    rw [hmain, hMdef]
    exact hle
  · rintro ⟨a0, b0, ha0, hb0, hbg0⟩
    rcases foldlMin_cases (sqD ((x : ℤ), (y : ℤ)))
        (bgCoords (wN im) (hN im) fg im.pixels)
        ((wN im : ℤ) * (wN im : ℤ) + (hN im : ℤ) * (hN im : ℤ)) with
      hc | ⟨q, hqmem, hc⟩
    · exfalso
      have hmem0 : (((a0 : ℕ) : ℤ), ((b0 : ℕ) : ℤ)) ∈
          bgCoords (wN im) (hN im) fg im.pixels :=
        mem_bgCoords.mpr ⟨inGrid_mk (wN im) (hN im) (a0 : ℤ) (b0 : ℤ) (by omega)
          (by omega) (by omega) (by omega), hbg0⟩
      have hle0 := foldlMin_le_mem (sqD ((x : ℤ), (y : ℤ)))
        (bgCoords (wN im) (hN im) fg im.pixels)
        ((wN im : ℤ) * (wN im : ℤ) + (hN im : ℤ) * (hN im : ℤ)) hmem0
      have hle : (bgCoords (wN im) (hN im) fg im.pixels).foldl
          (fun c d => min c (sqD ((x : ℤ), (y : ℤ)) d))
          ((wN im : ℤ) * (wN im : ℤ) + (hN im : ℤ) * (hN im : ℤ)) ≤
          ((x : ℤ) - (a0 : ℤ)) * ((x : ℤ) - (a0 : ℤ)) +
          ((y : ℤ) - (b0 : ℤ)) * ((y : ℤ) - (b0 : ℤ)) := hle0
      have k1 : (0 : ℤ) ≤
          ((wN im : ℤ) - 1 - ((x : ℤ) - (a0 : ℤ))) *
          ((wN im : ℤ) - 1 + ((x : ℤ) - (a0 : ℤ))) :=
        mul_nonneg (by omega) (by omega)
      have k2 : (0 : ℤ) ≤
          ((hN im : ℤ) - 1 - ((y : ℤ) - (b0 : ℤ))) *
          ((hN im : ℤ) - 1 + ((y : ℤ) - (b0 : ℤ))) :=
        mul_nonneg (by omega) (by omega)
      have e1 : ((wN im : ℤ) - 1 - ((x : ℤ) - (a0 : ℤ))) *
          ((wN im : ℤ) - 1 + ((x : ℤ) - (a0 : ℤ))) =
          ((wN im : ℤ) - 1) * ((wN im : ℤ) - 1) -
            ((x : ℤ) - (a0 : ℤ)) * ((x : ℤ) - (a0 : ℤ)) := by ring
      have e2 : ((hN im : ℤ) - 1 - ((y : ℤ) - (b0 : ℤ))) *
          ((hN im : ℤ) - 1 + ((y : ℤ) - (b0 : ℤ))) =
          ((hN im : ℤ) - 1) * ((hN im : ℤ) - 1) -
            ((y : ℤ) - (b0 : ℤ)) * ((y : ℤ) - (b0 : ℤ)) := by ring
      have e3 : ((wN im : ℤ) - 1) * ((wN im : ℤ) - 1) =
          (wN im : ℤ) * (wN im : ℤ) - 2 * (wN im : ℤ) + 1 := by ring
      have e4 : ((hN im : ℤ) - 1) * ((hN im : ℤ) - 1) =
          (hN im : ℤ) * (hN im : ℤ) - 2 * (hN im : ℤ) + 1 := by ring
      rw [← hMdef] at hc hle
      omega
    · obtain ⟨hqg, hqbg⟩ := mem_bgCoords.mp hqmem
      have hc1 : ((q.1.toNat : ℕ) : ℤ) = q.1 := Int.toNat_of_nonneg hqg.1
      have hc2 : ((q.2.toNat : ℕ) : ℤ) = q.2 := Int.toNat_of_nonneg hqg.2.2.1
      refine ⟨q.1.toNat, q.2.toNat, ?_, ?_, hqbg, ?_⟩
      · have := hqg.2.1
        omega
      · have := hqg.2.2.2
        omega
      · rw [hmain, hMdef, hc]
        unfold sqD
        dsimp only
        rw [hc1, hc2]

/-- A concrete 2x1 image: foreground 1 at x = 0, background 0 at x = 1. -/
def c1Im : IntImage := ⟨⟨0, 1, 0, 0⟩, 0, 10, fun _ x => if x = 0 then 1 else 0⟩

/-- Claim C1, witness: the theorem applied to the concrete 2x1 image. -/
theorem distanceTransform_c1_witness :
    ((distanceTransform c1Im DTMetric.SQEUCLID 1).pixels 0 0 =
      specMinD sqD (wN c1Im) (hN c1Im) 1 c1Im.pixels
        ((wN c1Im : ℤ) * (wN c1Im : ℤ) + (hN c1Im : ℤ) * (hN c1Im : ℤ))
        (0, 0)) ∧
    (c1Im.pixels 0 0 ≠ 1 →
      (distanceTransform c1Im DTMetric.SQEUCLID 1).pixels 0 0 = 0) ∧
    (∀ a b : ℕ, a < wN c1Im → b < hN c1Im → c1Im.pixels b a ≠ 1 →
      (distanceTransform c1Im DTMetric.SQEUCLID 1).pixels 0 0 ≤
        ((0 : ℤ) - (a : ℤ)) * ((0 : ℤ) - (a : ℤ)) +
        ((0 : ℤ) - (b : ℤ)) * ((0 : ℤ) - (b : ℤ))) ∧
    ((∃ a b : ℕ, a < wN c1Im ∧ b < hN c1Im ∧ c1Im.pixels b a ≠ 1) →
      ∃ a b : ℕ, a < wN c1Im ∧ b < hN c1Im ∧ c1Im.pixels b a ≠ 1 ∧
        (distanceTransform c1Im DTMetric.SQEUCLID 1).pixels 0 0 =
          ((0 : ℤ) - (a : ℤ)) * ((0 : ℤ) - (a : ℤ)) +
          ((0 : ℤ) - (b : ℤ)) * ((0 : ℤ) - (b : ℤ))) :=
  distanceTransform_c1 c1Im 1 0 0 (by decide) (by decide)

/-! Sliding-window morphology (`slidingWindowOrd`, `dilateErodeIntImageRect`). -/

/-- Drop elements from the back of a list while they satisfy `p` (the
back-pop loop of the quack). -/
def dropBackWhile (p : ℕ → Bool) (l : List ℕ) : List ℕ :=
  (l.reverse.dropWhile p).reverse

/-- One iteration of `slidingWindowOrd` at index `i`: evict stale indices
from the front (`quackPeekFront <= i - w`), pop from the back while
`(img[back*offset+start] <= img[i*offset+start]) == ord`, push `i`, and
store the value at the front index into `out[i*offset+start]`. -/
def swStep (img : ℕ → ℤ) (w : ℕ) (ord : ℤ) (offset start : ℕ)
    (st : List ℕ × (ℕ → ℤ)) (i : ℕ) : List ℕ × (ℕ → ℤ) :=
  let q1 := st.1.dropWhile (fun j => decide (j + w ≤ i))
  let q2 := dropBackWhile
    (fun j => decide ((if img (j * offset + start) ≤ img (i * offset + start)
      then (1 : ℤ) else 0) = ord)) q1
  let q3 := q2 ++ [i]
  (q3, Function.update st.2 (i * offset + start)
    (img (q3.headI * offset + start)))

/-- `slidingWindowOrd` on a flat buffer: element `i` lives at
`i * offset + start`; the quack starts empty and `out` starts as the
current contents of the output buffer. -/
def slidingWindowOrd (img out0 : ℕ → ℤ) (n w : ℕ) (ord : ℤ)
    (offset start : ℕ) : ℕ → ℤ :=
  ((List.range n).foldl (swStep img w ord offset start) ([], out0)).2

/-- The quack contents alone after `k` iterations (they do not depend on
the output buffer). -/
def swQ (img : ℕ → ℤ) (w : ℕ) (ord : ℤ) (offset start : ℕ) (k : ℕ) :
    List ℕ :=
  (List.range k).foldl (fun q i =>
    dropBackWhile
      (fun j => decide ((if img (j * offset + start) ≤ img (i * offset + start)
        then (1 : ℤ) else 0) = ord))
      (q.dropWhile (fun j => decide (j + w ≤ i))) ++ [i]) []

/-- The input pixel grid viewed as the flat C buffer `image.pixels[0]`:
index `i` holds the pixel of row `i / width`, column `i % width`. -/
def dilateSrc (image : IntImage) : ℕ → ℤ :=
  fun i => image.pixels (i / wN image) (i % wN image)

/-- The row pass of `dilateErodeIntImageRect`: `slidingWindowOrd` with
window `kw`, offset 1 and start `row*width` for every row, written into
the freshly allocated result (the C allocator calloc-zeroes the grid). -/
def dilateRows (image : IntImage) (kw : ℕ) (flag : ℤ) : ℕ → ℤ :=
  (List.range (hN image)).foldl
    (fun out row =>
      slidingWindowOrd (dilateSrc image) out (wN image) kw flag 1
        (row * wN image))
    (fun _ => 0)

/-- `copyIntImage` of the row-pass result: every in-grid cell is written
through the clamping `setIntPixelI`. Positions outside the `width*height`
allocation would be out-of-bounds reads in C and are modelled as zero
(the theorems below only concern square images, which never reach them). -/
def dilateCopy (image : IntImage) (kw : ℕ) (flag : ℤ) : ℕ → ℤ :=
  fun i =>
    if i < wN image * hN image then
      clampRange image.minRange image.maxRange (dilateRows image kw flag i)
    else 0

/-- The column pass: the C call is
`slidingWindowOrd(copy, result, height, kh, flag, height, col)` for every
column, i.e. `height` is passed both as the element count and as the jump
offset, over the buffer currently holding the row-pass result. -/
def dilateCols (image : IntImage) (kw kh : ℕ) (flag : ℤ) : ℕ → ℤ :=
  (List.range (wN image)).foldl
    (fun out col =>
      slidingWindowOrd (dilateCopy image kw flag) out (hN image) kh flag
        (hN image) col)
    (dilateRows image kw flag)

/-- `dilateErodeIntImageRect`: row pass, clamped copy, column pass; the
result image keeps the input's domain and dynamic range. -/
def dilateErodeIntImageRect (image : IntImage) (kw kh : ℕ) (flag : ℤ) :
    IntImage :=
  { domain := image.domain, minRange := image.minRange,
    maxRange := image.maxRange,
    pixels := fun y x => dilateCols image kw kh flag (y * wN image + x) }

/-- `dilateIntImageRect image kw kh = dilateErodeIntImageRect image kw kh 1`. -/
def dilateIntImageRect (image : IntImage) (kw kh : ℕ) : IntImage :=
  dilateErodeIntImageRect image kw kh 1

/-- `erodeIntImageRect image kw kh = dilateErodeIntImageRect image kw kh 0`. -/
def erodeIntImageRect (image : IntImage) (kw kh : ℕ) : IntImage :=
  dilateErodeIntImageRect image kw kh 0

/-! Generic facts about the quack-based sliding window. -/

theorem headI_mem_of_ne_nil {l : List ℕ} (h : l ≠ []) : l.headI ∈ l := by
  cases l with
  | nil => exact absurd rfl h
  | cons a t => exact List.mem_cons_self a t

theorem headI_append {l t : List ℕ} (h : l ≠ []) : (l ++ t).headI = l.headI := by
  cases l with
  | nil => exact absurd rfl h
  | cons a t2 => rfl

theorem dropWhile_head_false (p : ℕ → Bool) :
    ∀ l : List ℕ, l.dropWhile p ≠ [] → p (l.dropWhile p).headI = false := by
  intro l
  induction l with
  | nil =>
      intro h
      exact absurd rfl h
  | cons a t ih =>
      intro h
      rw [List.dropWhile_cons] at h ⊢
      split_ifs at h ⊢ with hpa
      · exact ih h
      · exact eq_false_of_ne_true hpa

theorem dropBackWhile_prefix (p : ℕ → Bool) (l : List ℕ) :
    ∃ t, l = dropBackWhile p l ++ t := by
  obtain ⟨t, ht⟩ := List.dropWhile_suffix (l := l.reverse) p
  refine ⟨t.reverse, ?_⟩
  unfold dropBackWhile
  have h2 : l.reverse.reverse = (t ++ l.reverse.dropWhile p).reverse := by
    rw [ht]
  rw [List.reverse_reverse, List.reverse_append] at h2
  exact h2

theorem dropBackWhile_sublist (p : ℕ → Bool) (l : List ℕ) :
    (dropBackWhile p l).Sublist l := by
  obtain ⟨t, ht⟩ := dropBackWhile_prefix p l
  nth_rewrite 2 [ht]
  exact List.sublist_append_left _ t

theorem dropBackWhile_eq_nil (p : ℕ → Bool) (l : List ℕ)
    (h : ∀ a ∈ l, p a = true) : dropBackWhile p l = [] := by
  unfold dropBackWhile
  rw [List.dropWhile_eq_nil_iff.mpr (fun x hx => h x (List.mem_reverse.mp hx))]
  rfl

theorem dropBackWhile_head (p : ℕ → Bool) (l : List ℕ) (hl : l ≠ [])
    (hp : p l.headI = false) :
    dropBackWhile p l ≠ [] ∧ (dropBackWhile p l).headI = l.headI := by
  have hne : dropBackWhile p l ≠ [] := by
    intro he
    unfold dropBackWhile at he
    have h2 : l.reverse.dropWhile p = [] := by
      have := congrArg List.reverse he
      rwa [List.reverse_reverse] at this
    have h3 := List.dropWhile_eq_nil_iff.mp h2 l.headI
      (List.mem_reverse.mpr (headI_mem_of_ne_nil hl))
    rw [hp] at h3
    cases h3
  obtain ⟨t, ht⟩ := dropBackWhile_prefix p l
  refine ⟨hne, ?_⟩
  nth_rewrite 2 [ht]
  exact (headI_append hne).symm

theorem swQ_succ (img : ℕ → ℤ) (w : ℕ) (ord : ℤ) (offset start k : ℕ) :
    swQ img w ord offset start (k + 1) =
      dropBackWhile
        (fun j => decide
          ((if img (j * offset + start) ≤ img (k * offset + start)
            then (1 : ℤ) else 0) = ord))
        ((swQ img w ord offset start k).dropWhile
          (fun j => decide (j + w ≤ k))) ++ [k] := by
  unfold swQ
  rw [List.range_succ, List.foldl_append, List.foldl_cons, List.foldl_nil]

/-- The quack after `k` iterations is nonempty (for `k ≥ 1`), strictly
increasing, and holds only indices of the current window. -/
theorem swQ_basic (img : ℕ → ℤ) (w : ℕ) (ord : ℤ) (offset start : ℕ)
    (hw : 1 ≤ w) :
    ∀ k : ℕ, 1 ≤ k →
      swQ img w ord offset start k ≠ [] ∧
      List.Pairwise (· < ·) (swQ img w ord offset start k) ∧
      (∀ j ∈ swQ img w ord offset start k, j ≤ k - 1 ∧ k - 1 < j + w) := by
  intro k
  induction k with
  | zero =>
      intro h
      exact absurd h (by omega)
  | succ k ih =>
      intro _
      rw [swQ_succ]
      by_cases hk : 1 ≤ k
      · obtain ⟨hne, hpw, hwin⟩ := ih hk
        have hq1s : ((swQ img w ord offset start k).dropWhile
            (fun j => decide (j + w ≤ k))).Sublist (swQ img w ord offset start k) :=
          (List.dropWhile_suffix _).sublist
        have hq1p := hpw.sublist hq1s
        have hq1fresh : ∀ j ∈ (swQ img w ord offset start k).dropWhile
            (fun j => decide (j + w ≤ k)), k < j + w := by
          intro j hj
          cases hq1e : (swQ img w ord offset start k).dropWhile
              (fun j => decide (j + w ≤ k)) with
          | nil => rw [hq1e] at hj; cases hj
          | cons hd tl =>
              rw [hq1e] at hj hq1p
              have hhd : k < hd + w := by
                have := dropWhile_head_false (fun j => decide (j + w ≤ k))
                  (swQ img w ord offset start k) (by rw [hq1e]; simp)
                rw [hq1e] at this
                simpa using this
              rcases List.mem_cons.mp hj with he | htl
              · omega
              · have := (List.pairwise_cons.mp hq1p).1 j htl
                omega
        have hq2s := dropBackWhile_sublist
          (fun j => decide
            ((if img (j * offset + start) ≤ img (k * offset + start)
              then (1 : ℤ) else 0) = ord))
          ((swQ img w ord offset start k).dropWhile (fun j => decide (j + w ≤ k)))
        refine ⟨by simp, ?_, ?_⟩
        · rw [List.pairwise_append]
          refine ⟨hq1p.sublist hq2s, List.pairwise_singleton _ _, ?_⟩
          intro a ha b hb
          rw [List.mem_singleton] at hb
          subst hb
          have := (hwin a (hq1s.subset (hq2s.subset ha))).1
          omega
        · intro j hj
          rcases List.mem_append.mp hj with hq | hs
          · have h1 := hwin j (hq1s.subset (hq2s.subset hq))
            have h2 := hq1fresh j (hq2s.subset hq)
            omega
          · rw [List.mem_singleton] at hs
            subst hs
            omega
      · have hk0 : k = 0 := by omega
        subst hk0
        have h0 : swQ img w ord offset start 0 = [] := rfl
        rw [h0]
        refine ⟨by simp, by simp [dropBackWhile], ?_⟩
        intro j hj
        simp [dropBackWhile] at hj
        subst hj
        omega

/-- For a sliding maximum (`ord = 1`) over values with a unique maximum `B`
at index `b`, the front of the quack is `b` whenever `b` is inside the
current window. -/
theorem swQ_bright (img : ℕ → ℤ) (w : ℕ) (offset start : ℕ) (hw : 1 ≤ w)
    (n : ℕ) (B : ℤ) (b : ℕ) (hb : b < n)
    (hB : img (b * offset + start) = B)
    (hlt : ∀ j, j < n → j ≠ b → img (j * offset + start) < B) :
    ∀ k, k ≤ n → 1 ≤ k → b ≤ k - 1 → k - 1 < b + w →
      (swQ img w 1 offset start k).headI = b := by
  intro k
  induction k with
  | zero =>
      intro _ h1 _ _
      exact absurd h1 (by omega)
  | succ k ih =>
      intro hkn _ hb1 hb2
      rw [swQ_succ]
      by_cases hbk : b = k
      · -- the bright index is being processed: everything is popped
        subst hbk
        have hall : ∀ a ∈ (swQ img w 1 offset start b).dropWhile
            (fun j => decide (j + w ≤ b)),
            (fun j => decide
              ((if img (j * offset + start) ≤ img (b * offset + start)
                then (1 : ℤ) else 0) = 1)) a = true := by
          intro a ha
          by_cases hb0 : 1 ≤ b
          · obtain ⟨_, _, hwin⟩ := swQ_basic img w 1 offset start hw b hb0
            have ha2 := (List.dropWhile_suffix
              (fun j => decide (j + w ≤ b))).sublist.subset ha
            have ha3 := (hwin a ha2).1
            have ha4 : a ≠ b := by omega
            have := hlt a (by omega) ha4
            rw [hB]
            simp
            omega
          · have hb0e : b = 0 := by omega
            rw [hb0e] at ha
            have : swQ img w 1 offset start 0 = [] := rfl
            rw [this] at ha
            cases ha
        rw [dropBackWhile_eq_nil _ _ hall]
        rfl
      · -- the bright index was already at the front and stays there
        have hbk2 : b ≤ k - 1 := by omega
        have hk1 : 1 ≤ k := by omega
        have hih := ih (by omega) hk1 hbk2 (by omega)
        obtain ⟨hne, hpw, hwin⟩ := swQ_basic img w 1 offset start hw k hk1
        -- the front is fresh, so the front eviction removes nothing it needs
        have hq1 : (swQ img w 1 offset start k).dropWhile
            (fun j => decide (j + w ≤ k)) = swQ img w 1 offset start k := by
          cases hq : swQ img w 1 offset start k with
          | nil => rfl
          | cons hd tl =>
              rw [List.dropWhile_cons]
              rw [if_neg ?_]
              have hhd : hd = b := by
                have := hih
                rw [hq] at this
                exact this
              subst hhd
              simp
              omega
        rw [hq1]
        have hpop := dropBackWhile_head
          (fun j => decide
            ((if img (j * offset + start) ≤ img (k * offset + start)
              then (1 : ℤ) else 0) = 1))
          (swQ img w 1 offset start k) hne ?_
        · rw [headI_append hpop.1, hpop.2]
          exact hih
        · rw [hih]
          show decide ((if img (b * offset + start) ≤ img (k * offset + start)
            then (1 : ℤ) else 0) = 1) = false
          have hc := hlt k (by omega) (by omega)
          rw [hB, if_neg (by omega : ¬(B ≤ img (k * offset + start)))]
          decide

theorem swStep_fst (img : ℕ → ℤ) (w : ℕ) (ord : ℤ) (offset start : ℕ)
    (st : List ℕ × (ℕ → ℤ)) (i : ℕ) :
    (swStep img w ord offset start st i).1 =
      dropBackWhile
        (fun j => decide
          ((if img (j * offset + start) ≤ img (i * offset + start)
            then (1 : ℤ) else 0) = ord))
        (st.1.dropWhile (fun j => decide (j + w ≤ i))) ++ [i] := rfl

theorem swStep_snd (img : ℕ → ℤ) (w : ℕ) (ord : ℤ) (offset start : ℕ)
    (st : List ℕ × (ℕ → ℤ)) (i : ℕ) :
    (swStep img w ord offset start st i).2 =
      Function.update st.2 (i * offset + start)
        (img ((swStep img w ord offset start st i).1.headI * offset + start)) :=
  rfl

/-- The quack component of the scan state does not depend on the output
buffer. -/
theorem swState_q (img out0 : ℕ → ℤ) (w : ℕ) (ord : ℤ) (offset start : ℕ) :
    ∀ k : ℕ,
      ((List.range k).foldl (swStep img w ord offset start) ([], out0)).1 =
        swQ img w ord offset start k := by
  intro k
  induction k with
  | zero => rfl
  | succ k ih =>
      rw [List.range_succ, List.foldl_append, List.foldl_cons, List.foldl_nil,
        swStep_fst, ih, swQ_succ]

/-- Positions never of the form `i*offset+start` are left untouched. -/
theorem sw_untouched (img out0 : ℕ → ℤ) (n w : ℕ) (ord : ℤ)
    (offset start : ℕ) (p : ℕ) (hp : ∀ i, i < n → p ≠ i * offset + start) :
    slidingWindowOrd img out0 n w ord offset start p = out0 p := by
  unfold slidingWindowOrd
  induction n with
  | zero => rfl
  | succ n ih =>
      rw [List.range_succ, List.foldl_append, List.foldl_cons, List.foldl_nil,
        swStep_snd, Function.update_noteq (hp n (by omega))]
      exact ih (fun i hi => hp i (by omega))

/-- The value stored at `i*offset+start` is the value at the front of the
quack right after iteration `i`. -/
theorem sw_out_written (img out0 : ℕ → ℤ) (n w : ℕ) (ord : ℤ)
    (offset start : ℕ) (hoff : 1 ≤ offset) (i : ℕ) (hi : i < n) :
    slidingWindowOrd img out0 n w ord offset start (i * offset + start) =
      img ((swQ img w ord offset start (i + 1)).headI * offset + start) := by
  unfold slidingWindowOrd
  induction n with
  | zero => exact absurd hi (by omega)
  | succ n ih =>
      rw [List.range_succ, List.foldl_append, List.foldl_cons, List.foldl_nil,
        swStep_snd]
      by_cases hin : i = n
      · subst hin
        rw [Function.update_same, swStep_fst,
          swState_q img out0 w ord offset start i, swQ_succ]
      · have hlt : i < n := by omega
        have hne : i * offset + start ≠ n * offset + start := by
          have h1 : (i + 1) * offset ≤ n * offset :=
            Nat.mul_le_mul_right offset (by omega)
          rw [Nat.add_mul] at h1
          omega
        rw [Function.update_noteq hne]
        exact ih hlt

/-- Sliding maximum with a unique maximum `B` at index `b`: positions whose
trailing window `(i-w, i]` contains `b` receive exactly `B`, all others
receive something smaller. -/
theorem sw_single_out (img out0 : ℕ → ℤ) (n w : ℕ) (hw : 1 ≤ w)
    (offset start : ℕ) (hoff : 1 ≤ offset) (B : ℤ) (b : ℕ) (hb : b < n)
    (hB : img (b * offset + start) = B)
    (hlt : ∀ j, j < n → j ≠ b → img (j * offset + start) < B)
    (i : ℕ) (hi : i < n) :
    ((b ≤ i ∧ i < b + w) →
      slidingWindowOrd img out0 n w 1 offset start (i * offset + start) = B) ∧
    (¬(b ≤ i ∧ i < b + w) →
      slidingWindowOrd img out0 n w 1 offset start (i * offset + start) < B) := by
  rw [sw_out_written img out0 n w 1 offset start hoff i hi]
  obtain ⟨hne, hpw, hwin⟩ := swQ_basic img w 1 offset start hw (i + 1) (by omega)
  constructor
  · intro hwnd
    rw [swQ_bright img w offset start hw n B b hb hB hlt (i + 1) (by omega)
      (by omega) (by omega) (by omega)]
    exact hB
  · intro hwnd
    have hmem := headI_mem_of_ne_nil hne
    have hh := hwin _ hmem
    have hhb : (swQ img w 1 offset start (i + 1)).headI ≠ b := by
      intro he
      rw [he] at hh
      omega
    exact hlt _ (by omega) hhb

/-- Sliding maximum over values all smaller than `B` stays smaller than
`B`. -/
theorem sw_small_out (img out0 : ℕ → ℤ) (n w : ℕ) (hw : 1 ≤ w)
    (offset start : ℕ) (hoff : 1 ≤ offset) (B : ℤ)
    (hall : ∀ j, j < n → img (j * offset + start) < B)
    (i : ℕ) (hi : i < n) :
    slidingWindowOrd img out0 n w 1 offset start (i * offset + start) < B := by
  rw [sw_out_written img out0 n w 1 offset start hoff i hi]
  obtain ⟨hne, hpw, hwin⟩ := swQ_basic img w 1 offset start hw (i + 1) (by omega)
  have hh := hwin _ (headI_mem_of_ne_nil hne)
  exact hall _ (by omega)

/-- The row-pass fold: the cell `(y, x)` gets exactly the value the pass
of row `y` writes (later rows write disjoint positions). -/
theorem dilateRows_char (image : IntImage) (kw : ℕ) (flag : ℤ)
    (hw : 1 ≤ wN image) :
    ∀ r : ℕ, r ≤ hN image → ∀ y x : ℕ, y < r → x < wN image →
      ((List.range r).foldl
        (fun out row =>
          slidingWindowOrd (dilateSrc image) out (wN image) kw flag 1
            (row * wN image))
        (fun _ => 0)) (x * 1 + y * wN image) =
      slidingWindowOrd (dilateSrc image) (fun _ => 0) (wN image) kw flag 1
        (y * wN image) (x * 1 + y * wN image) := by
  intro r
  induction r with
  | zero =>
      intro _ y x hy _
      exact absurd hy (by omega)
  | succ r ih =>
      intro hr y x hy hx
      rw [List.range_succ, List.foldl_append, List.foldl_cons, List.foldl_nil]
      by_cases hyr : y = r
      · subst hyr
        rw [sw_out_written _ _ (wN image) kw flag 1 (y * wN image) (by omega)
            x hx,
          sw_out_written _ _ (wN image) kw flag 1 (y * wN image) (by omega)
            x hx]
      · have hy2 : y < r := by omega
        rw [sw_untouched _ _ (wN image) kw flag 1 (r * wN image) _ ?_]
        · exact ih (by omega) y x hy2 hx
        · intro i hi
          have h1 : (y + 1) * wN image ≤ r * wN image :=
            Nat.mul_le_mul_right (wN image) (by omega)
          rw [Nat.add_mul] at h1
          omega

/-- The column-pass fold, for stack offsets that stay inside one "column"
modulo `height`: the cell at flat position `y*height + x` gets the value
written by the pass of column `x`. -/
theorem dilateCols_char (image : IntImage) (kw kh : ℕ) (flag : ℤ)
    (hh : 1 ≤ hN image) :
    ∀ c : ℕ, c ≤ wN image → c ≤ hN image → ∀ x y : ℕ, x < c → y < hN image →
      ((List.range c).foldl
        (fun out col =>
          slidingWindowOrd (dilateCopy image kw flag) out (hN image) kh flag
            (hN image) col)
        (dilateRows image kw flag)) (y * hN image + x) =
      slidingWindowOrd (dilateCopy image kw flag) (dilateRows image kw flag)
        (hN image) kh flag (hN image) x (y * hN image + x) := by
  intro c
  induction c with
  | zero =>
      intro _ _ x y hx _
      exact absurd hx (by omega)
  | succ c ih =>
      intro hc hc2 x y hx hy
      rw [List.range_succ, List.foldl_append, List.foldl_cons, List.foldl_nil]
      by_cases hxc : x = c
      · subst hxc
        rw [sw_out_written _ _ (hN image) kh flag (hN image) x (by omega) y hy,
          sw_out_written _ _ (hN image) kh flag (hN image) x (by omega) y hy]
      · have hx2 : x < c := by omega
        rw [sw_untouched _ _ (hN image) kh flag (hN image) c _ ?_]
        · exact ih (by omega) (by omega) x y hx2 hy
        · intro i hi he
          have h1 : (y * hN image + x) % hN image = x := by
            rw [Nat.mul_comm y (hN image), Nat.mul_add_mod]
            exact Nat.mod_eq_of_lt (by omega)
          have h2 : (i * hN image + c) % hN image = c := by
            rw [Nat.mul_comm i (hN image), Nat.mul_add_mod]
            exact Nat.mod_eq_of_lt (by omega)
          rw [he, h2] at h1
          omega

/-- Whatever the sliding window stores is one of the input elements at or
before the current index. -/
theorem sw_out_is_img (img out0 : ℕ → ℤ) (n w : ℕ) (hw : 1 ≤ w) (ord : ℤ)
    (offset start : ℕ) (hoff : 1 ≤ offset) (i : ℕ) (hi : i < n) :
    ∃ j : ℕ, j ≤ i ∧
      slidingWindowOrd img out0 n w ord offset start (i * offset + start) =
        img (j * offset + start) := by
  rw [sw_out_written img out0 n w ord offset start hoff i hi]
  obtain ⟨hne, _, hwin⟩ := swQ_basic img w ord offset start hw (i + 1)
    (by omega)
  exact ⟨_, by
    have := (hwin _ (headI_mem_of_ne_nil hne)).1
    omega, rfl⟩

/-- Decoding the flat buffer: element `j` of row `r`. -/
theorem dilateSrc_decode (image : IntImage) (r j : ℕ) (hj : j < wN image) :
    dilateSrc image (j * 1 + r * wN image) = image.pixels r j := by
  unfold dilateSrc
  have hW : 0 < wN image := by omega
  have hd : (j * 1 + r * wN image) / wN image = r := by
    rw [Nat.mul_one, Nat.add_mul_div_right j r hW, Nat.div_eq_of_lt hj]
    omega
  have hm : (j * 1 + r * wN image) % wN image = j := by
    rw [Nat.mul_one, Nat.add_mul_mod_self_right, Nat.mod_eq_of_lt hj]
  rw [hd, hm]

/-- Value of the row pass at cell `(y, x)` for an image with a unique
maximum `B` at `(by2, bx)`: `B` exactly on the trailing window of the
bright column within the bright row, smaller elsewhere. -/
theorem dilateRows_val (image : IntImage) (kw : ℕ) (hkw : 1 ≤ kw)
    (hw : 1 ≤ wN image) (B : ℤ) (bx by2 : ℕ) (hbx : bx < wN image)
    (hby : by2 < hN image) (hB : image.pixels by2 bx = B)
    (hoth : ∀ a b : ℕ, a < wN image → b < hN image → ¬(a = bx ∧ b = by2) →
      image.pixels b a < B)
    (y x : ℕ) (hy : y < hN image) (hx : x < wN image) :
    ((y = by2 ∧ bx ≤ x ∧ x < bx + kw) →
      dilateRows image kw 1 (x * 1 + y * wN image) = B) ∧
    (¬(y = by2 ∧ bx ≤ x ∧ x < bx + kw) →
      dilateRows image kw 1 (x * 1 + y * wN image) < B) := by
  have e : dilateRows image kw 1 (x * 1 + y * wN image) =
      slidingWindowOrd (dilateSrc image) (fun _ => 0) (wN image) kw 1 1
        (y * wN image) (x * 1 + y * wN image) :=
    dilateRows_char image kw 1 hw (hN image) (le_refl _) y x hy hx
  rw [e]
  by_cases hyb : y = by2
  · subst hyb
    have hB2 : dilateSrc image (bx * 1 + y * wN image) = B := by
      rw [dilateSrc_decode image y bx hbx]
      exact hB
    have hlt2 : ∀ j, j < wN image → j ≠ bx →
        dilateSrc image (j * 1 + y * wN image) < B := by
      intro j hj hjb
      rw [dilateSrc_decode image y j hj]
      exact hoth j y hj hby (by tauto)
    obtain ⟨hpos, hneg⟩ := sw_single_out (dilateSrc image) (fun _ => 0)
      (wN image) kw hkw 1 (y * wN image) (le_refl 1) B bx hbx hB2 hlt2 x hx
    constructor
    · intro hcond
      exact hpos ⟨hcond.2.1, hcond.2.2⟩
    · intro hcond
      exact hneg (by tauto)
  · have hall : ∀ j, j < wN image →
        dilateSrc image (j * 1 + y * wN image) < B := by
      intro j hj
      rw [dilateSrc_decode image y j hj]
      exact hoth j y hj hy (by tauto)
    have hlt := sw_small_out (dilateSrc image) (fun _ => 0) (wN image) kw hkw
      1 (y * wN image) (le_refl 1) B hall x hx
    exact ⟨fun hcond => absurd hcond.1 hyb, fun _ => hlt⟩

/-- For an image whose pixel values lie within its declared dynamic range,
the clamped copy of the row pass equals the row pass on every grid cell. -/
theorem dilateCopy_eq (image : IntImage) (kw : ℕ) (hkw : 1 ≤ kw)
    (hw : 1 ≤ wN image)
    (hrange : ∀ a b : ℕ, a < wN image → b < hN image →
      image.minRange ≤ image.pixels b a ∧
      image.pixels b a ≤ image.maxRange)
    (y x : ℕ) (hy : y < hN image) (hx : x < wN image) :
    dilateCopy image kw 1 (x * 1 + y * wN image) =
      dilateRows image kw 1 (x * 1 + y * wN image) := by
  have e : dilateRows image kw 1 (x * 1 + y * wN image) =
      slidingWindowOrd (dilateSrc image) (fun _ => 0) (wN image) kw 1 1
        (y * wN image) (x * 1 + y * wN image) :=
    dilateRows_char image kw 1 hw (hN image) (le_refl _) y x hy hx
  obtain ⟨j, hj, hval⟩ := sw_out_is_img (dilateSrc image) (fun _ => 0)
    (wN image) kw hkw 1 1 (y * wN image) (le_refl 1) x hx
  have hpix : dilateRows image kw 1 (x * 1 + y * wN image) =
      image.pixels y j := by
    rw [e, hval, dilateSrc_decode image y j (by omega)]
  have hbd := hrange j y (by omega) hy
  have hin : x * 1 + y * wN image < wN image * hN image := by
    have h1 : (y + 1) * wN image ≤ hN image * wN image :=
      Nat.mul_le_mul_right (wN image) (by omega)
    rw [Nat.add_mul] at h1
    have h2 : hN image * wN image = wN image * hN image :=
      Nat.mul_comm _ _
    omega
  unfold dilateCopy
  rw [if_pos hin, hpix]
  exact clampRange_id _ _ _ hbd.1 hbd.2

/-! Claim C4: 3x3 dilation of a single bright pixel. -/

/-- Claim C4 (amended): on a square image whose pixel values lie within
its declared dynamic range and which has a unique maximum `B` at
`(bx, by2)`, the 3x3 rectangular dilation stores `B` exactly on the
trailing square `[bx, bx+2] x [by2, by2+2]` (clipped at the right and
bottom borders) and a smaller value everywhere else; the square is
anchored at the bright pixel, not centered on it, because each
1D pass uses the trailing window `(i-3, i]`. -/
theorem dilate_c4 (im : IntImage) (B : ℤ) (bx by2 : ℕ)
    (hsq : wN im = hN im) (hbx : bx < wN im) (hby : by2 < hN im)
    (hB : im.pixels by2 bx = B)
    (hoth : ∀ a b : ℕ, a < wN im → b < hN im → ¬(a = bx ∧ b = by2) →
      im.pixels b a < B)
    (hrange : ∀ a b : ℕ, a < wN im → b < hN im →
      im.minRange ≤ im.pixels b a ∧ im.pixels b a ≤ im.maxRange)
    (x y : ℕ) (hx : x < wN im) (hy : y < hN im) :
    ((bx ≤ x ∧ x < bx + 3 ∧ by2 ≤ y ∧ y < by2 + 3) →
      (dilateIntImageRect im 3 3).pixels y x = B) ∧
    (¬(bx ≤ x ∧ x < bx + 3 ∧ by2 ≤ y ∧ y < by2 + 3) →
      (dilateIntImageRect im 3 3).pixels y x < B) := by
  have hw : 1 ≤ wN im := by omega
  have hh : 1 ≤ hN im := by omega
  have e0 : (dilateIntImageRect im 3 3).pixels y x =
      dilateCols im 3 3 1 (y * wN im + x) := rfl
  have hposW : y * wN im + x = y * hN im + x := by rw [hsq]
  have e1 : dilateCols im 3 3 1 (y * hN im + x) =
      slidingWindowOrd (dilateCopy im 3 1) (dilateRows im 3 1) (hN im) 3 1
        (hN im) x (y * hN im + x) :=
    dilateCols_char im 3 3 1 hh (wN im) (le_refl _) hsq.le x y hx hy
  have hcopy : ∀ j : ℕ, j < hN im →
      dilateCopy im 3 1 (j * hN im + x) =
        dilateRows im 3 1 (x * 1 + j * wN im) := by
    intro j hj
    have hpos : j * hN im + x = x * 1 + j * wN im := by
      rw [hsq]
      omega
    rw [hpos]
    exact dilateCopy_eq im 3 (by omega) hw hrange j x hj hx
  have hrow := fun (j : ℕ) (hj : j < hN im) =>
    dilateRows_val im 3 (by omega) hw B bx by2 hbx hby hB hoth j x hj hx
  rw [e0, hposW, e1]
  by_cases hxw : bx ≤ x ∧ x < bx + 3
  · -- bright column: unique maximum at row by2
    have hB2 : dilateCopy im 3 1 (by2 * hN im + x) = B := by
      rw [hcopy by2 hby]
      exact (hrow by2 hby).1 ⟨rfl, hxw.1, hxw.2⟩
    have hlt2 : ∀ j, j < hN im → j ≠ by2 →
        dilateCopy im 3 1 (j * hN im + x) < B := by
      intro j hj hjb
      rw [hcopy j hj]
      exact (hrow j hj).2 (by tauto)
    obtain ⟨hpos, hneg⟩ := sw_single_out (dilateCopy im 3 1)
      (dilateRows im 3 1) (hN im) 3 (by omega) (hN im) x hh B by2 hby
      hB2 hlt2 y hy
    constructor
    · intro hcond
      exact hpos ⟨hcond.2.2.1, hcond.2.2.2⟩
    · intro hcond
      refine hneg ?_
      intro hwnd
      exact hcond ⟨hxw.1, hxw.2, hwnd.1, hwnd.2⟩
  · -- dark column: everything stays below the bright value
    have hall : ∀ j, j < hN im → dilateCopy im 3 1 (j * hN im + x) < B := by
      intro j hj
      rw [hcopy j hj]
      exact (hrow j hj).2 (by tauto)
    have hlt := sw_small_out (dilateCopy im 3 1) (dilateRows im 3 1)
      (hN im) 3 (by omega) (hN im) x hh B hall y hy
    exact ⟨fun hcond => absurd ⟨hcond.1, hcond.2.1⟩ hxw, fun _ => hlt⟩

/-- A 3x3 image with a single bright pixel 9 at the centre `(1, 1)`. -/
def c4Im : IntImage := ⟨⟨0, 2, 0, 2⟩, 0, 50,
  fun y x => if y = 1 ∧ x = 1 then 9 else 0⟩

set_option maxRecDepth 20000 in
/-- Claim C4, counterexample: on the 3x3 image with its single bright
pixel at the centre, the cell `(0, 0)` lies inside the 3x3 square
centered on the bright pixel, yet the dilation stores 0 there, not the
bright value: the bright square is `[1,3]x[1,3]` clipped (anchored at the
bright pixel), not centered. -/
theorem dilate_c4_counterexample :
    (dilateIntImageRect c4Im 3 3).pixels 1 1 = 9 ∧
    (dilateIntImageRect c4Im 3 3).pixels 2 2 = 9 ∧
    (dilateIntImageRect c4Im 3 3).pixels 0 0 = 0 ∧
    ¬((0 : ℤ) = 9) := by decide

set_option maxRecDepth 20000 in
/-- Claim C4, witness: the amended theorem applied to the concrete 3x3
image with bright pixel 9 at `(1, 1)`, evaluated at `(1, 1)` itself. -/
theorem dilate_c4_witness :
    ((1 ≤ 1 ∧ 1 < 1 + 3 ∧ 1 ≤ 1 ∧ 1 < 1 + 3) →
      (dilateIntImageRect c4Im 3 3).pixels 1 1 = 9) ∧
    (¬(1 ≤ 1 ∧ 1 < 1 + 3 ∧ 1 ≤ 1 ∧ 1 < 1 + 3) →
      (dilateIntImageRect c4Im 3 3).pixels 1 1 < 9) :=
  dilate_c4 c4Im 9 1 1 (by decide) (by decide) (by decide) (by decide)
    (fun a b ha hb hnot =>
      (by decide : ∀ a2, a2 < 3 → ∀ b2, b2 < 3 → ¬(a2 = 1 ∧ b2 = 1) →
        c4Im.pixels b2 a2 < 9) a ha b hb hnot)
    (fun a b ha hb =>
      (by decide : ∀ a2, a2 < 3 → ∀ b2, b2 < 3 →
        c4Im.minRange ≤ c4Im.pixels b2 a2 ∧
        c4Im.pixels b2 a2 ≤ c4Im.maxRange) a ha b hb)
    1 1 (by decide) (by decide)

/-! The Fourier transform (`inplaceCooleyTukeyFFT1D`, `fft2D`, `ifft2D`).
C doubles are idealised as exact real/complex arithmetic. -/

/-- Width of a complex image. -/
def wNC (im : ComplexImage) : ℕ := (getWidth im.domain).toNat

/-- Height of a complex image. -/
def hNC (im : ComplexImage) : ℕ := (getHeight im.domain).toNat

/-- `isPowerOfTwo`: reject `n < 1`, halve while even, accept iff 1 remains.
The halving loop is modelled with fuel `n` (each division at least halves
`n`, so `n` steps always suffice). -/
def isPowTwoAux : ℕ → ℕ → Bool
  | 0, n => n == 1
  | f + 1, n => if n % 2 == 0 then isPowTwoAux f (n / 2) else n == 1

def isPowerOfTwo (n : ℕ) : Bool :=
  if n < 1 then false else isPowTwoAux n n

/-- `inplaceCooleyTukeyFFT1D`: return for `length < 2`, else split in even
and odd halves, recurse with `omega^2`, and merge with
`a[i] = even[i] + x*odd[i]`, `a[i+length/2] = even[i] - x*odd[i]` where
`x = omega^i`. Recursion is modelled with fuel (the length at least halves
each call); entries at or beyond `length` are left unchanged. -/
noncomputable def inplaceCooleyTukeyFFT1D : ℕ → ℕ → ℂ → (ℕ → ℂ) → (ℕ → ℂ)
  | 0, _, _, a => a
  | f + 1, length, omega, a =>
      if length < 2 then a
      else
        fun i =>
          if i < length / 2 then
            inplaceCooleyTukeyFFT1D f (length / 2) (omega * omega)
                (fun j => a (2 * j)) i +
              omega ^ i *
                inplaceCooleyTukeyFFT1D f (length / 2) (omega * omega)
                  (fun j => a (2 * j + 1)) i
          else if i < length then
            inplaceCooleyTukeyFFT1D f (length / 2) (omega * omega)
                (fun j => a (2 * j)) (i - length / 2) -
              omega ^ (i - length / 2) *
                inplaceCooleyTukeyFFT1D f (length / 2) (omega * omega)
                  (fun j => a (2 * j + 1)) (i - length / 2)
          else a i

/-- `inplaceFFT1D length`: Cooley-Tukey with `omega = cexp(-2*pi*I/length)`. -/
noncomputable def inplaceFFT1D (length : ℕ) (x : ℕ → ℂ) : ℕ → ℂ :=
  inplaceCooleyTukeyFFT1D length length
    (Complex.exp (-2 * Real.pi * Complex.I / (length : ℂ))) x

/-- `inplaceInverseFFT1D length`: Cooley-Tukey with
`omega = cexp(2*pi*I/length)`, then every entry divided by `length`. -/
noncomputable def inplaceInverseFFT1D (length : ℕ) (x : ℕ → ℂ) : ℕ → ℂ :=
  fun i =>
    inplaceCooleyTukeyFFT1D length length
      (Complex.exp (2 * Real.pi * Complex.I / (length : ℂ))) x i /
      (length : ℂ)

/-- `fft2D`: fatal error unless both sides are powers of two; otherwise a
1D FFT down every column, then a 1D FFT along every row. -/
noncomputable def fft2D (image : IntImage) : Option ComplexImage :=
  if isPowerOfTwo (wN image) = true ∧ isPowerOfTwo (hN image) = true then
    some
      { domain := image.domain,
        pixels := fun y x =>
          inplaceFFT1D (wN image)
            (fun x2 =>
              inplaceFFT1D (hN image)
                (fun y2 => ((image.pixels y2 x2 : ℤ) : ℂ)) y) x }
  else none

/-- The C cast `(int)` applied to a `double complex`: the imaginary part
is discarded and the real part truncated toward zero. -/
noncomputable def truncRe (z : ℂ) : ℤ :=
  if 0 ≤ z.re then ⌊z.re⌋ else ⌈z.re⌉

/-- The exact complex value the inverse transform produces at cell
`(y, x)`: an inverse 1D FFT along every row, then down every column. -/
noncomputable def ifft2DVal (image : ComplexImage) (y x : ℕ) : ℂ :=
  inplaceInverseFFT1D (hNC image)
    (fun y2 =>
      inplaceInverseFFT1D (wNC image) (fun x2 => image.pixels y2 x2) x) y

/-- `ifft2D`: fatal error unless both sides are powers of two; the result
image is allocated with dynamic range `[INT_MIN, INT_MAX]` and every cell
is written through `setIntPixelI` with the `(int)`-cast sample. -/
noncomputable def ifft2D (image : ComplexImage) : Option IntImage :=
  if isPowerOfTwo (wNC image) = true ∧ isPowerOfTwo (hNC image) = true then
    some
      { domain := image.domain, minRange := -(2 ^ 31 : ℤ),
        maxRange := (2 ^ 31 : ℤ) - 1,
        pixels := fun y x =>
          clampRange (-(2 ^ 31 : ℤ)) ((2 ^ 31 : ℤ) - 1)
            (truncRe (ifft2DVal image y x)) }
  else none

theorem isPowTwoAux_pow : ∀ f j, j ≤ f → isPowTwoAux f (2 ^ j) = true := by
  intro f
  induction f with
  | zero =>
      intro j hj
      have hj0 : j = 0 := by omega
      subst hj0
      rfl
  | succ f ih =>
      intro j hj
      cases j with
      | zero => rfl
      | succ j2 =>
          unfold isPowTwoAux
          have hmod : 2 ^ (j2 + 1) % 2 = 0 := by
            rw [pow_succ, Nat.mul_mod_left]
          have hdiv : 2 ^ (j2 + 1) / 2 = 2 ^ j2 := by
            rw [pow_succ, Nat.mul_div_cancel]
            omega
          rw [hmod]
          simp only [beq_self_eq_true, if_true]
          rw [hdiv]
          exact ih j2 (by omega)

theorem isPowerOfTwo_pow (k : ℕ) : isPowerOfTwo (2 ^ k) = true := by
  unfold isPowerOfTwo
  rw [if_neg (by
    have := Nat.pos_pow_of_pos k (by omega : 0 < 2)
    omega : ¬(2 ^ k < 1))]
  exact isPowTwoAux_pow (2 ^ k) k (le_of_lt (Nat.lt_two_pow k))

/-- The discrete Fourier transform with twiddle `omega`, as a plain sum. -/
noncomputable def dftSpec (n : ℕ) (omega : ℂ) (a : ℕ → ℂ) : ℕ → ℂ :=
  fun i => ∑ j ∈ Finset.range n, omega ^ (i * j) * a j

theorem sum_split_parity (n : ℕ) (g : ℕ → ℂ) :
    ∑ j ∈ Finset.range (2 * n), g j =
      (∑ j ∈ Finset.range n, g (2 * j)) +
      ∑ j ∈ Finset.range n, g (2 * j + 1) := by
  induction n with
  | zero => simp
  | succ n ih =>
      have h2 : 2 * (n + 1) = 2 * n + 1 + 1 := by omega
      rw [h2, Finset.sum_range_succ, Finset.sum_range_succ,
        Finset.sum_range_succ, Finset.sum_range_succ, ih]
      ring_nf
      rw [show 2 * n + 1 = 1 + n * 2 by ring, show 2 * n = n * 2 by ring]
      ring

theorem ctFFT_succ (f length : ℕ) (omega : ℂ) (a : ℕ → ℂ) :
    inplaceCooleyTukeyFFT1D (f + 1) length omega a =
      if length < 2 then a
      else
        fun i =>
          if i < length / 2 then
            inplaceCooleyTukeyFFT1D f (length / 2) (omega * omega)
                (fun j => a (2 * j)) i +
              omega ^ i *
                inplaceCooleyTukeyFFT1D f (length / 2) (omega * omega)
                  (fun j => a (2 * j + 1)) i
          else if i < length then
            inplaceCooleyTukeyFFT1D f (length / 2) (omega * omega)
                (fun j => a (2 * j)) (i - length / 2) -
              omega ^ (i - length / 2) *
                inplaceCooleyTukeyFFT1D f (length / 2) (omega * omega)
                  (fun j => a (2 * j + 1)) (i - length / 2)
          else a i := rfl

/-- The Cooley-Tukey recursion computes the DFT on power-of-two lengths,
for any twiddle `omega` with `omega^n = 1` and `omega^(n/2) = -1`. -/
theorem fft_correct :
    ∀ (f k : ℕ) (omega : ℂ) (a : ℕ → ℂ), k ≤ f →
      omega ^ (2 ^ k : ℕ) = 1 → (1 ≤ k → omega ^ (2 ^ (k - 1) : ℕ) = -1) →
      ∀ i, i < 2 ^ k →
        inplaceCooleyTukeyFFT1D f (2 ^ k) omega a i =
          dftSpec (2 ^ k) omega a i := by
  intro f
  induction f with
  | zero =>
      intro k omega a hk hw1 hw2 i hi
      have hk0 : k = 0 := by omega
      subst hk0
      have h1 : (2 : ℕ) ^ 0 = 1 := rfl
      have hi0 : i = 0 := by omega
      subst hi0
      show a 0 = dftSpec (2 ^ 0) omega a 0
      unfold dftSpec
      simp
  | succ f ih =>
      intro k omega a hk hw1 hw2 i hi
      rw [ctFFT_succ]
      cases k with
      | zero =>
          have h1 : (2 : ℕ) ^ 0 = 1 := rfl
          have hi0 : i = 0 := by omega
          subst hi0
          rw [if_pos (by omega : (2 : ℕ) ^ 0 < 2)]
          unfold dftSpec
          simp
      | succ k2 =>
          have hpos : 0 < (2 : ℕ) ^ k2 := Nat.pos_pow_of_pos k2 (by omega)
          have hsz : (2 : ℕ) ^ (k2 + 1) = 2 * 2 ^ k2 := by
            rw [pow_succ]
            ring
          rw [if_neg (by omega : ¬((2 : ℕ) ^ (k2 + 1) < 2))]
          have hhalf : (2 : ℕ) ^ (k2 + 1) / 2 = 2 ^ k2 := by omega
          rw [hhalf]
          have hexp : (2 : ℕ) ^ k2 + 2 ^ k2 = 2 ^ (k2 + 1) := by omega
          have hs1 : (omega * omega) ^ (2 ^ k2 : ℕ) = 1 := by
            rw [mul_pow, ← pow_add, hexp]
            exact hw1
          have hwk2 : omega ^ (2 ^ k2 : ℕ) = -1 := hw2 (by omega)
          have hs2 : 1 ≤ k2 → (omega * omega) ^ (2 ^ (k2 - 1) : ℕ) = -1 := by
            intro hk2
            have hexp2 : (2 : ℕ) ^ (k2 - 1) + 2 ^ (k2 - 1) = 2 ^ k2 := by
              obtain ⟨m, rfl⟩ : ∃ m, k2 = m + 1 := ⟨k2 - 1, by omega⟩
              simp only [Nat.add_sub_cancel]
              rw [pow_succ]
              ring
            rw [mul_pow, ← pow_add, hexp2]
            exact hwk2
          have ihE := ih k2 (omega * omega) (fun j => a (2 * j)) (by omega)
            hs1 hs2
          have ihO := ih k2 (omega * omega) (fun j => a (2 * j + 1)) (by omega)
            hs1 hs2
          unfold dftSpec
          rw [hsz, sum_split_parity (2 ^ k2)
            (fun j => omega ^ (i * j) * a j)]
          by_cases hil : i < 2 ^ k2
          · rw [if_pos hil, ihE i hil, ihO i hil]
            unfold dftSpec
            have e1 : (∑ j ∈ Finset.range (2 ^ k2),
                (omega * omega) ^ (i * j) * a (2 * j)) =
                ∑ j ∈ Finset.range (2 ^ k2),
                  omega ^ (i * (2 * j)) * a (2 * j) := by
              refine Finset.sum_congr rfl ?_
              intro j hj
              have : omega ^ (i * (2 * j)) = (omega * omega) ^ (i * j) := by
                rw [show omega * omega = omega ^ 2 by ring,
                  ← pow_mul, show 2 * (i * j) = i * (2 * j) by ring]
              rw [this]
            have e2 : omega ^ i * (∑ j ∈ Finset.range (2 ^ k2),
                (omega * omega) ^ (i * j) * a (2 * j + 1)) =
                ∑ j ∈ Finset.range (2 ^ k2),
                  omega ^ (i * (2 * j + 1)) * a (2 * j + 1) := by
              rw [Finset.mul_sum]
              refine Finset.sum_congr rfl ?_
              intro j hj
              have : omega ^ (i * (2 * j + 1)) =
                  omega ^ i * (omega * omega) ^ (i * j) := by
                rw [show omega * omega = omega ^ 2 by ring, ← pow_mul,
                  ← pow_add, show i + 2 * (i * j) = i * (2 * j + 1) by ring]
              rw [this, mul_assoc]
            rw [e1, e2]
          · rw [if_neg hil, if_pos (by omega : i < 2 * 2 ^ k2)]
            obtain ⟨i2, rfl⟩ : ∃ i2, i = i2 + 2 ^ k2 := ⟨i - 2 ^ k2, by omega⟩
            rw [Nat.add_sub_cancel]
            have hi2 : i2 < 2 ^ k2 := by omega
            rw [ihE _ hi2, ihO _ hi2]
            unfold dftSpec
            have e1 : (∑ j ∈ Finset.range (2 ^ k2),
                omega ^ ((i2 + 2 ^ k2) * (2 * j)) * a (2 * j)) =
                ∑ j ∈ Finset.range (2 ^ k2),
                  (omega * omega) ^ (i2 * j) * a (2 * j) := by
              refine Finset.sum_congr rfl ?_
              intro j hj
              have hexp3 : (i2 + 2 ^ k2) * (2 * j) =
                  2 * (i2 * j) + 2 ^ (k2 + 1) * j := by
                have h28 : (2 : ℕ) ^ (k2 + 1) = 2 ^ k2 + 2 ^ k2 := by omega
                rw [h28]
                ring
              have h1 : omega ^ (2 * (i2 * j)) = (omega * omega) ^ (i2 * j) := by
                rw [two_mul, pow_add, ← mul_pow]
              have h2 : omega ^ (2 ^ (k2 + 1) * j) = 1 := by
                rw [pow_mul, hw1, one_pow]
              rw [hexp3, pow_add, h1, h2, mul_one]
            have e2 : (∑ j ∈ Finset.range (2 ^ k2),
                omega ^ ((i2 + 2 ^ k2) * (2 * j + 1)) * a (2 * j + 1)) =
                -(omega ^ i2 *
                  ∑ j ∈ Finset.range (2 ^ k2),
                    (omega * omega) ^ (i2 * j) * a (2 * j + 1)) := by
              rw [Finset.mul_sum, ← Finset.sum_neg_distrib]
              refine Finset.sum_congr rfl ?_
              intro j hj
              have hexp4 : (i2 + 2 ^ k2) * (2 * j + 1) =
                  (i2 + 2 * (i2 * j)) + (2 ^ (k2 + 1) * j + 2 ^ k2) := by
                have h28 : (2 : ℕ) ^ (k2 + 1) = 2 ^ k2 + 2 ^ k2 := by omega
                rw [h28]
                ring
              have hA : omega ^ (i2 + 2 * (i2 * j)) =
                  omega ^ i2 * (omega * omega) ^ (i2 * j) := by
                rw [pow_add, two_mul, pow_add, ← mul_pow]
              have hB : omega ^ (2 ^ (k2 + 1) * j + 2 ^ k2) = -1 := by
                rw [pow_add, pow_mul, hw1, one_pow, one_mul, hwk2]
              rw [hexp4, pow_add, hA, hB]
              ring
            rw [e1, e2]
            ring


/-- Fourier inversion: summing against the conjugate twiddles and dividing
by `n` recovers the input. -/
theorem dft_inversion (n : ℕ) (hn : 0 < n) (zeta : ℂ)
    (hprim : IsPrimitiveRoot zeta n) (a : ℕ → ℂ) (i : ℕ) (hi : i < n) :
    (∑ i2 ∈ Finset.range n, zeta ^ (i * i2) * dftSpec n zeta⁻¹ a i2) /
      (n : ℂ) = a i := by
  have hz0 : zeta ≠ 0 := by
    intro he
    have h1 := hprim.pow_eq_one
    rw [he, zero_pow (by omega : n ≠ 0)] at h1
    exact one_ne_zero h1.symm
  have key : (∑ i2 ∈ Finset.range n, zeta ^ (i * i2) * dftSpec n zeta⁻¹ a i2)
      = (n : ℂ) * a i := by
    unfold dftSpec
    calc
      ∑ i2 ∈ Finset.range n, zeta ^ (i * i2) *
          ∑ j ∈ Finset.range n, (zeta⁻¹) ^ (i2 * j) * a j
        = ∑ i2 ∈ Finset.range n, ∑ j ∈ Finset.range n,
            (zeta ^ i * (zeta⁻¹) ^ j) ^ i2 * a j := by
          refine Finset.sum_congr rfl ?_
          intro i2 hi2
          rw [Finset.mul_sum]
          refine Finset.sum_congr rfl ?_
          intro j hj
          have h1 : zeta ^ (i * i2) = (zeta ^ i) ^ i2 := by
            rw [← pow_mul]
          have h2 : (zeta⁻¹) ^ (i2 * j) = ((zeta⁻¹) ^ j) ^ i2 := by
            rw [← pow_mul, Nat.mul_comm]
          rw [h1, h2, ← mul_assoc, ← mul_pow]
      _ = ∑ j ∈ Finset.range n, ∑ i2 ∈ Finset.range n,
            (zeta ^ i * (zeta⁻¹) ^ j) ^ i2 * a j := Finset.sum_comm
      _ = ∑ j ∈ Finset.range n,
            (∑ i2 ∈ Finset.range n, (zeta ^ i * (zeta⁻¹) ^ j) ^ i2) * a j := by
          refine Finset.sum_congr rfl ?_
          intro j hj
          rw [Finset.sum_mul]
      _ = ∑ j ∈ Finset.range n, (if j = i then (n : ℂ) else 0) * a j := by
          refine Finset.sum_congr rfl ?_
          intro j hj
          congr 1
          by_cases hji : j = i
          · subst hji
            have hr1 : zeta ^ j * (zeta⁻¹) ^ j = 1 := by
              rw [inv_pow, mul_inv_cancel₀ (pow_ne_zero j hz0)]
            rw [if_pos rfl, hr1]
            simp
          · rw [if_neg hji]
            have hrn : (zeta ^ i * (zeta⁻¹) ^ j) ^ n = 1 := by
              have hzi : (zeta ^ i) ^ n = 1 := by
                rw [← pow_mul, Nat.mul_comm i n, pow_mul, hprim.pow_eq_one,
                  one_pow]
              have hzj : ((zeta⁻¹) ^ j) ^ n = 1 := by
                rw [inv_pow, inv_pow, ← pow_mul, Nat.mul_comm j n, pow_mul,
                  hprim.pow_eq_one, one_pow, inv_one]
              rw [mul_pow, hzi, hzj, one_mul]
            have hrne1 : zeta ^ i * (zeta⁻¹) ^ j ≠ 1 := by
              intro he
              have h4 : (zeta⁻¹) ^ j * zeta ^ j = 1 := by
                rw [inv_pow, inv_mul_cancel₀ (pow_ne_zero j hz0)]
              have h3 : zeta ^ i = zeta ^ j := by
                calc zeta ^ i = zeta ^ i * ((zeta⁻¹) ^ j * zeta ^ j) := by
                      rw [h4, mul_one]
                  _ = (zeta ^ i * (zeta⁻¹) ^ j) * zeta ^ j := by ring
                  _ = 1 * zeta ^ j := by rw [he]
                  _ = zeta ^ j := one_mul _
              exact hji ((hprim.pow_inj hi (Finset.mem_range.mp hj) h3).symm)
            rw [geom_sum_eq hrne1, hrn]
            simp
      _ = (n : ℂ) * a i := by
          have he : ∀ j ∈ Finset.range n,
              (if j = i then (n : ℂ) else 0) * a j =
              if j = i then (n : ℂ) * a j else 0 := by
            intro j hj
            split_ifs
            · rfl
            · exact zero_mul _
          rw [Finset.sum_congr rfl he, Finset.sum_ite_eq' (Finset.range n) i
            (fun j => (n : ℂ) * a j), if_pos (Finset.mem_range.mpr hi)]
  rw [key]
  have hne : (n : ℂ) ≠ 0 := Nat.cast_ne_zero.mpr (by omega)
  field_simp

/-- One forward and one inverse FFT of power-of-two length cancel. -/
theorem fft1D_round_trip (k : ℕ) (a : ℕ → ℂ) (i : ℕ) (hi : i < 2 ^ k) :
    inplaceInverseFFT1D (2 ^ k) (fun i2 => inplaceFFT1D (2 ^ k) a i2) i =
      a i := by
  have hn0 : (2 : ℕ) ^ k ≠ 0 := by positivity
  have hprim := Complex.isPrimitiveRoot_exp (2 ^ k) hn0
  have hfneg : Complex.exp (-2 * (Real.pi : ℂ) * Complex.I /
        ((2 ^ k : ℕ) : ℂ)) =
      (Complex.exp (2 * (Real.pi : ℂ) * Complex.I / ((2 ^ k : ℕ) : ℂ)))⁻¹ := by
    rw [show (-2 * (Real.pi : ℂ) * Complex.I / ((2 ^ k : ℕ) : ℂ)) =
      -(2 * (Real.pi : ℂ) * Complex.I / ((2 ^ k : ℕ) : ℂ)) by ring,
      Complex.exp_neg]
  have hb1 : Complex.exp (2 * (Real.pi : ℂ) * Complex.I /
      ((2 ^ k : ℕ) : ℂ)) ^ (2 ^ k : ℕ) = 1 := hprim.pow_eq_one
  have hb2 : 1 ≤ k → Complex.exp (2 * (Real.pi : ℂ) * Complex.I /
      ((2 ^ k : ℕ) : ℂ)) ^ (2 ^ (k - 1) : ℕ) = -1 := by
    intro hk
    have h2 : ((2 ^ k : ℕ) : ℂ) = 2 * ((2 ^ (k - 1) : ℕ) : ℂ) := by
      obtain ⟨m, rfl⟩ : ∃ m, k = m + 1 := ⟨k - 1, by omega⟩
      simp only [Nat.add_sub_cancel]
      push_cast [pow_succ]
      ring
    have hne : ((2 ^ (k - 1) : ℕ) : ℂ) ≠ 0 :=
      Nat.cast_ne_zero.mpr (by positivity)
    have hm : ((2 ^ (k - 1) : ℕ) : ℂ) *
        (2 * (Real.pi : ℂ) * Complex.I / ((2 ^ k : ℕ) : ℂ)) =
        (Real.pi : ℂ) * Complex.I := by
      rw [h2]
      field_simp
      ring
    rw [← Complex.exp_nat_mul, hm, Complex.exp_pi_mul_I]
  have hf1 : Complex.exp (-2 * (Real.pi : ℂ) * Complex.I /
      ((2 ^ k : ℕ) : ℂ)) ^ (2 ^ k : ℕ) = 1 := by
    rw [hfneg, inv_pow, hb1, inv_one]
  have hf2 : 1 ≤ k → Complex.exp (-2 * (Real.pi : ℂ) * Complex.I /
      ((2 ^ k : ℕ) : ℂ)) ^ (2 ^ (k - 1) : ℕ) = -1 := by
    intro hk
    rw [hfneg, inv_pow, hb2 hk]
    norm_num
  have hkle : k ≤ 2 ^ k := le_of_lt (Nat.lt_two_pow k)
  unfold inplaceInverseFFT1D
  rw [fft_correct (2 ^ k) k _ _ hkle hb1 hb2 i hi]
  unfold dftSpec
  have hcong : ∀ i2 ∈ Finset.range (2 ^ k),
      Complex.exp (2 * (Real.pi : ℂ) * Complex.I / ((2 ^ k : ℕ) : ℂ)) ^
          (i * i2) * inplaceFFT1D (2 ^ k) a i2 =
      Complex.exp (2 * (Real.pi : ℂ) * Complex.I / ((2 ^ k : ℕ) : ℂ)) ^
          (i * i2) *
        dftSpec (2 ^ k)
          (Complex.exp (2 * (Real.pi : ℂ) * Complex.I /
            ((2 ^ k : ℕ) : ℂ)))⁻¹ a i2 := by
    intro i2 hi2
    congr 1
    unfold inplaceFFT1D
    rw [fft_correct (2 ^ k) k _ _ hkle hf1 hf2 i2 (Finset.mem_range.mp hi2),
      hfneg]
  rw [Finset.sum_congr rfl hcong]
  exact dft_inversion (2 ^ k) (by positivity) _ hprim a i hi

/-- The full 2D round trip on the raw complex values: inverse rows after
forward rows cancel (for each fixed column index below the width), then
inverse columns after forward columns cancel. -/
theorem ifft_fwd_value (kx ky : ℕ) (p : ℕ → ℕ → ℂ) (x y : ℕ)
    (hx : x < 2 ^ kx) (hy : y < 2 ^ ky) :
    inplaceInverseFFT1D (2 ^ ky)
      (fun y2 => inplaceInverseFFT1D (2 ^ kx)
        (fun x2 => inplaceFFT1D (2 ^ kx)
          (fun x3 => inplaceFFT1D (2 ^ ky) (fun y3 => p y3 x3) y2) x2) x) y =
      p y x := by
  have hinner : ∀ y2 : ℕ,
      inplaceInverseFFT1D (2 ^ kx)
        (fun x2 => inplaceFFT1D (2 ^ kx)
          (fun x3 => inplaceFFT1D (2 ^ ky) (fun y3 => p y3 x3) y2) x2) x =
      inplaceFFT1D (2 ^ ky) (fun y3 => p y3 x) y2 := by
    intro y2
    exact fft1D_round_trip kx
      (fun x3 => inplaceFFT1D (2 ^ ky) (fun y3 => p y3 x3) y2) x hx
  rw [funext hinner]
  exact fft1D_round_trip ky (fun y3 => p y3 x) y hy

/-! Claim C3: the FFT round trip reproduces the image. -/

/-- Claim C3: for every image whose width and height are powers of two and
whose pixel values fit in a C `int`, `ifft2D (fft2D image)` succeeds and
returns an image with the same domain whose pixel values equal the
original values exactly (C doubles idealised as exact arithmetic). -/
theorem fft_c3 (im : IntImage) (kx ky : ℕ) (hw : wN im = 2 ^ kx)
    (hh : hN im = 2 ^ ky)
    (hrange : ∀ a b : ℕ, a < wN im → b < hN im →
      -(2 ^ 31 : ℤ) ≤ im.pixels b a ∧ im.pixels b a ≤ (2 ^ 31 : ℤ) - 1) :
    ∃ ft r, fft2D im = some ft ∧ ifft2D ft = some r ∧
      r.domain = im.domain ∧
      ∀ a b : ℕ, a < wN im → b < hN im → r.pixels b a = im.pixels b a := by
  have hgw : isPowerOfTwo (wN im) = true := by
    rw [hw]
    exact isPowerOfTwo_pow kx
  have hgh : isPowerOfTwo (hN im) = true := by
    rw [hh]
    exact isPowerOfTwo_pow ky
  refine ⟨⟨im.domain, fun y x =>
      inplaceFFT1D (wN im)
        (fun x2 => inplaceFFT1D (hN im)
          (fun y2 => ((im.pixels y2 x2 : ℤ) : ℂ)) y) x⟩,
    ⟨im.domain, -(2 ^ 31 : ℤ), (2 ^ 31 : ℤ) - 1, fun y x =>
      clampRange (-(2 ^ 31 : ℤ)) ((2 ^ 31 : ℤ) - 1)
        (truncRe (ifft2DVal ⟨im.domain, fun y3 x3 =>
          inplaceFFT1D (wN im)
            (fun x2 => inplaceFFT1D (hN im)
              (fun y2 => ((im.pixels y2 x2 : ℤ) : ℂ)) y3) x3⟩ y x))⟩,
    ?_, ?_, rfl, ?_⟩
  · unfold fft2D
    rw [if_pos ⟨hgw, hgh⟩]
  · unfold ifft2D
    rw [if_pos ⟨hgw, hgh⟩]
  · intro a b ha hb
    have hval : ifft2DVal
        ⟨im.domain, fun y x =>
          inplaceFFT1D (wN im)
            (fun x2 => inplaceFFT1D (hN im)
              (fun y2 => ((im.pixels y2 x2 : ℤ) : ℂ)) y) x⟩ b a =
        ((im.pixels b a : ℤ) : ℂ) := by
      have e : ifft2DVal
          ⟨im.domain, fun y x =>
            inplaceFFT1D (wN im)
              (fun x2 => inplaceFFT1D (hN im)
                (fun y2 => ((im.pixels y2 x2 : ℤ) : ℂ)) y) x⟩ b a =
          inplaceInverseFFT1D (hN im)
            (fun y2 => inplaceInverseFFT1D (wN im)
              (fun x2 => inplaceFFT1D (wN im)
                (fun x3 => inplaceFFT1D (hN im)
                  (fun y3 => ((im.pixels y3 x3 : ℤ) : ℂ)) y2) x2) a) b := rfl
      rw [e, hw, hh]
      exact ifft_fwd_value kx ky (fun y3 x3 => ((im.pixels y3 x3 : ℤ) : ℂ))
        a b (hw ▸ ha) (hh ▸ hb)
    show clampRange (-(2 ^ 31 : ℤ)) ((2 ^ 31 : ℤ) - 1)
        (truncRe (ifft2DVal _ b a)) = im.pixels b a
    rw [hval]
    have htr : truncRe ((im.pixels b a : ℤ) : ℂ) = im.pixels b a := by
      unfold truncRe
      rw [Complex.intCast_re]
      split_ifs
      · exact Int.floor_intCast _
      · exact Int.ceil_intCast _
    rw [htr]
    exact clampRange_id _ _ _ (hrange a b ha hb).1 (hrange a b ha hb).2

/-- The concrete 1x1 image used as the FFT round-trip witness. -/
def c3Im : IntImage := ⟨⟨0, 0, 0, 0⟩, 0, 10, fun _ _ => 5⟩

/-- Claim C3, witness: the round trip applied to the 1x1 image with pixel
value 5. -/
theorem fft_c3_witness :
    ∃ ft r, fft2D c3Im = some ft ∧ ifft2D ft = some r ∧
      r.domain = c3Im.domain ∧
      ∀ a b : ℕ, a < wN c3Im → b < hN c3Im → r.pixels b a = c3Im.pixels b a :=
  fft_c3 c3Im 0 0 (by decide) (by decide)
    (fun a b ha hb =>
      (by decide : ∀ a2, a2 < 1 → ∀ b2, b2 < 1 →
        -(2 ^ 31 : ℤ) ≤ c3Im.pixels b2 a2 ∧
        c3Im.pixels b2 a2 ≤ (2 ^ 31 : ℤ) - 1) a ha b hb)

/-! Claim C10: the inverse transform's output range and `(int)` cast. -/

/-- Claim C10: `ifft2D` allocates its output with dynamic range
`[INT_MIN, INT_MAX]` and stores each sample after a plain C `(int)` cast:
the imaginary part is discarded (the cast depends only on the real part),
the real part is truncated toward zero (floor for nonnegative values,
ceiling for negative ones, no `+0.5` rounding), and whenever the
truncated value fits in the `int` range the store clamps nothing and logs
no warning. -/
theorem ifft2D_c10 (im : ComplexImage) (kx ky : ℕ) (hw : wNC im = 2 ^ kx)
    (hh : hNC im = 2 ^ ky) :
    ∃ r, ifft2D im = some r ∧ r.minRange = -(2 ^ 31 : ℤ) ∧
      r.maxRange = (2 ^ 31 : ℤ) - 1 ∧ r.domain = im.domain ∧
      (∀ y x : ℕ, r.pixels y x =
        clampRange (-(2 ^ 31 : ℤ)) ((2 ^ 31 : ℤ) - 1)
          (truncRe (ifft2DVal im y x))) ∧
      (∀ y x : ℕ, -(2 ^ 31 : ℤ) ≤ truncRe (ifft2DVal im y x) →
        truncRe (ifft2DVal im y x) ≤ (2 ^ 31 : ℤ) - 1 →
        r.pixels y x = truncRe (ifft2DVal im y x) ∧
        ¬warnsRange (-(2 ^ 31 : ℤ)) ((2 ^ 31 : ℤ) - 1)
          (truncRe (ifft2DVal im y x))) ∧
      (∀ z w : ℂ, z.re = w.re → truncRe z = truncRe w) ∧
      (∀ z : ℂ, 0 ≤ z.re →
        ((truncRe z : ℤ) : ℝ) ≤ z.re ∧ z.re < ((truncRe z : ℤ) : ℝ) + 1) ∧
      (∀ z : ℂ, z.re < 0 →
        z.re ≤ ((truncRe z : ℤ) : ℝ) ∧ ((truncRe z : ℤ) : ℝ) - 1 < z.re) := by
  have hgw : isPowerOfTwo (wNC im) = true := by
    rw [hw]
    exact isPowerOfTwo_pow kx
  have hgh : isPowerOfTwo (hNC im) = true := by
    rw [hh]
    exact isPowerOfTwo_pow ky
  refine ⟨⟨im.domain, -(2 ^ 31 : ℤ), (2 ^ 31 : ℤ) - 1, fun y x =>
      clampRange (-(2 ^ 31 : ℤ)) ((2 ^ 31 : ℤ) - 1)
        (truncRe (ifft2DVal im y x))⟩,
    ?_, rfl, rfl, rfl, fun y x => rfl, ?_, ?_, ?_, ?_⟩
  · unfold ifft2D
    rw [if_pos ⟨hgw, hgh⟩]
  · intro y x h1 h2
    refine ⟨clampRange_id _ _ _ h1 h2, ?_⟩
    unfold warnsRange
    split_ifs <;> omega
  · intro z w hzw
    unfold truncRe
    rw [hzw]
  · intro z hz
    unfold truncRe
    rw [if_pos hz]
    exact ⟨Int.floor_le z.re, Int.lt_floor_add_one z.re⟩
  · intro z hz
    unfold truncRe
    rw [if_neg (by linarith : ¬(0 : ℝ) ≤ z.re)]
    constructor
    · exact Int.le_ceil z.re
    · have := Int.ceil_lt_add_one z.re
      linarith

/-- A concrete 1x1 complex image with pixel value 5. -/
noncomputable def c10Im : ComplexImage := ⟨⟨0, 0, 0, 0⟩, fun _ _ => 5⟩

/-- Claim C10, witness: the theorem applied to the 1x1 complex image. -/
theorem ifft2D_c10_witness :
    ∃ r, ifft2D c10Im = some r ∧ r.minRange = -(2 ^ 31 : ℤ) ∧
      r.maxRange = (2 ^ 31 : ℤ) - 1 ∧ r.domain = c10Im.domain ∧
      (∀ y x : ℕ, r.pixels y x =
        clampRange (-(2 ^ 31 : ℤ)) ((2 ^ 31 : ℤ) - 1)
          (truncRe (ifft2DVal c10Im y x))) ∧
      (∀ y x : ℕ, -(2 ^ 31 : ℤ) ≤ truncRe (ifft2DVal c10Im y x) →
        truncRe (ifft2DVal c10Im y x) ≤ (2 ^ 31 : ℤ) - 1 →
        r.pixels y x = truncRe (ifft2DVal c10Im y x) ∧
        ¬warnsRange (-(2 ^ 31 : ℤ)) ((2 ^ 31 : ℤ) - 1)
          (truncRe (ifft2DVal c10Im y x))) ∧
      (∀ z w : ℂ, z.re = w.re → truncRe z = truncRe w) ∧
      (∀ z : ℂ, 0 ≤ z.re →
        ((truncRe z : ℤ) : ℝ) ≤ z.re ∧ z.re < ((truncRe z : ℤ) : ℝ) + 1) ∧
      (∀ z : ℂ, z.re < 0 →
        z.re ≤ ((truncRe z : ℤ) : ℝ) ∧ ((truncRe z : ℤ) : ℝ) - 1 < z.re) :=
  ifft2D_c10 c10Im 0 0 (by decide) (by decide)
